import Mathlib

/-!
# Right-associative expression parser (`src/parser.cpp`)

A shallow embedding of the tokenizer and the recursive-descent parser/evaluator
of `src/parser.cpp`, and theorems about it.

Modelling conventions.

* The input `std::string` is a `List Char`, one list element per `char`.
* The C++ `double` is an abstract carrier `α` with the operations the program
  uses, collected in `Arith α`.  Every theorem holds for every interpretation
  of these operations, in particular for IEEE-754 binary64.  `exact` is the
  interpretation by exact rational arithmetic, used for concrete examples, and
  `ieee` adds the special values of IEEE 754 (signed zeros, infinities, NaN),
  used for division by zero.
* `std::stod` has both of its exceptions: `std::invalid_argument` when no
  conversion can be performed, and `std::out_of_range` when `strtod` reports
  `ERANGE`; the range is that of IEEE 754 binary64 (`inDoubleRange`).
* A C++ exception is an `Except.error`; the tokenizer also returns the state it
  leaves behind, because `pos` is advanced before an exception is thrown.
* `parseExpression` and `parseTerm` are mutually recursive; the embedding makes
  the depth of the call stack explicit as a fuel argument, and `evaluate`
  supplies `2 * length + 2`, which is always enough (`evaluate_ne_outOfFuel`).
* `isspace` and `isdigit` are those of the "C" locale.
-/

namespace RightAssocParser

set_option exponentiation.threshold 2048

/-! ## Data model -/

/-- The operations on `double` used by the program: the literal `0` of
`Token{END, 0}`, the four binary operators, unary minus, and the decimal to
binary conversion performed by `std::stod`, where `ofDecimal m k` is the
`double` obtained for the decimal numeral with digit string `m` and `k` digits
after the decimal point, that is `m / 10 ^ k`.  The program applies the
conversion only to numerals in the range of `double` (`inDoubleRange`); for the
others `std::stod` throws. -/
structure Arith (α : Type) where
  zero : α
  add : α → α → α
  sub : α → α → α
  mul : α → α → α
  div : α → α → α
  neg : α → α
  ofDecimal : Nat → Nat → α

/-- Exact rational arithmetic as an interpretation of `Arith`. -/
def exact : Arith ℚ where
  zero := 0
  add := fun a b => a + b
  sub := fun a b => a - b
  mul := fun a b => a * b
  div := fun a b => a / b
  neg := fun a => -a
  ofDecimal := fun m k => (m : ℚ) / (10 : ℚ) ^ k

/-- The enumeration `TokenType` of line 9. -/
inductive TokenType
  | NUMBER | PLUS | MINUS | MULTIPLY | DIVIDE | LPAREN | RPAREN | END
  deriving DecidableEq, Repr

/-- The struct `Token`: a kind and a numeric payload (0 unless a number). -/
structure Token (α : Type) where
  type : TokenType
  value : α

/-- The exceptions that can leave `evaluate`: the three `std::runtime_error`s
thrown by the program ("Invalid character in input", "Unexpected token",
"invalid syntax"), and the two exceptions thrown by `std::stod`:
`std::invalid_argument` (`NumberFormatError`) and `std::out_of_range`
(`OutOfRange`). -/
inductive Err
  | InvalidCharacter | UnexpectedToken | InvalidSyntax | NumberFormatError | OutOfRange
  deriving DecidableEq, Repr

/-- The state of `class Tokenizer`: the text and the cursor `pos`. -/
structure Tokenizer where
  input : List Char
  pos : Nat
  deriving DecidableEq, Repr

/-- The state of `class Parser`: the tokenizer and the one-token lookahead. -/
structure Parser (α : Type) where
  tokenizer : Tokenizer
  currentToken : Token α

/-- Result of a parsing function run with bounded call depth. -/
inductive Res (β : Type)
  | ok (b : β)
  | error (e : Err)
  | outOfFuel

/-! ## Character classes and `std::stod` -/

/-- The C function `isspace` in the "C" locale: space, `\t`, `\n`, `\v`, `\f`, `\r`. -/
def isspace (c : Char) : Bool := c.toNat == 32 || (9 ≤ c.toNat && c.toNat ≤ 13)

/-- The C function `isdigit`: `'0'` to `'9'`. -/
def isdigit (c : Char) : Bool := 48 ≤ c.toNat && c.toNat ≤ 57

/-- The loop condition of `parseNumber`: `isdigit(c) || c == '.'`. -/
def isNumChar (c : Char) : Bool := isdigit c || c == '.'

/-- Value of a decimal digit character. -/
def digitVal (c : Char) : Nat := c.toNat - 48

/-- The natural number written by a string of decimal digits. -/
def digitsToNat (ds : List Char) : Nat := ds.foldl (fun n c => 10 * n + digitVal c) 0

/-- The part of a string of digits and decimal points that `strtod` converts:
the longest initial part that has the form of a decimal floating-point constant
(digits, optionally containing one decimal point, with at least one digit).
The result is the digit string read as a natural number together with the
number of digits after the decimal point, or `none` when that part is empty. -/
def decimalPrefix (s : List Char) : Option (Nat × Nat) :=
  let ip := s.takeWhile isdigit
  let fp := match s.dropWhile isdigit with
    | '.' :: r => r.takeWhile isdigit
    | _ => []
  if ip.isEmpty && fp.isEmpty then none
  else some (digitsToNat (ip ++ fp), fp.length)

/-- Whether `strtod` converts the decimal numeral with digit string `m` and `k`
digits after the decimal point, of value `m / 10 ^ k`, without reporting
`ERANGE`.  A `double` is an IEEE 754 binary64 and the conversion rounds to
nearest.  The result overflows when the value is at least `2 ^ 1024 - 2 ^ 970`,
which lies halfway between the largest finite `double` and `2 ^ 1024`.  An
underflow is reported, as the GNU C library does on x86-64, when the result is
tiny and inexact: the value is below `2 ^ (-1022) - 2 ^ (-1076)`, so that it
does not round to the least normal number `2 ^ (-1022)`, and is not a multiple
of `2 ^ (-1074)`, the least subnormal number. -/
def inDoubleRange (m k : Nat) : Bool :=
  decide (m < (2 ^ 1024 - 2 ^ 970) * 10 ^ k) &&
    (decide ((2 ^ 54 - 1) * 10 ^ k ≤ m * 2 ^ 1076) || m * 2 ^ 1074 % 10 ^ k == 0)

/-- The library function `std::stod` on a string made of digits and decimal
points, which is all `parseNumber` ever passes to it.  As `strtod`, it converts
the longest initial part of the string that has the form of a decimal
floating-point constant and ignores what follows.  `std::stod` throws
`std::invalid_argument` when that part is empty, that is, when no conversion
can be performed, and `std::out_of_range` when `strtod` reports `ERANGE`. -/
def stod {α : Type} (A : Arith α) (s : List Char) : Except Err α :=
  match decimalPrefix s with
  | none => .error .NumberFormatError
  | some (m, k) => if inDoubleRange m k then .ok (A.ofDecimal m k) else .error .OutOfRange

/-! ## Tokenizer -/

/-- The loop `while (pos < input.size() && p(input[pos])) pos++`, run for at
most `fuel` iterations; it returns the final `pos`. -/
def scanWhile (p : Char → Bool) (input : List Char) : Nat → Nat → Nat
  | 0, pos => pos
  | fuel + 1, pos =>
    match input[pos]? with
    | some c => if p c then scanWhile p input fuel (pos + 1) else pos
    | none => pos

/-- The method `Tokenizer::parseNumber`: scan over digits and decimal points,
then convert the scanned substring with `std::stod`. -/
def Tokenizer.parseNumber {α : Type} (A : Arith α) (t : Tokenizer) :
    Except Err α × Tokenizer :=
  let start := t.pos
  let pos := scanWhile isNumChar t.input t.input.length t.pos
  (stod A ((t.input.drop start).take (pos - start)), ⟨t.input, pos⟩)

/-- The method `Tokenizer::getNextToken`.  The second component is the
tokenizer state after the call, also when the call throws. -/
def Tokenizer.getNextToken {α : Type} (A : Arith α) (t : Tokenizer) :
    Except Err (Token α) × Tokenizer :=
  let pos := scanWhile isspace t.input t.input.length t.pos
  match t.input[pos]? with
  | none => (.ok ⟨.END, A.zero⟩, ⟨t.input, pos⟩)
  | some current =>
    if isdigit current || current == '.' then
      match Tokenizer.parseNumber A ⟨t.input, pos⟩ with
      | (.ok number, t1) => (.ok ⟨.NUMBER, number⟩, t1)
      | (.error e, t1) => (.error e, t1)
    else
      let t1 : Tokenizer := ⟨t.input, pos + 1⟩
      if current = '+' then (.ok ⟨.PLUS, A.zero⟩, t1)
      else if current = '-' then (.ok ⟨.MINUS, A.zero⟩, t1)
      else if current = '*' then (.ok ⟨.MULTIPLY, A.zero⟩, t1)
      else if current = '/' then (.ok ⟨.DIVIDE, A.zero⟩, t1)
      else if current = '(' then (.ok ⟨.LPAREN, A.zero⟩, t1)
      else if current = ')' then (.ok ⟨.RPAREN, A.zero⟩, t1)
      else (.error .InvalidCharacter, t1)

/-! ## Parser -/

/-- The constructor `Parser(Tokenizer&)`: the lookahead is primed with the
first token. -/
def Parser.new {α : Type} (A : Arith α) (t : Tokenizer) : Except Err (Parser α) :=
  match t.getNextToken A with
  | (.ok tok, t1) => .ok ⟨t1, tok⟩
  | (.error e, _) => .error e

/-- The method `Parser::consume`. -/
def Parser.consume {α : Type} (A : Arith α) (p : Parser α) (type : TokenType) :
    Except Err (Parser α) :=
  if p.currentToken.type = type then
    match p.tokenizer.getNextToken A with
    | (.ok tok, t1) => .ok ⟨t1, tok⟩
    | (.error e, _) => .error e
  else .error .UnexpectedToken

/-- The right operand of a binary operator: `consume(op)` and then the
recursive call, whose value is combined with `result` by `f`. -/
def binaryRest {α : Type} (A : Arith α) (rec : Parser α → Res (α × Parser α))
    (f : α → α → α) (result : α) (p : Parser α) (op : TokenType) : Res (α × Parser α) :=
  match p.consume A op with
  | .error e => .error e
  | .ok p1 =>
    match rec p1 with
    | .ok (rhs, p2) => .ok (f result rhs, p2)
    | .error e => .error e
    | .outOfFuel => .outOfFuel

mutual

/-- The method `Parser::parseExpression`, with call depth at most the first
argument. -/
def parseExpression {α : Type} (A : Arith α) : Nat → Parser α → Res (α × Parser α)
  | 0, _ => .outOfFuel
  | fuel + 1, p =>
    match parseTerm A fuel p with
    | .error e => .error e
    | .outOfFuel => .outOfFuel
    | .ok (result, p1) =>
      if p1.currentToken.type = .PLUS then
        binaryRest A (parseExpression A fuel) A.add result p1 .PLUS
      else if p1.currentToken.type = .MINUS then
        binaryRest A (parseExpression A fuel) A.sub result p1 .MINUS
      else if p1.currentToken.type = .MULTIPLY then
        binaryRest A (parseExpression A fuel) A.mul result p1 .MULTIPLY
      else if p1.currentToken.type = .DIVIDE then
        binaryRest A (parseExpression A fuel) A.div result p1 .DIVIDE
      else .ok (result, p1)

/-- The method `Parser::parseTerm`, with call depth at most the first
argument. -/
def parseTerm {α : Type} (A : Arith α) : Nat → Parser α → Res (α × Parser α)
  | 0, _ => .outOfFuel
  | fuel + 1, p =>
    if p.currentToken.type = .NUMBER then
      let value := p.currentToken.value
      match p.consume A .NUMBER with
      | .error e => .error e
      | .ok p1 => .ok (value, p1)
    else if p.currentToken.type = .LPAREN then
      match p.consume A .LPAREN with
      | .error e => .error e
      | .ok p1 =>
        match parseExpression A fuel p1 with
        | .error e => .error e
        | .outOfFuel => .outOfFuel
        | .ok (result, p2) =>
          match p2.consume A .RPAREN with
          | .error e => .error e
          | .ok p3 => .ok (result, p3)
    else if p.currentToken.type = .MINUS then
      match p.consume A .MINUS with
      | .error e => .error e
      | .ok p1 =>
        let result := p1.currentToken.value
        match p1.consume A .NUMBER with
        | .error e => .error e
        | .ok p2 => .ok (A.neg result, p2)
    else .error .InvalidSyntax

end

/-- The function `evaluate`: build a tokenizer over the text, prime the parser,
parse one expression and return its value. -/
def evaluate {α : Type} (A : Arith α) (expression : List Char) : Res α :=
  match Parser.new A ⟨expression, 0⟩ with
  | .error e => .error e
  | .ok parser =>
    match parseExpression A (2 * expression.length + 2) parser with
    | .ok (v, _) => .ok v
    | .error e => .error e
    | .outOfFuel => .outOfFuel

/-! ## The tokenizer as a function of the text from the cursor on -/

/-- What `getNextToken` does with the text `suf` that starts at the cursor: its
result, and the number of characters by which the cursor advances. -/
def lexRest {α : Type} (A : Arith α) (suf : List Char) : Except Err (Token α) × Nat :=
  let n := (suf.takeWhile isspace).length
  match suf.dropWhile isspace with
  | [] => (.ok ⟨.END, A.zero⟩, n)
  | current :: r =>
    if isdigit current || current == '.' then
      let run := (current :: r).takeWhile isNumChar
      match stod A run with
      | .ok number => (.ok ⟨.NUMBER, number⟩, n + run.length)
      | .error e => (.error e, n + run.length)
    else
      if current = '+' then (.ok ⟨.PLUS, A.zero⟩, n + 1)
      else if current = '-' then (.ok ⟨.MINUS, A.zero⟩, n + 1)
      else if current = '*' then (.ok ⟨.MULTIPLY, A.zero⟩, n + 1)
      else if current = '/' then (.ok ⟨.DIVIDE, A.zero⟩, n + 1)
      else if current = '(' then (.ok ⟨.LPAREN, A.zero⟩, n + 1)
      else if current = ')' then (.ok ⟨.RPAREN, A.zero⟩, n + 1)
      else (.error .InvalidCharacter, n + 1)

/-- Whether a token kind is one of the four binary operators. -/
def isBinaryOp : TokenType → Bool
  | .PLUS | .MINUS | .MULTIPLY | .DIVIDE => true
  | _ => false

/-- Whether a text begins with a character satisfying `p`. -/
def startsWith (p : Char → Bool) : List Char → Bool
  | [] => false
  | c :: _ => p c

/-- Whether a token kind can start a term in `parseTerm`: a Number, a
LeftParen or a Minus. -/
def startsTerm : TokenType → Bool
  | .NUMBER | .LPAREN | .MINUS => true
  | _ => false

/-- The measure that bounds the call depth: the number of characters from the
cursor to the end of the text, plus one when the lookahead is not End. -/
def Parser.measure {α : Type} (p : Parser α) : Nat :=
  (p.tokenizer.input.length - p.tokenizer.pos) + (if p.currentToken.type = .END then 0 else 1)

/-! ## The grammar of the specification

```
expression := term ( ('+'|'-'|'*'|'/') expression )?
term       := NUMBER | '(' expression ')' | '-' NUMBER
```
-/

/-- The four binary operators of the grammar. -/
inductive BinOp
  | plus | minus | times | divide
  deriving DecidableEq, Repr

/-- The character that writes a binary operator. -/
def BinOp.char : BinOp → Char
  | .plus => '+'
  | .minus => '-'
  | .times => '*'
  | .divide => '/'

/-- The token kind of a binary operator. -/
def BinOp.tokenType : BinOp → TokenType
  | .plus => .PLUS
  | .minus => .MINUS
  | .times => .MULTIPLY
  | .divide => .DIVIDE

/-- The arithmetic operation of a binary operator. -/
def BinOp.apply {α : Type} (A : Arith α) : BinOp → α → α → α
  | .plus => A.add
  | .minus => A.sub
  | .times => A.mul
  | .divide => A.div

/-- A text of whitespace characters only. -/
def isBlank (ws : List Char) : Bool := ws.all isspace

/-- The text of a NUMBER token: a non-empty run of digits and decimal points
that `std::stod` converts, so that its initial part is a numeral in the range
of `double`. -/
def isNumber (lit : List Char) : Bool :=
  !lit.isEmpty && lit.all isNumChar &&
    match decimalPrefix lit with
    | some (m, k) => inDoubleRange m k
    | none => false

/-- The value `std::stod` gives to the text of a NUMBER token. -/
def litValue {α : Type} (A : Arith α) (lit : List Char) : α :=
  match decimalPrefix lit with
  | some (m, k) => A.ofDecimal m k
  | none => A.zero

/-- Expression trees of the grammar, as written: every token carries the
whitespace that stands in front of it.  `num`, `neg` and `paren` are the three
forms of a term; `bin t ws op e` is `t op e` with `t` a term and `e` an
expression. -/
inductive Tree
  | num (ws lit : List Char)
  | neg (ws1 ws2 lit : List Char)
  | paren (ws1 : List Char) (e : Tree) (ws2 : List Char)
  | bin (t : Tree) (ws : List Char) (op : BinOp) (e : Tree)

/-- The text of a tree: its tokens in order, each after its whitespace. -/
def Tree.text : Tree → List Char
  | .num ws lit => ws ++ lit
  | .neg ws1 ws2 lit => ws1 ++ '-' :: (ws2 ++ lit)
  | .paren ws1 e ws2 => ws1 ++ '(' :: (e.text ++ (ws2 ++ [')']))
  | .bin t ws op e => t.text ++ (ws ++ op.char :: e.text)

/-- Whether a tree is a term. -/
def Tree.isTerm : Tree → Bool
  | .bin _ _ _ _ => false
  | _ => true

/-- Whether a tree is an expression of the grammar: whitespace is whitespace,
number texts are number texts, and the left operand of an operator is a term. -/
def Tree.wf : Tree → Bool
  | .num ws lit => isBlank ws && isNumber lit
  | .neg ws1 ws2 lit => isBlank ws1 && isBlank ws2 && isNumber lit
  | .paren ws1 e ws2 => isBlank ws1 && e.wf && isBlank ws2
  | .bin t ws _ e => t.isTerm && t.wf && isBlank ws && e.wf

/-- The value of a tree: `t op e` is valued as `value t op value e`. -/
def Tree.value {α : Type} (A : Arith α) : Tree → α
  | .num _ lit => litValue A lit
  | .neg _ _ lit => A.neg (litValue A lit)
  | .paren _ e _ => e.value A
  | .bin t _ op e => op.apply A (t.value A) (e.value A)

/-- A bound on the call depth `parseExpression` needs for a tree. -/
def Tree.cost : Tree → Nat
  | .num _ _ => 2
  | .neg _ _ _ => 2
  | .paren _ e _ => e.cost + 2
  | .bin t _ _ e => t.cost + e.cost

/-- The token kind written by one of the six punctuation characters. -/
def punctKind : Char → Option TokenType
  | '+' => some .PLUS
  | '-' => some .MINUS
  | '*' => some .MULTIPLY
  | '/' => some .DIVIDE
  | '(' => some .LPAREN
  | ')' => some .RPAREN
  | _ => none

/-- The tree of `8 - (2 * 3) / -4`, written with some whitespace. -/
def sampleTree : Tree :=
  .bin (.num [] ['8']) [' '] .minus
    (.bin (.paren [' '] (.bin (.num [] ['2']) [' ', '\t'] .times (.num [' '] ['3'])) [])
      [] .divide (.neg [' '] [] ['4']))

/-- A well-formed numeral, in the words of the specification: digits with at
most one decimal point and at least one digit. -/
def isNumeral (s : List Char) : Bool :=
  s.all isNumChar && decide (s.count '.' ≤ 1) && s.any isdigit

/-- The value of a well-formed numeral read as a decimal fraction: the digits
before and after the decimal point, as one natural number, over ten to the
number of digits after the decimal point. -/
def numeralValue {α : Type} (A : Arith α) (s : List Char) : α :=
  let ip := s.takeWhile (fun c => c != '.')
  let fp := (s.dropWhile (fun c => c != '.')).drop 1
  A.ofDecimal (digitsToNat (ip ++ fp)) fp.length

/-- Whether a well-formed numeral is in the range of `double`, so that
`std::stod` converts it: the test `inDoubleRange` on its digits and on the
number of digits after the decimal point. -/
def numeralInRange (s : List Char) : Bool :=
  let ip := s.takeWhile (fun c => c != '.')
  let fp := (s.dropWhile (fun c => c != '.')).drop 1
  inDoubleRange (digitsToNat (ip ++ fp)) fp.length

/-- The numeral of `10 ^ 400`: the digit `1` followed by 400 zeros. -/
def hugeNumeral : List Char := '1' :: List.replicate 400 '0'

/-- The tree of `2+3`. -/
def twoPlusThree : Tree := .bin (.num [] ['2']) [] .plus (.num [] ['3'])

/-- What the grammar allows in front of a place where a term is expected: a
term with a binary operator, `t op`, or an opening parenthesis. -/
inductive Item
  | operand (t : Tree) (ws : List Char) (op : BinOp)
  | lparen (ws : List Char)

/-- The text of an item. -/
def Item.text : Item → List Char
  | .operand t ws op => t.text ++ (ws ++ [op.char])
  | .lparen ws => ws ++ ['(']

/-- Whether an item is well formed: its operand is a term of the grammar and
its whitespace is whitespace. -/
def Item.wf : Item → Bool
  | .operand t ws _ => t.isTerm && t.wf && isBlank ws
  | .lparen ws => isBlank ws

/-- A bound on the call depth an item adds. -/
def Item.cost : Item → Nat
  | .operand t _ _ => t.cost
  | .lparen _ => 2

/-- The text of a sequence of items: everything that has been read when the
parser reaches the start of the next term. -/
def contextText : List Item → List Char
  | [] => []
  | i :: is => i.text ++ contextText is

/-- Whether all items of a sequence are well formed. -/
def contextWf (P : List Item) : Bool := P.all Item.wf

/-- A bound on the call depth a sequence of items adds. -/
def contextCost : List Item → Nat
  | [] => 0
  | i :: is => i.cost + contextCost is

/-- The items of `2 * (`, in front of a place where a term is expected. -/
def sampleContext : List Item := [.operand (.num [] ['2']) [' '] .times, .lparen [' ']]

/-- What the parser has consumed of the term at hand when it asks the tokenizer
for the next token: nothing (the token asked for is the first token of the
term), the minus sign of a negated number (the token asked for is its number),
or the whole term (the token asked for is the lookahead behind the term). -/
inductive Seen
  | nothing
  | minus (ws : List Char)
  | term (t : Tree)

/-- The text of what the parser has consumed of the term at hand. -/
def Seen.text : Seen → List Char
  | .nothing => []
  | .minus ws => ws ++ ['-']
  | .term t => t.text

/-- Whether the parser can have consumed this much of a term in front of the
text `rest`: the whitespace is whitespace, a term is a term of the grammar, and
a term that ends in a number is not followed by a digit or a decimal point,
which would belong to the number. -/
def Seen.wf (rest : List Char) : Seen → Bool
  | .nothing => true
  | .minus ws => isBlank ws
  | .term (.num ws lit) => (Tree.num ws lit).wf && !startsWith isNumChar rest
  | .term (.neg ws1 ws2 lit) => (Tree.neg ws1 ws2 lit).wf && !startsWith isNumChar rest
  | .term (.paren ws1 e ws2) => (Tree.paren ws1 e ws2).wf
  | .term (.bin _ _ _ _) => false

/-! ## Reachable states, indistinguishable states, recursion depth, IEEE 754 -/

/-- The states that a tokenizer over `text` can reach by calls of
`getNextToken`, whether they return or throw. -/
inductive Tokenizer.Reachable {α : Type} (A : Arith α) (text : List Char) : Tokenizer → Prop
  | fresh : Tokenizer.Reachable A text ⟨text, 0⟩
  | next {t : Tokenizer} : Tokenizer.Reachable A text t →
      Tokenizer.Reachable A text (t.getNextToken A).2

/-- Two parser states that the parser cannot tell apart: the same lookahead,
and the same text from the cursor on, up to whitespace at the end of the text. -/
def Parser.Sim {α : Type} (p q : Parser α) : Prop :=
  p.currentToken = q.currentToken ∧
  ∃ w : List Char, isBlank w = true ∧
    p.tokenizer.input.drop p.tokenizer.pos = q.tokenizer.input.drop q.tokenizer.pos ++ w

/-- Two results of a parsing function that agree up to `Parser.Sim`. -/
def ResSim {α : Type} (r r' : Res (α × Parser α)) : Prop :=
  (r = .outOfFuel ∧ r' = .outOfFuel) ∨
  (∃ e, r = .error e ∧ r' = .error e) ∨
  (∃ v p q, r = .ok (v, p) ∧ r' = .ok (v, q) ∧ Parser.Sim p q)

/-- The values of an IEEE 754 `double` with their special values: the finite
numbers (here every rational, `fin 0` being `+0`), `-0`, the two infinities
and NaN. -/
inductive Dbl
  | fin (q : ℚ)
  | negZero
  | posInf
  | negInf
  | nan
  deriving DecidableEq

/-- The sign bit of a `double` that is not NaN. -/
def Dbl.isNeg : Dbl → Bool
  | .fin q => decide (q < 0)
  | .negZero => true
  | .negInf => true
  | _ => false

/-- The zero with the given sign bit. -/
def Dbl.signedZero (neg : Bool) : Dbl := if neg then .negZero else .fin 0

/-- The infinity with the given sign bit. -/
def Dbl.signedInf (neg : Bool) : Dbl := if neg then .negInf else .posInf

/-- The value of a finite `double`, and `none` for the infinities and NaN. -/
def Dbl.finite? : Dbl → Option ℚ
  | .fin q => some q
  | .negZero => some 0
  | _ => none

/-- Unary minus of IEEE 754: it flips the sign bit. -/
def Dbl.neg : Dbl → Dbl
  | .fin q => if q = 0 then .negZero else .fin (-q)
  | .negZero => .fin 0
  | .posInf => .negInf
  | .negInf => .posInf
  | .nan => .nan

/-- Addition of IEEE 754 on the special values, exact on finite numbers: the
sum of opposite infinities is NaN, and a zero sum is `+0` unless both operands
are `-0`. -/
def Dbl.add : Dbl → Dbl → Dbl
  | .nan, _ => .nan
  | _, .nan => .nan
  | .posInf, .negInf => .nan
  | .negInf, .posInf => .nan
  | .posInf, _ => .posInf
  | _, .posInf => .posInf
  | .negInf, _ => .negInf
  | _, .negInf => .negInf
  | .negZero, .negZero => .negZero
  | .negZero, .fin q => .fin q
  | .fin q, .negZero => .fin q
  | .fin q, .fin r => .fin (q + r)

/-- Subtraction of IEEE 754: `x - y` is `x + (-y)`. -/
def Dbl.sub (x y : Dbl) : Dbl := x.add y.neg

/-- Multiplication of IEEE 754 on the special values, exact on finite numbers:
zero times an infinity is NaN, and the sign of the result is the exclusive or
of the signs. -/
def Dbl.mul (x y : Dbl) : Dbl :=
  match x.finite?, y.finite? with
  | some q, some r =>
    if q * r = 0 then Dbl.signedZero (x.isNeg != y.isNeg) else .fin (q * r)
  | some q, none =>
    if y = .nan then .nan
    else if q = 0 then .nan else Dbl.signedInf (x.isNeg != y.isNeg)
  | none, some r =>
    if x = .nan then .nan
    else if r = 0 then .nan else Dbl.signedInf (x.isNeg != y.isNeg)
  | none, none =>
    if x = .nan ∨ y = .nan then .nan else Dbl.signedInf (x.isNeg != y.isNeg)

/-- Division of IEEE 754 on the special values, exact on finite numbers: `0 / 0`
and the quotient of two infinities are NaN, a non-zero number over zero is an
infinity, a finite number over an infinity is a zero, and the sign of the
result is the exclusive or of the signs. -/
def Dbl.div (x y : Dbl) : Dbl :=
  match x.finite?, y.finite? with
  | some q, some r =>
    if r = 0 then (if q = 0 then .nan else Dbl.signedInf (x.isNeg != y.isNeg))
    else if q = 0 then Dbl.signedZero (x.isNeg != y.isNeg) else .fin (q / r)
  | some _, none =>
    if y = .nan then .nan else Dbl.signedZero (x.isNeg != y.isNeg)
  | none, some _ =>
    if x = .nan then .nan else Dbl.signedInf (x.isNeg != y.isNeg)
  | none, none => .nan

/-- The arithmetic of `double` with the special values of IEEE 754, which the
platform uses for division by zero.  Finite results of the operations are
exact: their rounding, overflow and underflow are not modelled. -/
def ieee : Arith Dbl where
  zero := .fin 0
  add := Dbl.add
  sub := Dbl.sub
  mul := Dbl.mul
  div := Dbl.div
  neg := Dbl.neg
  ofDecimal := fun m k => .fin ((m : ℚ) / (10 : ℚ) ^ k)

/-- The method `Parser::parseTerm`, with the nested call of `parseExpression`
passed as an argument. -/
def parseTermWith {α : Type} (A : Arith α) (parseExpr : Parser α → Res (α × Parser α))
    (p : Parser α) : Res (α × Parser α) :=
  if p.currentToken.type = .NUMBER then
    let value := p.currentToken.value
    match p.consume A .NUMBER with
    | .error e => .error e
    | .ok p1 => .ok (value, p1)
  else if p.currentToken.type = .LPAREN then
    match p.consume A .LPAREN with
    | .error e => .error e
    | .ok p1 =>
      match parseExpr p1 with
      | .error e => .error e
      | .outOfFuel => .outOfFuel
      | .ok (result, p2) =>
        match p2.consume A .RPAREN with
        | .error e => .error e
        | .ok p3 => .ok (result, p3)
  else if p.currentToken.type = .MINUS then
    match p.consume A .MINUS with
    | .error e => .error e
    | .ok p1 =>
      let result := p1.currentToken.value
      match p1.consume A .NUMBER with
      | .error e => .error e
      | .ok p2 => .ok (A.neg result, p2)
  else .error .InvalidSyntax

/-- The method `Parser::parseExpression` with its recursion depth bounded: at
most `depth` activations of `parseExpression` are nested in each other, that
is, the recursion is at most `depth - 1` calls deep.  The calls of `parseTerm`
are not counted. -/
def parseExpressionDepth {α : Type} (A : Arith α) : Nat → Parser α → Res (α × Parser α)
  | 0, _ => .outOfFuel
  | depth + 1, p =>
    match parseTermWith A (parseExpressionDepth A depth) p with
    | .error e => .error e
    | .outOfFuel => .outOfFuel
    | .ok (result, p1) =>
      if p1.currentToken.type = .PLUS then
        binaryRest A (parseExpressionDepth A depth) A.add result p1 .PLUS
      else if p1.currentToken.type = .MINUS then
        binaryRest A (parseExpressionDepth A depth) A.sub result p1 .MINUS
      else if p1.currentToken.type = .MULTIPLY then
        binaryRest A (parseExpressionDepth A depth) A.mul result p1 .MULTIPLY
      else if p1.currentToken.type = .DIVIDE then
        binaryRest A (parseExpressionDepth A depth) A.div result p1 .DIVIDE
      else .ok (result, p1)

/-- Whether a character writes a binary operator or a left parenthesis. -/
def isOperatorChar (c : Char) : Bool :=
  c == '+' || c == '-' || c == '*' || c == '/' || c == '('

/-- The number of binary operators and left parentheses in a text. -/
def operatorCount (s : List Char) : Nat := s.countP isOperatorChar

/-- Whether a token is a binary operator or a left parenthesis. -/
def isOperatorToken (type : TokenType) : Bool := isBinaryOp type || type == .LPAREN

/-- The number of binary operators and left parentheses that the parser has not
consumed yet: those from the cursor on, and the lookahead if it is one. -/
def Parser.pending {α : Type} (p : Parser α) : Nat :=
  operatorCount (p.tokenizer.input.drop p.tokenizer.pos) +
    (if isOperatorToken p.currentToken.type then 1 else 0)

/-! ## Lemmas about the tokenizer -/

theorem scanWhile_eq (p : Char → Bool) (input : List Char) :
    ∀ (fuel pos : Nat), input.length ≤ pos + fuel →
      scanWhile p input fuel pos = pos + ((input.drop pos).takeWhile p).length := by
  intro fuel
  induction fuel with
  | zero =>
    intro pos h
    have hd : input.drop pos = [] := List.drop_eq_nil_of_le (by omega)
    simp [scanWhile, hd]
  | succ fuel ih =>
    intro pos h
    by_cases hlt : pos < input.length
    · have hd : input.drop pos = input[pos] :: input.drop (pos + 1) :=
        List.drop_eq_getElem_cons hlt
      have hg : input[pos]? = some input[pos] := List.getElem?_eq_getElem hlt
      rw [scanWhile, hg, hd, List.takeWhile_cons]
      by_cases hp : p input[pos] = true
      · simp only [hp, if_true, List.length_cons]
        rw [ih (pos + 1) (by omega)]
        omega
      · simp [hp]
    · have hd : input.drop pos = [] := List.drop_eq_nil_of_le (by omega)
      have hg : input[pos]? = none := List.getElem?_eq_none (by omega)
      simp [scanWhile, hg, hd]

theorem take_takeWhile_length (p : Char → Bool) (l : List Char) :
    l.take (l.takeWhile p).length = l.takeWhile p := by
  have h := List.take_left (l.takeWhile p) (l.dropWhile p)
  rwa [List.takeWhile_append_dropWhile] at h

theorem drop_takeWhile_length (p : Char → Bool) (l : List Char) :
    l.drop (l.takeWhile p).length = l.dropWhile p := by
  have h := List.drop_left (l.takeWhile p) (l.dropWhile p)
  rwa [List.takeWhile_append_dropWhile] at h

theorem getNextToken_eq {α : Type} (A : Arith α) (t : Tokenizer) :
    t.getNextToken A =
      ((lexRest A (t.input.drop t.pos)).1,
        ⟨t.input, t.pos + (lexRest A (t.input.drop t.pos)).2⟩) := by
  obtain ⟨input, pos⟩ := t
  simp only [Tokenizer.getNextToken, lexRest, Tokenizer.parseNumber]
  rw [scanWhile_eq isspace input input.length pos (by omega)]
  have hdrop : input.drop (pos + ((input.drop pos).takeWhile isspace).length) =
      (input.drop pos).dropWhile isspace := by
    rw [← List.drop_drop, drop_takeWhile_length]
  have hget : input[pos + ((input.drop pos).takeWhile isspace).length]? =
      ((input.drop pos).dropWhile isspace).head? := by
    rw [← hdrop, List.head?_drop]
  rw [hget]
  rw [scanWhile_eq isNumChar input input.length _ (by omega), hdrop]
  cases hrest : (input.drop pos).dropWhile isspace with
  | nil => simp
  | cons c r =>
    simp only [List.head?_cons]
    split
    · have hlen : ∀ a b : Nat, pos + a + b - (pos + a) = b := by intro a b; omega
      rw [hlen, take_takeWhile_length, Nat.add_assoc]
      cases stod A ((c :: r).takeWhile isNumChar) <;> rfl
    · repeat' split
      all_goals simp only [Nat.add_assoc]

theorem startsWith_false_takeWhile {p : Char → Bool} {l : List Char}
    (h : startsWith p l = false) : l.takeWhile p = [] := by
  cases l with
  | nil => rfl
  | cons c r =>
    simp only [startsWith] at h
    simp [List.takeWhile_cons, h]

theorem startsWith_false_dropWhile {p : Char → Bool} {l : List Char}
    (h : startsWith p l = false) : l.dropWhile p = l := by
  cases l with
  | nil => rfl
  | cons c r =>
    simp only [startsWith] at h
    simp [List.dropWhile_cons, h]

theorem startsWith_append_cons {p : Char → Bool} {q : Char → Bool} {ws : List Char}
    {c : Char} {r : List Char} (hws : ∀ a ∈ ws, q a = true)
    (hq : ∀ a, q a = true → p a = false) (hc : p c = false) :
    startsWith p (ws ++ c :: r) = false := by
  cases ws with
  | nil => simpa [startsWith] using hc
  | cons a ws => exact hq a (hws a (List.mem_cons_self a ws))

theorem isspace_not_isNumChar (a : Char) (h : isspace a = true) : isNumChar a = false := by
  have h46 : ('.' : Char).toNat = 46 := by decide
  simp only [isspace, isNumChar, isdigit, Bool.or_eq_true, Bool.and_eq_true, beq_iff_eq,
    decide_eq_true_eq, Bool.or_eq_false_iff, Bool.and_eq_false_iff, decide_eq_false_iff_not] at *
  refine ⟨by omega, ?_⟩
  rw [beq_eq_false_iff_ne]
  intro hdot
  rw [hdot, h46] at h
  omega

theorem isBlank_iff {ws : List Char} : isBlank ws = true ↔ ∀ a ∈ ws, isspace a = true := by
  simp [isBlank]

theorem lexRest_blank_append {α : Type} (A : Arith α) {ws suf : List Char}
    (hws : isBlank ws = true) (hsuf : startsWith isspace suf = false) :
    lexRest A (ws ++ suf) = ((lexRest A suf).1, ws.length + (lexRest A suf).2) := by
  have hw := isBlank_iff.mp hws
  have h1 : (ws ++ suf).takeWhile isspace = ws := by
    rw [List.takeWhile_append_of_pos hw, startsWith_false_takeWhile hsuf, List.append_nil]
  have h2 : (ws ++ suf).dropWhile isspace = suf := by
    rw [List.dropWhile_append_of_pos hw, startsWith_false_dropWhile hsuf]
  have h3 : suf.takeWhile isspace = [] := startsWith_false_takeWhile hsuf
  have h4 : suf.dropWhile isspace = suf := startsWith_false_dropWhile hsuf
  simp only [lexRest, h1, h2, h3, h4, List.length_nil, Nat.zero_add]
  cases suf with
  | nil => rfl
  | cons c r =>
    simp only
    repeat' split
    all_goals simp_all

theorem punctKind_some {c : Char} {kind : TokenType} (h : punctKind c = some kind) :
    (c = '+' ∧ kind = .PLUS) ∨ (c = '-' ∧ kind = .MINUS) ∨ (c = '*' ∧ kind = .MULTIPLY) ∨
    (c = '/' ∧ kind = .DIVIDE) ∨ (c = '(' ∧ kind = .LPAREN) ∨ (c = ')' ∧ kind = .RPAREN) := by
  unfold punctKind at h
  split at h <;> simp_all

theorem punctKind_not_space {c : Char} {kind : TokenType} (h : punctKind c = some kind) :
    isspace c = false ∧ isNumChar c = false := by
  rcases punctKind_some h with h | h | h | h | h | h <;> (rw [h.1]; decide)

theorem lexRest_punct {α : Type} (A : Arith α) {c : Char} {kind : TokenType}
    (h : punctKind c = some kind) (r : List Char) :
    lexRest A (c :: r) = (.ok ⟨kind, A.zero⟩, 1) := by
  rcases punctKind_some h with h | h | h | h | h | h <;>
    (obtain ⟨rfl, rfl⟩ := h
     simp [lexRest, List.takeWhile_cons, List.dropWhile_cons, isspace, isdigit])

theorem lexRest_ws_punct {α : Type} (A : Arith α) {ws : List Char} {c : Char}
    {kind : TokenType} (hws : isBlank ws = true) (h : punctKind c = some kind)
    (r : List Char) :
    lexRest A (ws ++ c :: r) = (.ok ⟨kind, A.zero⟩, ws.length + 1) := by
  rw [lexRest_blank_append A hws (by simpa [startsWith] using (punctKind_not_space h).1),
    lexRest_punct A h]

theorem lexRest_ws_end {α : Type} (A : Arith α) {ws : List Char} (hws : isBlank ws = true) :
    lexRest A ws = (.ok ⟨.END, A.zero⟩, ws.length) := by
  have h := @lexRest_blank_append _ A ws [] hws rfl
  rw [List.append_nil] at h
  rw [h]
  rfl

theorem stod_of_isNumber {α : Type} (A : Arith α) {lit : List Char}
    (h : isNumber lit = true) : stod A lit = .ok (litValue A lit) := by
  simp only [isNumber, Bool.and_eq_true] at h
  obtain ⟨_, h3⟩ := h
  unfold stod litValue
  cases hd : decimalPrefix lit with
  | none => simp [hd] at h3
  | some mk =>
    rw [hd] at h3
    simp only at h3
    simp only [h3, if_true]

theorem lexRest_number {α : Type} (A : Arith α) {lit rest : List Char}
    (hlit : isNumber lit = true) (hrest : startsWith isNumChar rest = false) :
    lexRest A (lit ++ rest) = (.ok ⟨.NUMBER, litValue A lit⟩, lit.length) := by
  have hst := stod_of_isNumber A hlit
  simp only [isNumber, Bool.and_eq_true, List.all_eq_true] at hlit
  obtain ⟨⟨hne, hall⟩, _⟩ := hlit
  cases lit with
  | nil => simp at hne
  | cons c l =>
    have hc : isNumChar c = true := hall c (List.mem_cons_self c l)
    have hsp : isspace c = false := by
      cases hs : isspace c with
      | false => rfl
      | true => rw [isspace_not_isNumChar c hs] at hc; cases hc
    have hrun : ((c :: l) ++ rest).takeWhile isNumChar = c :: l := by
      rw [List.takeWhile_append_of_pos hall, startsWith_false_takeWhile hrest, List.append_nil]
    have hc2 : (isdigit c || c == '.') = true := hc
    rw [List.cons_append] at hrun ⊢
    simp only [lexRest, List.takeWhile_cons, List.dropWhile_cons, hsp, hc2, if_true]
    simp only [Bool.false_eq_true, if_false, List.length_nil, Nat.zero_add]
    have hrun2 : (if isNumChar c = true then c :: (l ++ rest).takeWhile isNumChar else []) =
        c :: l := by
      rw [← List.takeWhile_cons]; exact hrun
    rw [hrun2, hst, if_pos hc2]

theorem lexRest_ws_number {α : Type} (A : Arith α) {ws lit rest : List Char}
    (hws : isBlank ws = true) (hlit : isNumber lit = true)
    (hrest : startsWith isNumChar rest = false) :
    lexRest A (ws ++ (lit ++ rest)) =
      (.ok ⟨.NUMBER, litValue A lit⟩, ws.length + lit.length) := by
  have hsp : startsWith isspace (lit ++ rest) = false := by
    simp only [isNumber, Bool.and_eq_true, List.all_eq_true] at hlit
    obtain ⟨⟨hne, hall⟩, _⟩ := hlit
    cases lit with
    | nil => simp at hne
    | cons c l =>
      have hc : isNumChar c = true := hall c (List.mem_cons_self c l)
      cases hs : isspace c with
      | false => simpa [startsWith] using hs
      | true => rw [isspace_not_isNumChar c hs] at hc; cases hc
  rw [lexRest_blank_append A hws hsp, lexRest_number A hlit hrest]

/-- A run of digits and decimal points that `std::stod` does not convert. -/
theorem lexRest_run_error {α : Type} (A : Arith α) {run rest : List Char} {e : Err}
    (hne : run ≠ []) (hall : ∀ c ∈ run, isNumChar c = true)
    (hrest : startsWith isNumChar rest = false) (hst : stod A run = .error e) :
    lexRest A (run ++ rest) = (.error e, run.length) := by
  cases run with
  | nil => exact absurd rfl hne
  | cons c l =>
    have hc : isNumChar c = true := hall c (List.mem_cons_self c l)
    have hsp : isspace c = false := by
      cases hs : isspace c with
      | false => rfl
      | true => rw [isspace_not_isNumChar c hs] at hc; cases hc
    have hrun : ((c :: l) ++ rest).takeWhile isNumChar = c :: l := by
      rw [List.takeWhile_append_of_pos hall, startsWith_false_takeWhile hrest, List.append_nil]
    have hc2 : (isdigit c || c == '.') = true := hc
    rw [List.cons_append] at hrun ⊢
    simp only [lexRest, List.takeWhile_cons, List.dropWhile_cons, hsp, hc2, if_true]
    simp only [Bool.false_eq_true, if_false, List.length_nil, Nat.zero_add]
    have hrun2 : (if isNumChar c = true then c :: (l ++ rest).takeWhile isNumChar else []) =
        c :: l := by
      rw [← List.takeWhile_cons]; exact hrun
    rw [hrun2, hst, if_pos hc2]

/-! ## Lemmas about the parser state -/

theorem Parser.new_eq {α : Type} (A : Arith α) (input : List Char) (k : Nat) :
    Parser.new A ⟨input, k⟩ =
      match lexRest A (input.drop k) with
      | (.ok tok, n) => .ok ⟨⟨input, k + n⟩, tok⟩
      | (.error e, _) => .error e := by
  unfold Parser.new
  rw [getNextToken_eq]
  cases h : lexRest A (input.drop k) with
  | mk r n => cases r <;> rfl

theorem Parser.new_of_lexRest {α : Type} (A : Arith α) {input : List Char} {k n : Nat}
    {tok : Token α} (h : lexRest A (input.drop k) = (.ok tok, n)) :
    Parser.new A ⟨input, k⟩ = .ok ⟨⟨input, k + n⟩, tok⟩ := by
  rw [Parser.new_eq, h]

theorem Parser.new_error_of_lexRest {α : Type} (A : Arith α) {input : List Char}
    {k n : Nat} {e : Err} (h : lexRest A (input.drop k) = (.error e, n)) :
    Parser.new A ⟨input, k⟩ = .error e := by
  rw [Parser.new_eq, h]

theorem Parser.consume_eq {α : Type} (A : Arith α) (p : Parser α) (type : TokenType) :
    p.consume A type =
      if p.currentToken.type = type then Parser.new A p.tokenizer
      else .error .UnexpectedToken := rfl

theorem drop_add_of_drop_eq (x tail : List Char) {input : List Char} {k : Nat}
    (h : input.drop k = x ++ tail) : input.drop (k + x.length) = tail := by
  rw [← List.drop_drop, h, List.drop_left]

theorem Parser.new_pos_congr {α : Type} (A : Arith α) {input : List Char} {a b : Nat}
    {r : Except Err (Parser α)} (h : a = b) (hr : Parser.new A ⟨input, a⟩ = r) :
    Parser.new A ⟨input, b⟩ = r := h ▸ hr

/-! ## One call of `parseTerm` and `parseExpression` -/

theorem parseTerm_number {α : Type} (A : Arith α) (fuel : Nat) {p p1 : Parser α}
    (ht : p.currentToken.type = .NUMBER) (hc : p.consume A .NUMBER = .ok p1) :
    parseTerm A (fuel + 1) p = .ok (p.currentToken.value, p1) := by
  simp [parseTerm, ht, hc]

theorem parseTerm_paren {α : Type} (A : Arith α) (fuel : Nat) {p p1 p2 p3 : Parser α}
    {v : α} (ht : p.currentToken.type = .LPAREN) (hc : p.consume A .LPAREN = .ok p1)
    (he : parseExpression A fuel p1 = .ok (v, p2)) (hr : p2.consume A .RPAREN = .ok p3) :
    parseTerm A (fuel + 1) p = .ok (v, p3) := by
  simp [parseTerm, ht, hc, he, hr]

theorem parseTerm_neg {α : Type} (A : Arith α) (fuel : Nat) {p p1 p2 : Parser α}
    (ht : p.currentToken.type = .MINUS) (hc : p.consume A .MINUS = .ok p1)
    (hn : p1.consume A .NUMBER = .ok p2) :
    parseTerm A (fuel + 1) p = .ok (A.neg p1.currentToken.value, p2) := by
  simp [parseTerm, ht, hc, hn]

theorem parseExpression_single {α : Type} (A : Arith α) (fuel : Nat) {p p1 : Parser α}
    {v : α} (ht : parseTerm A fuel p = .ok (v, p1))
    (hop : isBinaryOp p1.currentToken.type = false) :
    parseExpression A (fuel + 1) p = .ok (v, p1) := by
  simp only [parseExpression, ht]
  cases hty : p1.currentToken.type <;> simp_all [isBinaryOp]

theorem parseExpression_bin {α : Type} (A : Arith α) (fuel : Nat) (op : BinOp)
    {p p1 p2 p3 : Parser α} {v w : α} (ht : parseTerm A fuel p = .ok (v, p1))
    (hop : p1.currentToken.type = op.tokenType) (hc : p1.consume A op.tokenType = .ok p2)
    (he : parseExpression A fuel p2 = .ok (w, p3)) :
    parseExpression A (fuel + 1) p = .ok (op.apply A v w, p3) := by
  simp only [parseExpression, ht]
  cases op <;> simp_all [BinOp.tokenType, BinOp.apply, binaryRest]

/-! ## Parsing the text of a tree -/

theorem Tree.two_le_cost (e : Tree) : 2 ≤ e.cost := by
  induction e with
  | num ws lit => simp [Tree.cost]
  | neg ws1 ws2 lit => simp [Tree.cost]
  | paren ws1 e ws2 ih => simp [Tree.cost]
  | bin t ws op e iht ihe => simp only [Tree.cost]; omega

theorem punctKind_op (op : BinOp) : punctKind op.char = some op.tokenType := by
  cases op <;> rfl

theorem isBinaryOp_op (op : BinOp) : isBinaryOp op.tokenType = true := by
  cases op <;> rfl

/-- Parsing the text of a number, from the primed state in front of it. -/
theorem parse_num {α : Type} (A : Arith α) {ws lit rest input : List Char} {k : Nat}
    {p' : Parser α} (fuel : Nat) (hws : isBlank ws = true) (hlit : isNumber lit = true)
    (hdrop : input.drop k = ws ++ (lit ++ rest)) (hrest : startsWith isNumChar rest = false)
    (hnext : Parser.new A ⟨input, k + (ws.length + lit.length)⟩ = .ok p') :
    ∃ p, Parser.new A ⟨input, k⟩ = .ok p ∧
      parseTerm A (fuel + 1) p = .ok (litValue A lit, p') := by
  have hlex := lexRest_ws_number A hws hlit hrest
  rw [← hdrop] at hlex
  refine ⟨_, Parser.new_of_lexRest A hlex, ?_⟩
  exact parseTerm_number A fuel rfl (by rw [Parser.consume_eq, if_pos rfl]; exact hnext)

/-- Parsing the text of a negated number, from the primed state in front of it. -/
theorem parse_neg {α : Type} (A : Arith α) {ws1 ws2 lit rest input : List Char} {k : Nat}
    {p' : Parser α} (fuel : Nat) (hws1 : isBlank ws1 = true) (hws2 : isBlank ws2 = true)
    (hlit : isNumber lit = true)
    (hdrop : input.drop k = ws1 ++ '-' :: (ws2 ++ (lit ++ rest)))
    (hrest : startsWith isNumChar rest = false)
    (hnext : Parser.new A ⟨input, k + (ws1.length + 1) + (ws2.length + lit.length)⟩ = .ok p') :
    ∃ p, Parser.new A ⟨input, k⟩ = .ok p ∧
      parseTerm A (fuel + 1) p = .ok (A.neg (litValue A lit), p') := by
  have hlex := lexRest_ws_punct A (c := '-') hws1 rfl (ws2 ++ (lit ++ rest))
  rw [← hdrop] at hlex
  have hdrop2 : input.drop (k + (ws1.length + 1)) = ws2 ++ (lit ++ rest) := by
    have h := drop_add_of_drop_eq (ws1 ++ ['-']) (ws2 ++ (lit ++ rest))
      (by simpa using hdrop)
    simpa using h
  have hlex2 := lexRest_ws_number A hws2 hlit hrest
  rw [← hdrop2] at hlex2
  refine ⟨_, Parser.new_of_lexRest A hlex, ?_⟩
  have h1 : Parser.consume A (⟨⟨input, k + (ws1.length + 1)⟩, ⟨.MINUS, A.zero⟩⟩ : Parser α)
      .MINUS = .ok ⟨⟨input, k + (ws1.length + 1) + (ws2.length + lit.length)⟩,
        ⟨.NUMBER, litValue A lit⟩⟩ := by
    rw [Parser.consume_eq, if_pos rfl]; exact Parser.new_of_lexRest A hlex2
  have h2 : Parser.consume A (⟨⟨input, k + (ws1.length + 1) + (ws2.length + lit.length)⟩,
      ⟨.NUMBER, litValue A lit⟩⟩ : Parser α) .NUMBER = .ok p' := by
    rw [Parser.consume_eq, if_pos rfl]; exact hnext
  exact parseTerm_neg A fuel rfl h1 h2

/-- The parser on the text of a tree of the grammar.  From the state primed in
front of the text, `parseTerm` (for a term) and `parseExpression` return the
value of the tree and the state primed behind the text, provided the token that
follows can be read, does not continue a number and, for an expression, is not
a binary operator. -/
theorem parse_tree {α : Type} (A : Arith α) : ∀ (e : Tree), e.wf = true →
    ∀ (input : List Char) (k : Nat) (rest : List Char) (p' : Parser α) (fuel : Nat),
      input.drop k = e.text ++ rest → startsWith isNumChar rest = false →
      Parser.new A ⟨input, k + e.text.length⟩ = .ok p' →
      (e.isTerm = true → e.cost ≤ fuel + 1 →
        ∃ p, Parser.new A ⟨input, k⟩ = .ok p ∧ parseTerm A fuel p = .ok (e.value A, p')) ∧
      (isBinaryOp p'.currentToken.type = false → e.cost ≤ fuel →
        ∃ p, Parser.new A ⟨input, k⟩ = .ok p ∧
          parseExpression A fuel p = .ok (e.value A, p')) := by
  intro e
  induction e with
  | num ws lit =>
    intro hwf input k rest p' fuel hdrop hrest hnext
    simp only [Tree.wf, Bool.and_eq_true] at hwf
    simp only [Tree.text, List.length_append, List.append_assoc] at hdrop hnext
    have hT : ∀ f, ∃ p, Parser.new A ⟨input, k⟩ = .ok p ∧
        parseTerm A (f + 1) p = .ok (litValue A lit, p') :=
      fun f => parse_num A f hwf.1 hwf.2 hdrop hrest hnext
    constructor
    · intro _ hcost
      obtain ⟨f, rfl⟩ : ∃ f, fuel = f + 1 := ⟨fuel - 1, by simp only [Tree.cost] at hcost; omega⟩
      exact hT f
    · intro hop hcost
      obtain ⟨f, rfl⟩ : ∃ f, fuel = f + 2 := ⟨fuel - 2, by simp only [Tree.cost] at hcost; omega⟩
      obtain ⟨p, hp, ht⟩ := hT f
      exact ⟨p, hp, parseExpression_single A (f + 1) ht hop⟩
  | neg ws1 ws2 lit =>
    intro hwf input k rest p' fuel hdrop hrest hnext
    simp only [Tree.wf, Bool.and_eq_true] at hwf
    simp only [Tree.text, List.length_append, List.append_assoc, List.length_cons,
      List.cons_append] at hdrop hnext
    have hpos : k + (ws1.length + (ws2.length + lit.length + 1)) =
        k + (ws1.length + 1) + (ws2.length + lit.length) := by omega
    rw [hpos] at hnext
    have hT : ∀ f, ∃ p, Parser.new A ⟨input, k⟩ = .ok p ∧
        parseTerm A (f + 1) p = .ok (A.neg (litValue A lit), p') :=
      fun f => parse_neg A f hwf.1.1 hwf.1.2 hwf.2 hdrop hrest hnext
    constructor
    · intro _ hcost
      obtain ⟨f, rfl⟩ : ∃ f, fuel = f + 1 := ⟨fuel - 1, by simp only [Tree.cost] at hcost; omega⟩
      exact hT f
    · intro hop hcost
      obtain ⟨f, rfl⟩ : ∃ f, fuel = f + 2 := ⟨fuel - 2, by simp only [Tree.cost] at hcost; omega⟩
      obtain ⟨p, hp, ht⟩ := hT f
      exact ⟨p, hp, parseExpression_single A (f + 1) ht hop⟩
  | paren ws1 e ws2 ih =>
    intro hwf input k rest p' fuel hdrop hrest hnext
    simp only [Tree.wf, Bool.and_eq_true] at hwf
    obtain ⟨⟨hws1, hwfe⟩, hws2⟩ := hwf
    simp only [Tree.text, List.length_append, List.append_assoc, List.length_cons,
      List.length_nil, List.cons_append, List.nil_append] at hdrop hnext
    -- the opening parenthesis
    have hlex := lexRest_ws_punct A (c := '(') hws1 rfl (e.text ++ (ws2 ++ ')' :: rest))
    rw [← hdrop] at hlex
    have hdrop1 : input.drop (k + (ws1.length + 1)) = e.text ++ (ws2 ++ ')' :: rest) := by
      have h := drop_add_of_drop_eq (ws1 ++ ['(']) (e.text ++ (ws2 ++ ')' :: rest))
        (by simpa using hdrop)
      simpa using h
    -- the closing parenthesis
    have hdrop2 : input.drop (k + (ws1.length + 1) + e.text.length) = ws2 ++ ')' :: rest :=
      drop_add_of_drop_eq _ _ hdrop1
    have hlex2 := lexRest_ws_punct A (c := ')') hws2 rfl rest
    rw [← hdrop2] at hlex2
    have hrest1 : startsWith isNumChar (ws2 ++ ')' :: rest) = false :=
      startsWith_append_cons (isBlank_iff.mp hws2) isspace_not_isNumChar (by decide)
    have hpos : k + (ws1.length + (e.text.length + (ws2.length + 0 + 1) + 1)) =
        k + (ws1.length + 1) + e.text.length + (ws2.length + 1) := by omega
    rw [hpos] at hnext
    have hT : ∀ f, e.cost ≤ f → ∃ p, Parser.new A ⟨input, k⟩ = .ok p ∧
        parseTerm A (f + 1) p = .ok (e.value A, p') := by
      intro f hf
      obtain ⟨p1, hp1, he⟩ := (ih hwfe input (k + (ws1.length + 1)) (ws2 ++ ')' :: rest) _ f
        hdrop1 hrest1 (Parser.new_of_lexRest A hlex2)).2 rfl hf
      refine ⟨_, Parser.new_of_lexRest A hlex, ?_⟩
      have h1 : Parser.consume A (⟨⟨input, k + (ws1.length + 1)⟩, ⟨.LPAREN, A.zero⟩⟩ : Parser α)
          .LPAREN = .ok p1 := by
        rw [Parser.consume_eq, if_pos rfl]; exact hp1
      have h2 : Parser.consume A (⟨⟨input, k + (ws1.length + 1) + e.text.length +
          (ws2.length + 1)⟩, ⟨.RPAREN, A.zero⟩⟩ : Parser α) .RPAREN = .ok p' := by
        rw [Parser.consume_eq, if_pos rfl]; exact hnext
      exact parseTerm_paren A f rfl h1 he h2
    constructor
    · intro _ hcost
      obtain ⟨f, rfl⟩ : ∃ f, fuel = f + 1 := ⟨fuel - 1, by simp only [Tree.cost] at hcost; omega⟩
      exact hT f (by simp only [Tree.cost] at hcost; omega)
    · intro hop hcost
      obtain ⟨f, rfl⟩ : ∃ f, fuel = f + 2 := ⟨fuel - 2, by simp only [Tree.cost] at hcost; omega⟩
      obtain ⟨p, hp, ht⟩ := hT f (by simp only [Tree.cost] at hcost; omega)
      exact ⟨p, hp, parseExpression_single A (f + 1) ht hop⟩
  | bin t ws op e iht ihe =>
    intro hwf input k rest p' fuel hdrop hrest hnext
    simp only [Tree.wf, Bool.and_eq_true] at hwf
    obtain ⟨⟨⟨htt, hwft⟩, hws⟩, hwfe⟩ := hwf
    simp only [Tree.text, List.length_append, List.append_assoc, List.length_cons,
      List.cons_append] at hdrop hnext
    constructor
    · intro hterm; simp [Tree.isTerm] at hterm
    · intro hop hcost
      simp only [Tree.cost] at hcost
      have hct := t.two_le_cost
      obtain ⟨f, rfl⟩ : ∃ f, fuel = f + 1 := ⟨fuel - 1, by omega⟩
      -- the operator
      have hdrop1 : input.drop (k + t.text.length) = ws ++ op.char :: (e.text ++ rest) :=
        drop_add_of_drop_eq _ _ hdrop
      have hlex := lexRest_ws_punct A hws (punctKind_op op) (e.text ++ rest)
      rw [← hdrop1] at hlex
      have hrest1 : startsWith isNumChar (ws ++ op.char :: (e.text ++ rest)) = false :=
        startsWith_append_cons (isBlank_iff.mp hws) isspace_not_isNumChar
          (punctKind_not_space (punctKind_op op)).2
      -- the left operand
      obtain ⟨p, hp, ht⟩ := (iht hwft input k _ _ f hdrop hrest1
        (Parser.new_of_lexRest A hlex)).1 htt (by omega)
      -- the right operand
      have hdrop2 : input.drop (k + t.text.length + (ws.length + 1)) = e.text ++ rest := by
        have h := drop_add_of_drop_eq (ws ++ [op.char]) (e.text ++ rest)
          (by simpa using hdrop1)
        simpa using h
      have hpos : k + (t.text.length + (ws.length + (e.text.length + 1))) =
          k + t.text.length + (ws.length + 1) + e.text.length := by omega
      rw [hpos] at hnext
      obtain ⟨p2, hp2, he⟩ := (ihe hwfe input _ rest p' f hdrop2 hrest hnext).2 hop (by omega)
      refine ⟨p, hp, ?_⟩
      have h1 : Parser.consume A (⟨⟨input, k + t.text.length + (ws.length + 1)⟩,
          ⟨op.tokenType, A.zero⟩⟩ : Parser α) op.tokenType = .ok p2 := by
        rw [Parser.consume_eq, if_pos rfl]; exact hp2
      exact parseExpression_bin A f op ht rfl h1 he

theorem isNumber_length_pos {lit : List Char} (h : isNumber lit = true) : 1 ≤ lit.length := by
  cases lit with
  | nil => simp [isNumber] at h
  | cons c l => simp

theorem Tree.cost_le_text (e : Tree) (hwf : e.wf = true) : e.cost ≤ 2 * e.text.length := by
  induction e with
  | num ws lit =>
    simp only [Tree.wf, Bool.and_eq_true] at hwf
    have := isNumber_length_pos hwf.2
    simp only [Tree.cost, Tree.text, List.length_append]; omega
  | neg ws1 ws2 lit =>
    simp only [Tree.cost, Tree.text, List.length_append, List.length_cons]; omega
  | paren ws1 e ws2 ih =>
    simp only [Tree.wf, Bool.and_eq_true] at hwf
    have := ih hwf.1.2
    simp only [Tree.cost, Tree.text, List.length_append, List.length_cons]; omega
  | bin t ws op e iht ihe =>
    simp only [Tree.wf, Bool.and_eq_true] at hwf
    have := iht hwf.1.1.2
    have := ihe hwf.2
    simp only [Tree.cost, Tree.text, List.length_append, List.length_cons]; omega

theorem startsWith_isNumChar_blank {ws : List Char} (h : isBlank ws = true) :
    startsWith isNumChar ws = false := by
  cases ws with
  | nil => rfl
  | cons c r => exact isspace_not_isNumChar c (isBlank_iff.mp h c (List.mem_cons_self c r))

/-- The function `evaluate` in terms of the primed parser state. -/
theorem evaluate_of_parse {α : Type} (A : Arith α) {input : List Char} {p p' : Parser α}
    {v : α} (hp : Parser.new A ⟨input, 0⟩ = .ok p)
    (he : parseExpression A (2 * input.length + 2) p = .ok (v, p')) :
    evaluate A input = .ok v := by
  simp [evaluate, hp, he]

theorem evaluate_of_new_error {α : Type} (A : Arith α) {input : List Char} {e : Err}
    (h : Parser.new A ⟨input, 0⟩ = .error e) : evaluate A input = .error e := by
  simp [evaluate, h]

/-- The function `evaluate` on a text that begins with a run of digits and
decimal points that `std::stod` does not convert. -/
theorem evaluate_run_error {α : Type} (A : Arith α) {run rest : List Char} {e : Err}
    (hne : run ≠ []) (hall : ∀ c ∈ run, isNumChar c = true)
    (hrest : startsWith isNumChar rest = false) (hst : stod A run = .error e) :
    evaluate A (run ++ rest) = .error e := by
  apply evaluate_of_new_error
  have h := lexRest_run_error A hne hall hrest hst
  exact Parser.new_error_of_lexRest A (by rw [List.drop_zero]; exact h)

/-- The function `evaluate` on the text of a tree followed by a text whose
first token can be read and is not a binary operator. -/
theorem evaluate_tree_lookahead {α : Type} (A : Arith α) (e : Tree) (r : List Char)
    (tok : Token α) (n : Nat) (hwf : e.wf = true) (hr : startsWith isNumChar r = false)
    (hlex : lexRest A r = (.ok tok, n)) (hop : isBinaryOp tok.type = false) :
    evaluate A (e.text ++ r) = .ok (e.value A) := by
  have hdrop : (e.text ++ r).drop 0 = e.text ++ r := rfl
  have hdrop2 : (e.text ++ r).drop (0 + e.text.length) = r := drop_add_of_drop_eq _ _ hdrop
  rw [← hdrop2] at hlex
  have hcost := e.cost_le_text hwf
  obtain ⟨p, hp, he⟩ := (parse_tree A e hwf (e.text ++ r) 0 r _
    (2 * (e.text ++ r).length + 2) hdrop hr
    (Parser.new_of_lexRest A hlex)).2 hop (by rw [List.length_append]; omega)
  exact evaluate_of_parse A hp he

/-- The function `evaluate` on the text of a tree. -/
theorem evaluate_tree_text {α : Type} (A : Arith α) (e : Tree) (hwf : e.wf = true) :
    evaluate A e.text = .ok (e.value A) := by
  have h := evaluate_tree_lookahead A e [] ⟨.END, A.zero⟩ 0 hwf rfl rfl rfl
  rwa [List.append_nil] at h

/-! ## Evaluation of the expressions of the grammar -/

/-- C1: for every expression tree of the grammar, `evaluate` applied to the
text of the tree (its tokens in order, any whitespace in front of each token
and after the last one, then the end of the input) succeeds and returns the
value of the tree, where `t op e` is valued as `value t op value e`.  A NUMBER
of the grammar is the text of a NUMBER token: a run of digits and decimal
points that `std::stod` converts, its numeral being in the range of `double`. -/
theorem evaluate_tree {α : Type} (A : Arith α) (e : Tree) (trail : List Char)
    (hwf : e.wf = true) (htrail : isBlank trail = true) :
    evaluate A (e.text ++ trail) = .ok (e.value A) :=
  evaluate_tree_lookahead A e trail ⟨.END, A.zero⟩ trail.length hwf
    (startsWith_isNumChar_blank htrail) (lexRest_ws_end A htrail) rfl

/-- Witness of C1: the text `8 - (2 * 3) / -4` evaluates, with exact
arithmetic, to `8 - (2 * 3) / -4 = 19 / 2`. -/
theorem evaluate_tree_witness :
    sampleTree.wf = true ∧ isBlank [' ', '\n'] = true ∧
    sampleTree.text ++ [' ', '\n'] = "8 - (2 \t* 3)/ -4 \n".toList ∧
    sampleTree.value exact = 19 / 2 ∧
    evaluate exact (sampleTree.text ++ [' ', '\n']) = .ok (sampleTree.value exact) :=
  ⟨by decide, by decide, by decide,
    by simp [sampleTree, Tree.value, BinOp.apply, litValue, decimalPrefix, exact,
      digitsToNat, digitVal, isdigit]; norm_num,
    evaluate_tree exact sampleTree [' ', '\n'] (by decide) (by decide)⟩

/-- C2: for all number texts `a`, `b`, `c` (the texts of NUMBER tokens: runs of
digits and decimal points that `std::stod` converts) and all binary operators
`op1`, `op2`, `evaluate("a op1 b op2 c")` is `a op1 (b op2 c)`; with exact arithmetic
`evaluate("8 - 2 * 3")` is `8 - (2 * 3) = 2` and not `(8 - 2) * 3 = 18`,
`evaluate("2 * 3 + 4")` is `2 * (3 + 4) = 14` and not `(2 * 3) + 4 = 10`, and
`evaluate("2 - 3 - 4")` is `2 - (3 - 4) = 3` and not `(2 - 3) - 4 = -5`. -/
theorem evaluate_right_assoc :
    (∀ {α : Type} (A : Arith α) (a b c : List Char) (op1 op2 : BinOp),
      isNumber a = true → isNumber b = true → isNumber c = true →
      evaluate A (a ++ ' ' :: op1.char :: ' ' :: (b ++ ' ' :: op2.char :: ' ' :: c)) =
        .ok (op1.apply A (litValue A a) (op2.apply A (litValue A b) (litValue A c)))) ∧
    evaluate exact "8 - 2 * 3".toList = .ok 2 ∧
    evaluate exact "8 - 2 * 3".toList ≠ .ok 18 ∧
    evaluate exact "2 * 3 + 4".toList = .ok 14 ∧
    evaluate exact "2 * 3 + 4".toList ≠ .ok 10 ∧
    evaluate exact "2 - 3 - 4".toList = .ok 3 ∧
    evaluate exact "2 - 3 - 4".toList ≠ .ok (-5) := by
  have key : ∀ {α : Type} (A : Arith α) (a b c : List Char) (op1 op2 : BinOp),
      isNumber a = true → isNumber b = true → isNumber c = true →
      evaluate A (a ++ ' ' :: op1.char :: ' ' :: (b ++ ' ' :: op2.char :: ' ' :: c)) =
        .ok (op1.apply A (litValue A a) (op2.apply A (litValue A b) (litValue A c))) := by
    intro α A a b c op1 op2 ha hb hc
    have h := evaluate_tree_text A
      (.bin (.num [] a) [' '] op1 (.bin (.num [' '] b) [' '] op2 (.num [' '] c)))
      (by simp only [Tree.wf, Tree.isTerm, ha, hb, hc]; decide)
    simpa [Tree.text, Tree.value] using h
  have h1 := key exact ['8'] ['2'] ['3'] .minus .times (by decide) (by decide) (by decide)
  have h2 := key exact ['2'] ['3'] ['4'] .times .plus (by decide) (by decide) (by decide)
  have h3 := key exact ['2'] ['3'] ['4'] .minus .minus (by decide) (by decide) (by decide)
  have v1 : BinOp.minus.apply exact (litValue exact ['8'])
      (BinOp.times.apply exact (litValue exact ['2']) (litValue exact ['3'])) = 2 := by
    simp [BinOp.apply, litValue, decimalPrefix, exact, digitsToNat, digitVal, isdigit]
    norm_num
  have v2 : BinOp.times.apply exact (litValue exact ['2'])
      (BinOp.plus.apply exact (litValue exact ['3']) (litValue exact ['4'])) = 14 := by
    simp [BinOp.apply, litValue, decimalPrefix, exact, digitsToNat, digitVal, isdigit]
    norm_num
  have v3 : BinOp.minus.apply exact (litValue exact ['2'])
      (BinOp.minus.apply exact (litValue exact ['3']) (litValue exact ['4'])) = 3 := by
    simp [BinOp.apply, litValue, decimalPrefix, exact, digitsToNat, digitVal, isdigit]
    norm_num
  rw [v1] at h1
  rw [v2] at h2
  rw [v3] at h3
  have e1 : "8 - 2 * 3".toList =
      ['8'] ++ ' ' :: BinOp.minus.char :: ' ' :: (['2'] ++ ' ' :: BinOp.times.char :: ' ' :: ['3']) := by
    decide
  have e2 : "2 * 3 + 4".toList =
      ['2'] ++ ' ' :: BinOp.times.char :: ' ' :: (['3'] ++ ' ' :: BinOp.plus.char :: ' ' :: ['4']) := by
    decide
  have e3 : "2 - 3 - 4".toList =
      ['2'] ++ ' ' :: BinOp.minus.char :: ' ' :: (['3'] ++ ' ' :: BinOp.minus.char :: ' ' :: ['4']) := by
    decide
  rw [e1, e2, e3, h1, h2, h3]
  refine ⟨key, rfl, ?_, rfl, ?_, rfl, ?_⟩
  · intro h; injection h with h; norm_num at h
  · intro h; injection h with h; norm_num at h
  · intro h; injection h with h; norm_num at h

/-- Witness of C2: `evaluate("12.5 / 4 - 1")` is `12.5 / (4 - 1)`. -/
theorem evaluate_right_assoc_witness :
    isNumber "12.5".toList = true ∧ isNumber "4".toList = true ∧ isNumber "1".toList = true ∧
    evaluate exact "12.5 / 4 - 1".toList =
      .ok (exact.div (litValue exact "12.5".toList)
        (exact.sub (litValue exact "4".toList) (litValue exact "1".toList))) :=
  ⟨by decide, by decide, by decide,
    evaluate_right_assoc.1 exact "12.5".toList "4".toList "1".toList .divide .minus
      (by decide) (by decide) (by decide)⟩

/-- C7: unary minus negates only the number that follows it: for all number
texts `a`, `b` (the texts of NUMBER tokens: runs of digits and decimal points
that `std::stod` converts) and every binary operator `op`,
`evaluate("-a op b")` is `(-a) op b`; with exact arithmetic
`evaluate("-5 + 3")` is `-2` and not `-(5 + 3) = -8`. -/
theorem evaluate_unary_minus :
    (∀ {α : Type} (A : Arith α) (a b : List Char) (op : BinOp),
      isNumber a = true → isNumber b = true →
      evaluate A ('-' :: (a ++ ' ' :: op.char :: ' ' :: b)) =
        .ok (op.apply A (A.neg (litValue A a)) (litValue A b))) ∧
    evaluate exact "-5 + 3".toList = .ok (-2) ∧
    evaluate exact "-5 + 3".toList ≠ .ok (-8) := by
  have key : ∀ {α : Type} (A : Arith α) (a b : List Char) (op : BinOp),
      isNumber a = true → isNumber b = true →
      evaluate A ('-' :: (a ++ ' ' :: op.char :: ' ' :: b)) =
        .ok (op.apply A (A.neg (litValue A a)) (litValue A b)) := by
    intro α A a b op ha hb
    have h := evaluate_tree_text A (.bin (.neg [] [] a) [' '] op (.num [' '] b))
      (by simp only [Tree.wf, Tree.isTerm, ha, hb]; decide)
    simpa [Tree.text, Tree.value] using h
  have h1 := key exact ['5'] ['3'] .plus (by decide) (by decide)
  have v1 : BinOp.plus.apply exact (exact.neg (litValue exact ['5'])) (litValue exact ['3']) =
      -2 := by
    simp [BinOp.apply, litValue, decimalPrefix, exact, digitsToNat, digitVal, isdigit]
    norm_num
  rw [v1] at h1
  have e1 : "-5 + 3".toList = '-' :: (['5'] ++ ' ' :: BinOp.plus.char :: ' ' :: ['3']) := by
    decide
  rw [e1, h1]
  refine ⟨key, rfl, ?_⟩
  intro h; injection h with h; norm_num at h

/-- Witness of C7: `evaluate("-1.5 * 4")` is `(-1.5) * 4`. -/
theorem evaluate_unary_minus_witness :
    isNumber "1.5".toList = true ∧ isNumber "4".toList = true ∧
    evaluate exact "-1.5 * 4".toList =
      .ok (exact.mul (exact.neg (litValue exact "1.5".toList)) (litValue exact "4".toList)) :=
  ⟨by decide, by decide,
    evaluate_unary_minus.1 exact "1.5".toList "4".toList .times (by decide) (by decide)⟩

/-- C8: parentheses override the right-nested grouping: for all number texts
`a`, `b`, `c` (the texts of NUMBER tokens: runs of digits and decimal points
that `std::stod` converts) and all binary operators `op1`, `op2`,
`evaluate("(a op1 b) op2 c")` is `(a op1 b) op2 c`; with exact arithmetic
`evaluate("(2 - 3) - 4")` is `-5`. -/
theorem evaluate_parenthesized :
    (∀ {α : Type} (A : Arith α) (a b c : List Char) (op1 op2 : BinOp),
      isNumber a = true → isNumber b = true → isNumber c = true →
      evaluate A
          ('(' :: (a ++ ' ' :: op1.char :: ' ' :: (b ++ ')' :: ' ' :: op2.char :: ' ' :: c))) =
        .ok (op2.apply A (op1.apply A (litValue A a) (litValue A b)) (litValue A c))) ∧
    evaluate exact "(2 - 3) - 4".toList = .ok (-5) := by
  have key : ∀ {α : Type} (A : Arith α) (a b c : List Char) (op1 op2 : BinOp),
      isNumber a = true → isNumber b = true → isNumber c = true →
      evaluate A
          ('(' :: (a ++ ' ' :: op1.char :: ' ' :: (b ++ ')' :: ' ' :: op2.char :: ' ' :: c))) =
        .ok (op2.apply A (op1.apply A (litValue A a) (litValue A b)) (litValue A c)) := by
    intro α A a b c op1 op2 ha hb hc
    have h := evaluate_tree_text A
      (.bin (.paren [] (.bin (.num [] a) [' '] op1 (.num [' '] b)) []) [' '] op2
        (.num [' '] c))
      (by simp only [Tree.wf, Tree.isTerm, ha, hb, hc]; decide)
    simpa [Tree.text, Tree.value] using h
  have h1 := key exact ['2'] ['3'] ['4'] .minus .minus (by decide) (by decide) (by decide)
  have v1 : BinOp.minus.apply exact
      (BinOp.minus.apply exact (litValue exact ['2']) (litValue exact ['3']))
      (litValue exact ['4']) = -5 := by
    simp [BinOp.apply, litValue, decimalPrefix, exact, digitsToNat, digitVal, isdigit]
    norm_num
  rw [v1] at h1
  have e1 : "(2 - 3) - 4".toList = '(' :: (['2'] ++ ' ' :: BinOp.minus.char :: ' ' ::
      (['3'] ++ ')' :: ' ' :: BinOp.minus.char :: ' ' :: ['4'])) := by
    decide
  rw [e1, h1]
  exact ⟨key, rfl⟩

/-- Witness of C8: `evaluate("(8 / 2) * 0.5")` is `(8 / 2) * 0.5`. -/
theorem evaluate_parenthesized_witness :
    isNumber "8".toList = true ∧ isNumber "2".toList = true ∧ isNumber "0.5".toList = true ∧
    evaluate exact "(8 / 2) * 0.5".toList =
      .ok (exact.mul (exact.div (litValue exact "8".toList) (litValue exact "2".toList))
        (litValue exact "0.5".toList)) :=
  ⟨by decide, by decide, by decide,
    evaluate_parenthesized.1 exact "8".toList "2".toList "0.5".toList .divide .times
      (by decide) (by decide) (by decide)⟩

/-! ## Well-formed numerals -/

theorem isdigit_ne_dot {c : Char} (h : isdigit c = true) : c ≠ '.' := by
  intro hc
  rw [hc] at h
  exact absurd h (by decide)

theorem isdigit_eq_ne_dot {c : Char} (h : isNumChar c = true) : isdigit c = (c != '.') := by
  by_cases hd : isdigit c = true
  · rw [hd]
    simp [isdigit_ne_dot hd]
  · simp only [Bool.not_eq_true] at hd
    simp only [isNumChar, hd, Bool.false_or, beq_iff_eq] at h
    rw [hd, h]
    rfl

theorem takeWhile_isdigit_eq {s : List Char} (h : ∀ c ∈ s, isNumChar c = true) :
    s.takeWhile isdigit = s.takeWhile (fun c => c != '.') := by
  induction s with
  | nil => rfl
  | cons c s ih =>
    have hc := isdigit_eq_ne_dot (h c (List.mem_cons_self c s))
    have ih' := ih (fun a ha => h a (List.mem_cons_of_mem c ha))
    simp only [List.takeWhile_cons, hc, ih']

theorem dropWhile_isdigit_eq {s : List Char} (h : ∀ c ∈ s, isNumChar c = true) :
    s.dropWhile isdigit = s.dropWhile (fun c => c != '.') := by
  induction s with
  | nil => rfl
  | cons c s ih =>
    have hc := isdigit_eq_ne_dot (h c (List.mem_cons_self c s))
    have ih' := ih (fun a ha => h a (List.mem_cons_of_mem c ha))
    simp only [List.dropWhile_cons, hc, ih']

theorem takeWhile_isdigit_of_no_dot {r : List Char} (h : ∀ c ∈ r, isNumChar c = true)
    (hdot : '.' ∉ r) : r.takeWhile isdigit = r := by
  rw [List.takeWhile_eq_self_iff]
  intro c hc
  rw [isdigit_eq_ne_dot (h c hc)]
  simp only [bne_iff_ne, ne_eq]
  intro hcd
  exact hdot (hcd ▸ hc)

/-- On a well-formed numeral `std::stod` converts the whole text, and the
result is the value of the numeral. -/
theorem decimalPrefix_of_isNumeral {s : List Char} (h : isNumeral s = true) :
    decimalPrefix s =
      some (digitsToNat (s.takeWhile (fun c => c != '.') ++
          (s.dropWhile (fun c => c != '.')).drop 1),
        ((s.dropWhile (fun c => c != '.')).drop 1).length) := by
  simp only [isNumeral, Bool.and_eq_true, List.all_eq_true, decide_eq_true_eq,
    List.any_eq_true] at h
  obtain ⟨⟨hall, hcount⟩, d, hd, hdig⟩ := h
  have hsplit := List.takeWhile_append_dropWhile (fun c => c != '.') s
  have htake_nodot : '.' ∉ s.takeWhile (fun c => c != '.') := by
    intro hmem
    have := List.mem_takeWhile_imp hmem
    simp at this
  unfold decimalPrefix
  rw [takeWhile_isdigit_eq hall, dropWhile_isdigit_eq hall]
  cases hdw : s.dropWhile (fun c => c != '.') with
  | nil =>
    rw [hdw, List.append_nil] at hsplit
    have hne : s.takeWhile (fun c => c != '.') ≠ [] := by
      rw [hsplit]; exact List.ne_nil_of_mem hd
    simp [hne]
  | cons c r =>
    have hc : c = '.' := by
      have hhead := List.head_dropWhile_not (fun c => c != '.') s (by rw [hdw]; simp)
      simp only [hdw, List.head_cons] at hhead
      simpa using hhead
    subst hc
    rw [hdw] at hsplit
    have hr_nodot : '.' ∉ r := by
      intro hmem
      have hc2 : s.count '.' = (s.takeWhile (fun c => c != '.')).count '.' +
          ('.' :: r).count '.' := by
        conv_lhs => rw [← hsplit]
        exact List.count_append _ _ _
      rw [List.count_cons_self] at hc2
      have : 0 < r.count '.' := List.count_pos_iff.mpr hmem
      omega
    have hr_all : ∀ a ∈ r, isNumChar a = true := by
      intro a ha
      apply hall
      rw [← hsplit]
      exact List.mem_append_right _ (List.mem_cons_of_mem _ ha)
    simp only [takeWhile_isdigit_of_no_dot hr_all hr_nodot, List.drop_succ_cons, List.drop_zero]
    have hne : ¬ (s.takeWhile (fun c => c != '.') = [] ∧ r = []) := by
      rintro ⟨h1, h2⟩
      rw [h1, h2, List.nil_append] at hsplit
      rw [← hsplit] at hd
      simp only [List.mem_singleton] at hd
      exact isdigit_ne_dot hdig hd
    simp only [List.isEmpty_eq_true, Bool.and_eq_true, hne]
    rfl

theorem isNumber_eq_of_isNumeral {s : List Char} (h : isNumeral s = true) :
    isNumber s = numeralInRange s := by
  have hdp := decimalPrefix_of_isNumeral h
  simp only [isNumeral, Bool.and_eq_true, List.any_eq_true] at h
  obtain ⟨⟨hall, _⟩, d, hd, _⟩ := h
  have hne : s ≠ [] := List.ne_nil_of_mem hd
  simp only [isNumber, hall, hdp, numeralInRange]
  cases s with
  | nil => exact absurd rfl hne
  | cons c r => simp

theorem isNumber_of_isNumeral {s : List Char} (h : isNumeral s = true)
    (hr : numeralInRange s = true) : isNumber s = true := by
  rw [isNumber_eq_of_isNumeral h, hr]

theorem stod_of_isNumeral {α : Type} (A : Arith α) {s : List Char} (h : isNumeral s = true) :
    stod A s =
      if numeralInRange s then .ok (numeralValue A s) else .error .OutOfRange := by
  unfold stod
  rw [decimalPrefix_of_isNumeral h]
  rfl

theorem litValue_of_isNumeral {α : Type} (A : Arith α) {s : List Char}
    (h : isNumeral s = true) : litValue A s = numeralValue A s := by
  unfold litValue numeralValue
  rw [decimalPrefix_of_isNumeral h]

theorem isNumeral_run {s : List Char} (h : isNumeral s = true) :
    s ≠ [] ∧ ∀ c ∈ s, isNumChar c = true := by
  simp only [isNumeral, Bool.and_eq_true, List.all_eq_true, List.any_eq_true] at h
  obtain ⟨⟨hall, _⟩, d, hd, _⟩ := h
  exact ⟨List.ne_nil_of_mem hd, hall⟩

/-- The function `evaluate` on a well-formed numeral. -/
theorem evaluate_of_isNumeral {α : Type} (A : Arith α) {s : List Char}
    (h : isNumeral s = true) :
    evaluate A s =
      if numeralInRange s then .ok (numeralValue A s) else .error .OutOfRange := by
  cases hr : numeralInRange s with
  | true =>
    have h1 := evaluate_tree_text A (.num [] s)
      (by simp only [Tree.wf, isNumber_of_isNumeral h hr]; decide)
    simpa [Tree.text, Tree.value, litValue_of_isNumeral A h] using h1
  | false =>
    have hst := stod_of_isNumeral A h
    rw [hr] at hst
    have h1 := evaluate_run_error A (isNumeral_run h).1 (isNumeral_run h).2
      (rfl : startsWith isNumChar [] = false) hst
    rw [List.append_nil] at h1
    rw [h1]
    rfl

set_option maxRecDepth 100000 in
theorem hugeNumeral_isNumeral : isNumeral hugeNumeral = true := by decide

set_option maxRecDepth 100000 in
theorem hugeNumeral_outOfRange : numeralInRange hugeNumeral = false := by decide

set_option maxRecDepth 100000 in
theorem hugeNumeral_length : hugeNumeral.length = 401 := by decide

/-- C9, as amended: for every input that consists only of a single well-formed
numeral (digits with at most one decimal point and at least one digit),
`evaluate` succeeds when the numeral is in the range of `double`, and returns
what `std::stod` converts the numeral to, the `double` for its digits and for
the number of its digits after the decimal point; when the numeral is outside
the range of `double`, `evaluate` fails with the `std::out_of_range` of
`std::stod`. -/
theorem evaluate_numeral {α : Type} (A : Arith α) (s : List Char)
    (h : isNumeral s = true) :
    evaluate A s =
      if numeralInRange s then .ok (numeralValue A s) else .error .OutOfRange :=
  evaluate_of_isNumeral A h

/-- Witness of C9 as amended: `evaluate("3.25")` is `325 / 10 ^ 2 = 13 / 4`. -/
theorem evaluate_numeral_witness :
    isNumeral "3.25".toList = true ∧ numeralInRange "3.25".toList = true ∧
    numeralValue exact "3.25".toList = 13 / 4 ∧
    evaluate exact "3.25".toList =
      if numeralInRange "3.25".toList then .ok (numeralValue exact "3.25".toList)
      else .error .OutOfRange :=
  ⟨by decide, by decide,
    by simp [numeralValue, exact, digitsToNat, digitVal, List.takeWhile, List.dropWhile]
       norm_num,
    evaluate_numeral exact "3.25".toList (by decide)⟩

/-- Counterexample to C9 as stated: the digit `1` followed by 400 zeros is a
well-formed numeral, and `evaluate` does not return its value `10 ^ 400`: the
numeral is above the largest `double`, `std::stod` throws `std::out_of_range`,
and `evaluate` fails. -/
theorem evaluate_huge_numeral_fails :
    isNumeral hugeNumeral = true ∧ hugeNumeral.length = 401 ∧
    evaluate exact hugeNumeral = .error .OutOfRange := by
  refine ⟨hugeNumeral_isNumeral, hugeNumeral_length, ?_⟩
  rw [evaluate_of_isNumeral exact hugeNumeral_isNumeral, hugeNumeral_outOfRange]
  rfl

/-! ## Errors of the tokenizer -/

theorem stod_error {α : Type} (A : Arith α) {s : List Char} {e : Err}
    (h : stod A s = .error e) : e = .NumberFormatError ∨ e = .OutOfRange := by
  unfold stod at h
  split at h
  · injection h with h; exact Or.inl h.symm
  · split at h
    · cases h
    · injection h with h; exact Or.inr h.symm

/-- C10: `getNextToken` fails with `InvalidCharacter` if and only if, after
skipping whitespace, the cursor is not at the end and the character there is
not a digit, not `.`, and not one of `+ - * / ( )`; hence `evaluate("2 & 3")`
fails with `InvalidCharacter`. -/
theorem getNextToken_invalidCharacter {α : Type} (A : Arith α) :
    (∀ t : Tokenizer, (t.getNextToken A).1 = .error .InvalidCharacter ↔
      ∃ c r, (t.input.drop t.pos).dropWhile isspace = c :: r ∧
        isdigit c = false ∧ c ≠ '.' ∧ c ∉ ['+', '-', '*', '/', '(', ')']) ∧
    evaluate A "2 & 3".toList = .error .InvalidCharacter := by
  refine ⟨?_, rfl⟩
  intro t
  rw [getNextToken_eq]
  simp only [lexRest]
  cases hrest : (t.input.drop t.pos).dropWhile isspace with
  | nil => simp
  | cons c r =>
    have hex : (∃ c1 r1, c :: r = c1 :: r1 ∧
        isdigit c1 = false ∧ c1 ≠ '.' ∧ c1 ∉ ['+', '-', '*', '/', '(', ')']) ↔
        (isdigit c = false ∧ c ≠ '.' ∧ c ∉ ['+', '-', '*', '/', '(', ')']) :=
      ⟨fun ⟨c1, r1, h, hp⟩ => by cases h; exact hp, fun hp => ⟨c, r, rfl, hp⟩⟩
    rw [hex]
    by_cases hnum : (isdigit c || c == '.') = true
    · have hr : ¬ (isdigit c = false ∧ c ≠ '.' ∧ c ∉ ['+', '-', '*', '/', '(', ')']) := by
        rintro ⟨h1, h2, _⟩
        simp only [Bool.or_eq_true, beq_iff_eq] at hnum
        rcases hnum with h | h
        · rw [h1] at h; cases h
        · exact h2 h
      simp only [if_pos hnum]
      cases hst : stod A ((c :: r).takeWhile isNumChar) with
      | ok v =>
        constructor
        · intro h; cases h
        · intro h; exact absurd h hr
      | error e =>
        constructor
        · intro h
          injection h with h
          rcases stod_error A hst with h1 | h1 <;> rw [h1] at h <;> cases h
        · intro h; exact absurd h hr
    · simp only [if_neg hnum]
      simp only [Bool.or_eq_true, beq_iff_eq, not_or, Bool.not_eq_true] at hnum
      repeat' split
      all_goals simp_all

theorem Parser.new_error_iff {α : Type} (A : Arith α) (t : Tokenizer) (e : Err) :
    Parser.new A t = .error e ↔ (t.getNextToken A).1 = .error e := by
  unfold Parser.new
  cases h : t.getNextToken A with
  | mk res t1 =>
    cases res with
    | ok tok => simp
    | error e1 => simp

theorem Parser.new_ok_iff {α : Type} (A : Arith α) (t : Tokenizer) (p : Parser α) :
    Parser.new A t = .ok p ↔ t.getNextToken A = (.ok p.currentToken, p.tokenizer) := by
  unfold Parser.new
  cases h : t.getNextToken A with
  | mk res t1 =>
    cases res with
    | ok tok =>
      obtain ⟨pt, ptok⟩ := p
      simp only [Except.ok.injEq, Parser.mk.injEq, Prod.mk.injEq]
      constructor
      · rintro ⟨h1, h2⟩; exact ⟨h2, h1⟩
      · rintro ⟨h1, h2⟩; exact ⟨h2, h1⟩
    | error e1 => simp

theorem lexRest_of_getNextToken {α : Type} (A : Arith α) {r : List Char}
    {res : Except Err (Token α)} (h : (Tokenizer.getNextToken A ⟨r, 0⟩).1 = res) :
    lexRest A r = (res, (lexRest A r).2) := by
  rw [getNextToken_eq] at h
  simp only [List.drop_zero] at h
  rw [← h]

/-! ## Trailing input -/

/-- C3, as amended: trailing input after a complete expression is ignored from
its second token on.  For every expression tree `e` and every trailing text `r`
that does not begin with a digit or `.` and whose first token the tokenizer
reads successfully as a token that is not a binary operator (a Number,
LeftParen, RightParen or End), `evaluate` of the text of `e` followed by `r`
returns the value of `e`, whatever follows that token in `r`. -/
theorem evaluate_trailing {α : Type} (A : Arith α) (e : Tree) (r : List Char) (tok : Token α)
    (hwf : e.wf = true) (hr : startsWith isNumChar r = false)
    (hlex : (Tokenizer.getNextToken A ⟨r, 0⟩).1 = .ok tok)
    (hop : isBinaryOp tok.type = false) :
    evaluate A (e.text ++ r) = .ok (e.value A) :=
  evaluate_tree_lookahead A e r tok (lexRest A r).2 hwf hr
    (lexRest_of_getNextToken A hlex) hop

/-- Witness of C3 as amended: `evaluate("2+3 4 garbage")` is `2 + 3`. -/
theorem evaluate_trailing_witness :
    twoPlusThree.wf = true ∧ startsWith isNumChar " 4 garbage".toList = false ∧
    (Tokenizer.getNextToken exact ⟨" 4 garbage".toList, 0⟩).1 =
      .ok ⟨.NUMBER, litValue exact ['4']⟩ ∧
    twoPlusThree.text ++ " 4 garbage".toList = "2+3 4 garbage".toList ∧
    evaluate exact (twoPlusThree.text ++ " 4 garbage".toList) = .ok (twoPlusThree.value exact) :=
  ⟨by decide, by decide, rfl, by decide,
    evaluate_trailing exact twoPlusThree " 4 garbage".toList ⟨.NUMBER, litValue exact ['4']⟩
      (by decide) (by decide) rfl rfl⟩

/-- Counterexample to C3 as stated: `evaluate("2+3 garbage")` does not return 5
but fails with `InvalidCharacter`, because the token after `3` is read as
lookahead. -/
theorem evaluate_trailing_garbage_fails :
    evaluate exact "2+3 garbage".toList = .error .InvalidCharacter ∧
    evaluate exact "2+3".toList = .ok 5 := by
  refine ⟨rfl, ?_⟩
  have h := evaluate_tree_text exact twoPlusThree (by decide)
  have v : twoPlusThree.value exact = 5 := by
    simp [twoPlusThree, Tree.value, BinOp.apply, litValue, decimalPrefix, exact, digitsToNat,
      digitVal, isdigit]
    norm_num
  rw [v] at h
  exact h

/-! ## Number-format errors -/

theorem takeWhile_isdigit_run_eq_nil (r : List Char) :
    (r.takeWhile isNumChar).takeWhile isdigit = [] ↔ startsWith isdigit r = false := by
  cases r with
  | nil => simp [startsWith]
  | cons d r1 =>
    by_cases hd : isdigit d = true
    · have hn : isNumChar d = true := by simp [isNumChar, hd]
      simp [List.takeWhile_cons, hn, hd, startsWith]
    · simp only [Bool.not_eq_true] at hd
      by_cases hn : isNumChar d = true
      · simp [List.takeWhile_cons, hn, hd, startsWith]
      · simp [List.takeWhile_cons, hn, hd, startsWith]

/-- The conversion of a scanned run fails exactly when the run starts with a
decimal point that is not directly followed by a digit. -/
theorem decimalPrefix_run_eq_none {c : Char} (r : List Char) (hc : isNumChar c = true) :
    decimalPrefix ((c :: r).takeWhile isNumChar) = none ↔
      c = '.' ∧ startsWith isdigit r = false := by
  rw [List.takeWhile_cons, if_pos hc]
  unfold decimalPrefix
  by_cases hd : isdigit c = true
  · have hne := isdigit_ne_dot hd
    simp [List.takeWhile_cons, hd, hne]
  · simp only [Bool.not_eq_true] at hd
    have hdot : c = '.' := by
      simpa [isNumChar, hd] using hc
    subst hdot
    have ht := takeWhile_isdigit_run_eq_nil r
    simp only [List.takeWhile_cons, List.dropWhile_cons, hd, Bool.false_eq_true, if_false,
      List.isEmpty_nil, Bool.true_and, true_and]
    constructor
    · intro h
      split at h
      · rename_i hE
        exact ht.mp (by simpa using hE)
      · cases h
    · intro h
      rw [if_pos (by simpa using ht.mpr h)]

theorem stod_eq_error_iff {α : Type} (A : Arith α) (s : List Char) (e : Err) :
    stod A s = .error e ↔
      (decimalPrefix s = none ∧ e = .NumberFormatError) ∨
      (∃ m k, decimalPrefix s = some (m, k) ∧ inDoubleRange m k = false ∧ e = .OutOfRange) := by
  unfold stod
  cases h : decimalPrefix s with
  | none =>
    constructor
    · intro h1
      injection h1 with h1
      exact Or.inl ⟨rfl, h1.symm⟩
    · rintro (⟨_, h1⟩ | ⟨m, k, h1, _⟩)
      · rw [h1]
      · cases h1
  | some mk =>
    obtain ⟨m, k⟩ := mk
    simp only
    cases hr : inDoubleRange m k with
    | true =>
      simp only [if_true]
      constructor
      · intro h1; cases h1
      · rintro (⟨h1, _⟩ | ⟨m1, k1, h1, h2, _⟩)
        · cases h1
        · cases h1
          rw [hr] at h2; cases h2
    | false =>
      simp only [Bool.false_eq_true, if_false]
      constructor
      · intro h1
        injection h1 with h1
        exact Or.inr ⟨m, k, rfl, hr, h1.symm⟩
      · rintro (⟨h1, _⟩ | ⟨_, _, _, _, h3⟩)
        · cases h1
        · rw [h3]

theorem stod_numberFormatError_iff {α : Type} (A : Arith α) (s : List Char) :
    stod A s = .error .NumberFormatError ↔ decimalPrefix s = none := by
  rw [stod_eq_error_iff]
  constructor
  · rintro (⟨h, _⟩ | ⟨_, _, _, _, h⟩)
    · exact h
    · cases h
  · intro h; exact Or.inl ⟨h, rfl⟩

/-! ## Errors where a term is expected -/

theorem parseExpression_term_error {α : Type} (A : Arith α) (fuel : Nat) {p : Parser α}
    {e : Err} (ht : parseTerm A fuel p = .error e) :
    parseExpression A (fuel + 1) p = .error e := by
  simp only [parseExpression, ht]

theorem parseExpression_bin_error {α : Type} (A : Arith α) (fuel : Nat) (op : BinOp)
    {p p1 p2 : Parser α} {v : α} {e : Err} (ht : parseTerm A fuel p = .ok (v, p1))
    (hop : p1.currentToken.type = op.tokenType) (hc : p1.consume A op.tokenType = .ok p2)
    (he : parseExpression A fuel p2 = .error e) :
    parseExpression A (fuel + 1) p = .error e := by
  simp only [parseExpression, ht]
  cases op <;> simp_all [BinOp.tokenType, binaryRest]

theorem parseTerm_paren_error {α : Type} (A : Arith α) (fuel : Nat) {p p1 : Parser α}
    {e : Err} (ht : p.currentToken.type = .LPAREN) (hc : p.consume A .LPAREN = .ok p1)
    (he : parseExpression A fuel p1 = .error e) :
    parseTerm A (fuel + 1) p = .error e := by
  simp [parseTerm, ht, hc, he]

theorem parseTerm_invalid {α : Type} (A : Arith α) (fuel : Nat) {p : Parser α}
    (h1 : p.currentToken.type ≠ .NUMBER) (h2 : p.currentToken.type ≠ .LPAREN)
    (h3 : p.currentToken.type ≠ .MINUS) :
    parseTerm A (fuel + 1) p = .error .InvalidSyntax := by
  simp [parseTerm, h1, h2, h3]

theorem parseTerm_neg_unexpected {α : Type} (A : Arith α) (fuel : Nat) {p p1 : Parser α}
    (ht : p.currentToken.type = .MINUS) (hc : p.consume A .MINUS = .ok p1)
    (hn : p1.currentToken.type ≠ .NUMBER) :
    parseTerm A (fuel + 1) p = .error .UnexpectedToken := by
  simp [parseTerm, ht, hc, Parser.consume_eq, hn]

theorem parseTerm_neg_error {α : Type} (A : Arith α) (fuel : Nat) {p : Parser α} {e : Err}
    (ht : p.currentToken.type = .MINUS) (hc : p.consume A .MINUS = .error e) :
    parseTerm A (fuel + 1) p = .error e := by
  simp [parseTerm, ht, hc]

theorem contextCost_le_text (P : List Item) (hwf : contextWf P = true) :
    contextCost P ≤ 2 * (contextText P).length := by
  induction P with
  | nil => simp [contextCost]
  | cons i P ih =>
    simp only [contextWf, List.all_cons, Bool.and_eq_true] at hwf
    have h := ih (by simpa [contextWf] using hwf.2)
    cases i with
    | operand t ws op =>
      simp only [Item.wf, Bool.and_eq_true] at hwf
      have := t.cost_le_text hwf.1.1.2
      simp only [contextCost, contextText, Item.cost, Item.text, List.length_append]
      omega
    | lparen ws =>
      simp only [contextCost, contextText, Item.cost, Item.text, List.length_append,
        List.length_cons, List.length_nil]
      omega

/-- An error of `parseExpression` at a place where a term is expected is the
error of the enclosing calls: if behind the items `P` the parser fails with `e`,
then it fails with `e` from the state primed in front of `P`. -/
theorem parse_context_error {α : Type} (A : Arith α) (e : Err) (fuel0 : Nat) :
    ∀ (P : List Item), contextWf P = true →
    ∀ (input : List Char) (k : Nat) (rest : List Char),
      input.drop k = contextText P ++ rest →
      (∀ fuel, fuel0 ≤ fuel → ∃ p0,
        Parser.new A ⟨input, k + (contextText P).length⟩ = .ok p0 ∧
        parseExpression A fuel p0 = .error e) →
      ∀ fuel, fuel0 + contextCost P ≤ fuel →
        ∃ p, Parser.new A ⟨input, k⟩ = .ok p ∧ parseExpression A fuel p = .error e := by
  intro P
  induction P with
  | nil =>
    intro _ input k rest _ h fuel hfuel
    simpa [contextText] using h fuel (by simp only [contextCost] at hfuel; omega)
  | cons i P ih =>
    intro hwf input k rest hdrop h fuel hfuel
    simp only [contextWf, List.all_cons, Bool.and_eq_true] at hwf
    obtain ⟨hwfi, hwfP⟩ := hwf
    have hwfP' : contextWf P = true := by simpa [contextWf] using hwfP
    cases i with
    | operand t ws op =>
      simp only [Item.wf, Bool.and_eq_true] at hwfi
      obtain ⟨⟨htt, hwft⟩, hws⟩ := hwfi
      simp only [contextText, Item.text, List.append_assoc, List.length_append,
        List.cons_append, List.nil_append, List.length_cons, List.length_nil] at hdrop h
      simp only [contextCost, Item.cost] at hfuel
      have hct := t.two_le_cost
      obtain ⟨f, rfl⟩ : ∃ f, fuel = f + 1 := ⟨fuel - 1, by omega⟩
      have hdrop1 : input.drop (k + t.text.length) = ws ++ op.char :: (contextText P ++ rest) :=
        drop_add_of_drop_eq _ _ hdrop
      have hlex := lexRest_ws_punct A hws (punctKind_op op) (contextText P ++ rest)
      rw [← hdrop1] at hlex
      have hrest1 : startsWith isNumChar (ws ++ op.char :: (contextText P ++ rest)) = false :=
        startsWith_append_cons (isBlank_iff.mp hws) isspace_not_isNumChar
          (punctKind_not_space (punctKind_op op)).2
      obtain ⟨p, hp, ht⟩ := (parse_tree A t hwft input k _ _ f hdrop hrest1
        (Parser.new_of_lexRest A hlex)).1 htt (by omega)
      have hdrop2 : input.drop (k + t.text.length + (ws.length + 1)) = contextText P ++ rest := by
        have h := drop_add_of_drop_eq (ws ++ [op.char]) (contextText P ++ rest)
          (by simpa using hdrop1)
        simpa using h
      obtain ⟨p2, hp2, he⟩ := ih hwfP' input _ rest hdrop2 (by
        intro fuel1 hfuel1
        obtain ⟨p0, hp0, he0⟩ := h fuel1 hfuel1
        exact ⟨p0, Parser.new_pos_congr A (by omega) hp0, he0⟩) f (by omega)
      refine ⟨p, hp, ?_⟩
      have h1 : Parser.consume A (⟨⟨input, k + t.text.length + (ws.length + 1)⟩,
          ⟨op.tokenType, A.zero⟩⟩ : Parser α) op.tokenType = .ok p2 := by
        rw [Parser.consume_eq, if_pos rfl]; exact hp2
      exact parseExpression_bin_error A f op ht rfl h1 he
    | lparen ws =>
      simp only [Item.wf] at hwfi
      simp only [contextText, Item.text, List.append_assoc, List.length_append,
        List.cons_append, List.nil_append, List.length_cons, List.length_nil] at hdrop h
      simp only [contextCost, Item.cost] at hfuel
      obtain ⟨f, rfl⟩ : ∃ f, fuel = f + 2 := ⟨fuel - 2, by omega⟩
      have hlex := lexRest_ws_punct A (c := '(') hwfi rfl (contextText P ++ rest)
      rw [← hdrop] at hlex
      have hdrop1 : input.drop (k + (ws.length + 1)) = contextText P ++ rest := by
        have h := drop_add_of_drop_eq (ws ++ ['(']) (contextText P ++ rest)
          (by simpa using hdrop)
        simpa using h
      obtain ⟨p1, hp1, he⟩ := ih hwfP' input _ rest hdrop1 (by
        intro fuel1 hfuel1
        obtain ⟨p0, hp0, he0⟩ := h fuel1 hfuel1
        exact ⟨p0, Parser.new_pos_congr A (by omega) hp0, he0⟩) f (by omega)
      refine ⟨_, Parser.new_of_lexRest A hlex, ?_⟩
      have h1 : Parser.consume A (⟨⟨input, k + (ws.length + 1)⟩, ⟨.LPAREN, A.zero⟩⟩ : Parser α)
          .LPAREN = .ok p1 := by
        rw [Parser.consume_eq, if_pos rfl]; exact hp1
      exact parseExpression_term_error A (f + 1) (parseTerm_paren_error A f rfl h1 he)

theorem evaluate_of_parse_error {α : Type} (A : Arith α) {input : List Char} {p : Parser α}
    {e : Err} (hp : Parser.new A ⟨input, 0⟩ = .ok p)
    (he : parseExpression A (2 * input.length + 2) p = .error e) :
    evaluate A input = .error e := by
  simp [evaluate, hp, he]

/-- The function `evaluate` fails with `e` when, behind items `P`, the parser
fails with `e` for every call depth of at least 2. -/
theorem evaluate_context_error {α : Type} (A : Arith α) (e : Err) (P : List Item)
    (rest : List Char) (hwf : contextWf P = true)
    (h : ∀ fuel, 2 ≤ fuel → ∃ p0,
      Parser.new A ⟨contextText P ++ rest, (contextText P).length⟩ = .ok p0 ∧
      parseExpression A fuel p0 = .error e) :
    evaluate A (contextText P ++ rest) = .error e := by
  have hc := contextCost_le_text P hwf
  obtain ⟨p, hp, he⟩ := parse_context_error A e 2 P hwf (contextText P ++ rest) 0 rest rfl
    (by simpa using h) (2 * (contextText P ++ rest).length + 2)
    (by rw [List.length_append]; omega)
  exact evaluate_of_parse_error A hp he

/-! ## A minus sign that is not followed by a number -/

/-- The parser at a `-` whose following token is read but is not a number. -/
theorem parse_minus_unexpected {α : Type} (A : Arith α) {input ws rest : List Char} {k n : Nat}
    {tok : Token α} (hws : isBlank ws = true) (hdrop : input.drop k = ws ++ '-' :: rest)
    (hlex : lexRest A rest = (.ok tok, n)) (hn : tok.type ≠ .NUMBER) (fuel : Nat)
    (hfuel : 2 ≤ fuel) :
    ∃ p0, Parser.new A ⟨input, k⟩ = .ok p0 ∧
      parseExpression A fuel p0 = .error .UnexpectedToken := by
  obtain ⟨f, rfl⟩ : ∃ f, fuel = f + 2 := ⟨fuel - 2, by omega⟩
  have hl := lexRest_ws_punct A (c := '-') hws rfl rest
  rw [← hdrop] at hl
  have hdrop1 : input.drop (k + (ws.length + 1)) = rest := by
    have h := drop_add_of_drop_eq (ws ++ ['-']) rest (by simpa using hdrop)
    simpa using h
  rw [← hdrop1] at hlex
  refine ⟨_, Parser.new_of_lexRest A hl, ?_⟩
  have h1 : Parser.consume A (⟨⟨input, k + (ws.length + 1)⟩, ⟨.MINUS, A.zero⟩⟩ : Parser α)
      .MINUS = .ok ⟨⟨input, k + (ws.length + 1) + n⟩, tok⟩ := by
    rw [Parser.consume_eq, if_pos rfl]; exact Parser.new_of_lexRest A hlex
  exact parseExpression_term_error A (f + 1) (parseTerm_neg_unexpected A f rfl h1 hn)

/-- The parser at a `-` whose following token cannot be read. -/
theorem parse_minus_lex_error {α : Type} (A : Arith α) {input ws rest : List Char} {k n : Nat}
    {e : Err} (hws : isBlank ws = true) (hdrop : input.drop k = ws ++ '-' :: rest)
    (hlex : lexRest A rest = (.error e, n)) (fuel : Nat) (hfuel : 2 ≤ fuel) :
    ∃ p0, Parser.new A ⟨input, k⟩ = .ok p0 ∧ parseExpression A fuel p0 = .error e := by
  obtain ⟨f, rfl⟩ : ∃ f, fuel = f + 2 := ⟨fuel - 2, by omega⟩
  have hl := lexRest_ws_punct A (c := '-') hws rfl rest
  rw [← hdrop] at hl
  have hdrop1 : input.drop (k + (ws.length + 1)) = rest := by
    have h := drop_add_of_drop_eq (ws ++ ['-']) rest (by simpa using hdrop)
    simpa using h
  rw [← hdrop1] at hlex
  refine ⟨_, Parser.new_of_lexRest A hl, ?_⟩
  have h1 : Parser.consume A (⟨⟨input, k + (ws.length + 1)⟩, ⟨.MINUS, A.zero⟩⟩ : Parser α)
      .MINUS = .error e := by
    rw [Parser.consume_eq, if_pos rfl]; exact Parser.new_error_of_lexRest A hlex
  exact parseExpression_term_error A (f + 1) (parseTerm_neg_error A f rfl h1)

/-- C6: a leading unary minus is accepted only when the very next token is a
Number.  For every input in which a term starts with `-` (the `-` stands at the
start of the input, or after a binary operator or an opening parenthesis, with
complete terms in front of the operators) and the token that follows the `-` is
read and is not a Number, `evaluate` fails, with `UnexpectedToken`; and when
that token cannot be read, `evaluate` fails with the tokenizer's error.  In
particular `evaluate("-(5+3)")`, `evaluate("-(1+2)")` and `evaluate("--3")`
fail with `UnexpectedToken`. -/
theorem evaluate_minus_not_number {α : Type} (A : Arith α) :
    (∀ (P : List Item) (ws rest : List Char) (tok : Token α),
      contextWf P = true → isBlank ws = true →
      (Tokenizer.getNextToken A ⟨rest, 0⟩).1 = .ok tok → tok.type ≠ .NUMBER →
      evaluate A (contextText P ++ (ws ++ '-' :: rest)) = .error .UnexpectedToken) ∧
    (∀ (P : List Item) (ws rest : List Char) (e : Err),
      contextWf P = true → isBlank ws = true →
      (Tokenizer.getNextToken A ⟨rest, 0⟩).1 = .error e →
      evaluate A (contextText P ++ (ws ++ '-' :: rest)) = .error e) ∧
    evaluate A "-(5+3)".toList = .error .UnexpectedToken ∧
    evaluate A "-(1+2)".toList = .error .UnexpectedToken ∧
    evaluate A "--3".toList = .error .UnexpectedToken := by
  refine ⟨?_, ?_, rfl, rfl, rfl⟩
  · intro P ws rest tok hwf hws hlex hn
    apply evaluate_context_error A _ P _ hwf
    intro fuel hfuel
    exact parse_minus_unexpected A hws (List.drop_left _ _)
      (lexRest_of_getNextToken A hlex) hn fuel hfuel
  · intro P ws rest e hwf hws hlex
    apply evaluate_context_error A _ P _ hwf
    intro fuel hfuel
    exact parse_minus_lex_error A hws (List.drop_left _ _)
      (lexRest_of_getNextToken A hlex) fuel hfuel

/-- Witness of C6: `evaluate("2 * (--3)")` fails with `UnexpectedToken`: the
term after `(` starts with `-` and the next token is another `-`. -/
theorem evaluate_minus_not_number_witness :
    contextWf sampleContext = true ∧ isBlank [] = true ∧
    (Tokenizer.getNextToken exact ⟨"-3)".toList, 0⟩).1 = .ok ⟨.MINUS, exact.zero⟩ ∧
    contextText sampleContext ++ ([] ++ '-' :: "-3)".toList) = "2 * (--3)".toList ∧
    evaluate exact (contextText sampleContext ++ ([] ++ '-' :: "-3)".toList)) =
      .error .UnexpectedToken :=
  ⟨by decide, by decide, rfl, by decide,
    (evaluate_minus_not_number exact).1 sampleContext [] "-3)".toList ⟨.MINUS, exact.zero⟩
      (by decide) (by decide) rfl (by decide)⟩

/-! ## From the parser back to the grammar -/

theorem isBlank_takeWhile (suf : List Char) : isBlank (suf.takeWhile isspace) = true := by
  rw [isBlank_iff]
  intro a ha
  exact List.mem_takeWhile_imp ha

theorem startsWith_dropWhile (p : Char → Bool) (l : List Char) :
    startsWith p (l.dropWhile p) = false := by
  cases h : l.dropWhile p with
  | nil => rfl
  | cons c r =>
    have hhead := List.head_dropWhile_not p l (by rw [h]; simp)
    simp only [h, List.head_cons] at hhead
    simpa [startsWith] using hhead

/-- What a successfully read token says about the text at the cursor. -/
theorem lexRest_ok_inv {α : Type} (A : Arith α) {suf : List Char} {tok : Token α} {n : Nat}
    (h : lexRest A suf = (.ok tok, n)) :
    (tok.type = .END ∧ isBlank suf = true ∧ n = suf.length) ∨
    (tok.type = .NUMBER ∧ ∃ ws lit rest, suf = ws ++ (lit ++ rest) ∧ isBlank ws = true ∧
      isNumber lit = true ∧ startsWith isNumChar rest = false ∧
      tok.value = litValue A lit ∧ n = ws.length + lit.length) ∨
    (∃ ws c rest, suf = ws ++ c :: rest ∧ isBlank ws = true ∧
      punctKind c = some tok.type ∧ n = ws.length + 1) := by
  have hsplit := List.takeWhile_append_dropWhile isspace suf
  have hws := isBlank_takeWhile suf
  unfold lexRest at h
  simp only at h
  cases hrest : suf.dropWhile isspace with
  | nil =>
    rw [hrest] at h hsplit
    simp only [Prod.mk.injEq, Except.ok.injEq] at h
    rw [List.append_nil] at hsplit
    left
    refine ⟨by rw [← h.1], by rw [← hsplit]; exact hws, by rw [← h.2, hsplit]⟩
  | cons c r =>
    rw [hrest] at h hsplit
    simp only at h
    by_cases hnum : (isdigit c || c == '.') = true
    · rw [if_pos hnum] at h
      right; left
      have hrun_split := List.takeWhile_append_dropWhile isNumChar (c :: r)
      cases hst : stod A ((c :: r).takeWhile isNumChar) with
      | error e => rw [hst] at h; simp at h
      | ok v =>
        rw [hst] at h
        simp only [Prod.mk.injEq, Except.ok.injEq] at h
        have hnumber : isNumber ((c :: r).takeWhile isNumChar) = true := by
          have hnc : isNumChar c = true := hnum
          have hne : (c :: r).takeWhile isNumChar ≠ [] := by
            rw [List.takeWhile_cons, if_pos hnc]; simp
          have hall : ∀ a ∈ (c :: r).takeWhile isNumChar, isNumChar a = true :=
            fun a ha => List.mem_takeWhile_imp ha
          have hdp : (match decimalPrefix ((c :: r).takeWhile isNumChar) with
              | some (m, k) => inDoubleRange m k
              | none => false) = true := by
            unfold stod at hst
            cases hd : decimalPrefix ((c :: r).takeWhile isNumChar) with
            | none => rw [hd] at hst; cases hst
            | some mk =>
              rw [hd] at hst
              simp only at hst ⊢
              cases hr : inDoubleRange mk.1 mk.2 with
              | true => rfl
              | false => rw [hr] at hst; cases hst
          simp only [isNumber, Bool.and_eq_true, List.all_eq_true, hdp, and_true]
          refine ⟨?_, hall⟩
          cases hl : (c :: r).takeWhile isNumChar with
          | nil => exact absurd hl hne
          | cons a l => rfl
        refine ⟨by rw [← h.1], suf.takeWhile isspace, (c :: r).takeWhile isNumChar,
          (c :: r).dropWhile isNumChar, ?_, hws, hnumber, startsWith_dropWhile _ _, ?_, h.2.symm⟩
        · rw [hrun_split, hsplit]
        · rw [← h.1]
          have := stod_of_isNumber A hnumber
          rw [hst] at this
          injection this
    · rw [if_neg hnum] at h
      right; right
      refine ⟨suf.takeWhile isspace, c, r, hsplit.symm, hws, ?_⟩
      repeat' split at h
      all_goals
        simp only [Prod.mk.injEq, Except.ok.injEq] at h
        first
        | exact ⟨by rw [← h.1]; subst_vars; rfl, h.2.symm⟩
        | exact absurd h.1 (by simp)

theorem lexRest_error_cases {α : Type} (A : Arith α) {suf : List Char} {e : Err} {n : Nat}
    (h : lexRest A suf = (.error e, n)) :
    e = .InvalidCharacter ∨ e = .NumberFormatError ∨ e = .OutOfRange := by
  unfold lexRest at h
  simp only at h
  split at h
  · cases h
  · split at h
    · split at h
      · cases h
      · rename_i hst
        simp only [Prod.mk.injEq, Except.error.injEq] at h
        rw [← h.1]
        exact Or.inr (stod_error A hst)
    · repeat' split at h
      all_goals
        simp only [Prod.mk.injEq, Except.error.injEq] at h
        first
        | exact Or.inl h.1.symm
        | exact absurd h.1 (by simp)

theorem Parser.new_ok_inv {α : Type} (A : Arith α) {input : List Char} {k : Nat}
    {p : Parser α} (h : Parser.new A ⟨input, k⟩ = .ok p) :
    ∃ n, lexRest A (input.drop k) = (.ok p.currentToken, n) ∧ p.tokenizer = ⟨input, k + n⟩ := by
  rw [Parser.new_eq] at h
  cases hl : lexRest A (input.drop k) with
  | mk res n =>
    rw [hl] at h
    cases res with
    | error e => cases h
    | ok tok =>
      simp only [Except.ok.injEq] at h
      exact ⟨n, by rw [← h], by rw [← h]⟩

theorem Parser.new_error_cases {α : Type} (A : Arith α) {t : Tokenizer} {e : Err}
    (h : Parser.new A t = .error e) :
    e = .InvalidCharacter ∨ e = .NumberFormatError ∨ e = .OutOfRange := by
  obtain ⟨input, k⟩ := t
  rw [Parser.new_eq] at h
  cases hl : lexRest A (input.drop k) with
  | mk res n =>
    rw [hl] at h
    cases res with
    | ok tok => cases h
    | error e1 =>
      simp only [Except.error.injEq] at h
      rw [← h]
      exact lexRest_error_cases A hl

theorem Parser.consume_error_ne {α : Type} (A : Arith α) {p : Parser α} {type : TokenType}
    (h : p.consume A type = .error .InvalidSyntax) : False := by
  rw [Parser.consume_eq] at h
  split at h
  · rcases Parser.new_error_cases A h with h1 | h1 | h1 <;> cases h1
  · cases h

theorem Parser.consume_ok_inv {α : Type} (A : Arith α) {p p1 : Parser α} {type : TokenType}
    (h : p.consume A type = .ok p1) :
    p.currentToken.type = type ∧ Parser.new A p.tokenizer = .ok p1 := by
  rw [Parser.consume_eq] at h
  split at h
  · rename_i ht; exact ⟨ht, h⟩
  · cases h

theorem punctKind_ne_number {c : Char} (h : punctKind c = some .NUMBER) : False := by
  rcases punctKind_some h with h | h | h | h | h | h <;> cases h.2

theorem punctKind_ne_end {c : Char} (h : punctKind c = some .END) : False := by
  rcases punctKind_some h with h | h | h | h | h | h <;> cases h.2

theorem punctKind_inj {c d : Char} {kind : TokenType} (hc : punctKind c = some kind)
    (hd : punctKind d = some kind) : c = d := by
  rcases punctKind_some hc with h | h | h | h | h | h <;>
    rcases punctKind_some hd with g | g | g | g | g | g <;>
    first
    | (rw [h.1, g.1]; done)
    | (exfalso; have := h.2.symm.trans g.2; cases this)

/-- The text in front of a state primed with a Number. -/
theorem Parser.new_number_inv {α : Type} (A : Arith α) {input : List Char} {k : Nat}
    {p : Parser α} (h : Parser.new A ⟨input, k⟩ = .ok p)
    (ht : p.currentToken.type = .NUMBER) :
    ∃ ws lit rest, input.drop k = ws ++ (lit ++ rest) ∧ isBlank ws = true ∧
      isNumber lit = true ∧ startsWith isNumChar rest = false ∧
      p.currentToken.value = litValue A lit ∧
      p.tokenizer = ⟨input, k + (ws.length + lit.length)⟩ := by
  obtain ⟨n, hlex, htk⟩ := Parser.new_ok_inv A h
  rcases lexRest_ok_inv A hlex with h1 | h1 | h1
  · rw [ht] at h1; cases h1.1
  · obtain ⟨_, ws, lit, rest, h2, h3, h4, h5, h6, h7⟩ := h1
    exact ⟨ws, lit, rest, h2, h3, h4, h5, h6, by rw [htk, h7]⟩
  · obtain ⟨ws, c, rest, _, _, h4, _⟩ := h1
    rw [ht] at h4
    exact absurd h4 (fun h => punctKind_ne_number h)

/-- The text in front of a state primed with a punctuation token. -/
theorem Parser.new_punct_inv {α : Type} (A : Arith α) {input : List Char} {k : Nat}
    {p : Parser α} {c : Char} (h : Parser.new A ⟨input, k⟩ = .ok p)
    (hc : punctKind c = some p.currentToken.type) :
    ∃ ws rest, input.drop k = ws ++ c :: rest ∧ isBlank ws = true ∧
      p.tokenizer = ⟨input, k + (ws.length + 1)⟩ := by
  obtain ⟨n, hlex, htk⟩ := Parser.new_ok_inv A h
  rcases lexRest_ok_inv A hlex with h1 | h1 | h1
  · rw [h1.1] at hc; exact absurd hc (fun h => punctKind_ne_end h)
  · rw [h1.1] at hc; exact absurd hc (fun h => punctKind_ne_number h)
  · obtain ⟨ws, d, rest, h2, h3, h4, h5⟩ := h1
    have hcd := punctKind_inj hc h4
    subst hcd
    exact ⟨ws, rest, h2, h3, by rw [htk, h5]⟩

theorem parseTerm_number_eq {α : Type} (A : Arith α) (fuel : Nat) {p : Parser α}
    (ht : p.currentToken.type = .NUMBER) :
    parseTerm A (fuel + 1) p =
      match p.consume A .NUMBER with
      | .error e => .error e
      | .ok p1 => .ok (p.currentToken.value, p1) := by
  simp [parseTerm, ht]

theorem parseTerm_paren_eq {α : Type} (A : Arith α) (fuel : Nat) {p : Parser α}
    (ht : p.currentToken.type = .LPAREN) :
    parseTerm A (fuel + 1) p =
      match p.consume A .LPAREN with
      | .error e => .error e
      | .ok p1 =>
        match parseExpression A fuel p1 with
        | .error e => .error e
        | .outOfFuel => .outOfFuel
        | .ok (result, p2) =>
          match p2.consume A .RPAREN with
          | .error e => .error e
          | .ok p3 => .ok (result, p3) := by
  simp [parseTerm, ht]

theorem parseTerm_minus_eq {α : Type} (A : Arith α) (fuel : Nat) {p : Parser α}
    (ht : p.currentToken.type = .MINUS) :
    parseTerm A (fuel + 1) p =
      match p.consume A .MINUS with
      | .error e => .error e
      | .ok p1 =>
        match p1.consume A .NUMBER with
        | .error e => .error e
        | .ok p2 => .ok (A.neg p1.currentToken.value, p2) := by
  simp [parseTerm, ht]

theorem parseExpression_op_eq {α : Type} (A : Arith α) (fuel : Nat) (op : BinOp)
    {p p1 : Parser α} {v : α} (ht : parseTerm A fuel p = .ok (v, p1))
    (hop : p1.currentToken.type = op.tokenType) :
    parseExpression A (fuel + 1) p =
      binaryRest A (parseExpression A fuel) (op.apply A) v p1 op.tokenType := by
  simp only [parseExpression, ht]
  cases op <;> simp_all [BinOp.tokenType, BinOp.apply]

theorem isBinaryOp_true_iff {type : TokenType} :
    isBinaryOp type = true ↔ ∃ op : BinOp, type = op.tokenType := by
  constructor
  · intro h
    cases type <;> simp [isBinaryOp] at h
    · exact ⟨.plus, rfl⟩
    · exact ⟨.minus, rfl⟩
    · exact ⟨.times, rfl⟩
    · exact ⟨.divide, rfl⟩
  · rintro ⟨op, rfl⟩
    exact isBinaryOp_op op

theorem startsTerm_cases {type : TokenType} (h : startsTerm type = true) :
    type = .NUMBER ∨ type = .LPAREN ∨ type = .MINUS := by
  cases type <;> simp [startsTerm] at h <;> simp

theorem startsTerm_false {type : TokenType} (h : startsTerm type = false) :
    type ≠ .NUMBER ∧ type ≠ .LPAREN ∧ type ≠ .MINUS := by
  cases type <;> simp [startsTerm] at h <;> simp

theorem drop_after_punct {input ws rest : List Char} {c : Char} {k : Nat}
    (h : input.drop k = ws ++ c :: rest) : input.drop (k + (ws.length + 1)) = rest := by
  have h1 := drop_add_of_drop_eq (ws ++ [c]) rest (by simpa using h)
  simpa using h1

/-- A successful `parseTerm` has read the text of a term of the grammar. -/
theorem parseTerm_ok_inv {α : Type} (A : Arith α) (f : Nat) {input : List Char} {k : Nat}
    {p : Parser α} (hp : Parser.new A ⟨input, k⟩ = .ok p)
    (ihE : ∀ (k1 : Nat) (p1 : Parser α), Parser.new A ⟨input, k1⟩ = .ok p1 →
      ∀ v p', parseExpression A f p1 = .ok (v, p') →
        ∃ (e : Tree) (rest : List Char), e.wf = true ∧ e.value A = v ∧
          input.drop k1 = e.text ++ rest ∧
          Parser.new A ⟨input, k1 + e.text.length⟩ = .ok p')
    {v : α} {p' : Parser α} (h : parseTerm A (f + 1) p = .ok (v, p')) :
    ∃ (t : Tree) (rest : List Char), t.isTerm = true ∧ t.wf = true ∧ t.value A = v ∧
      input.drop k = t.text ++ rest ∧ Parser.new A ⟨input, k + t.text.length⟩ = .ok p' := by
  by_cases hty : startsTerm p.currentToken.type = true
  · rcases startsTerm_cases hty with ht | ht | ht
    · -- a number
      rw [parseTerm_number_eq A f ht] at h
      cases hc : p.consume A .NUMBER with
      | error e => rw [hc] at h; cases h
      | ok p1 =>
        rw [hc] at h
        simp only [Res.ok.injEq, Prod.mk.injEq] at h
        obtain ⟨hv, hp1⟩ := h
        obtain ⟨ws, lit, rest, hd, hws, hlit, _, hval, htk⟩ := Parser.new_number_inv A hp ht
        have hnew := (Parser.consume_ok_inv A hc).2
        rw [htk] at hnew
        refine ⟨.num ws lit, rest, rfl, by simp [Tree.wf, hws, hlit],
          by simp only [Tree.value]; rw [← hval, hv], by simpa [Tree.text] using hd, ?_⟩
        rw [← hp1]
        exact Parser.new_pos_congr A (by simp only [Tree.text, List.length_append]) hnew
    · -- a parenthesized expression
      rw [parseTerm_paren_eq A f ht] at h
      cases hc : p.consume A .LPAREN with
      | error e => rw [hc] at h; cases h
      | ok p1 =>
        rw [hc] at h
        simp only at h
        cases he : parseExpression A f p1 with
        | error e => rw [he] at h; cases h
        | outOfFuel => rw [he] at h; cases h
        | ok r =>
          obtain ⟨w, p2⟩ := r
          rw [he] at h
          simp only at h
          cases hc2 : p2.consume A .RPAREN with
          | error e => rw [hc2] at h; cases h
          | ok p3 =>
            rw [hc2] at h
            simp only [Res.ok.injEq, Prod.mk.injEq] at h
            obtain ⟨hv, hp3⟩ := h
            obtain ⟨ws, rest0, hd, hws, htk⟩ :=
              Parser.new_punct_inv A (c := '(') hp (by rw [ht]; rfl)
            have hnew1 := (Parser.consume_ok_inv A hc).2
            rw [htk] at hnew1
            obtain ⟨e, rest1, hwfe, hval, hd1, hnew2⟩ := ihE _ p1 hnew1 w p2 he
            obtain ⟨ht2, hnew3⟩ := Parser.consume_ok_inv A hc2
            obtain ⟨ws2, rest2, hd2, hws2, htk2⟩ :=
              Parser.new_punct_inv A (c := ')') hnew2 (by rw [ht2]; rfl)
            rw [htk2] at hnew3
            have hr0 := drop_after_punct hd
            have hr1 := drop_add_of_drop_eq _ _ hd1
            refine ⟨.paren ws e ws2, rest2, rfl, by simp [Tree.wf, hws, hwfe, hws2],
              by simp only [Tree.value]; rw [hval, hv], ?_, ?_⟩
            · rw [hd, ← hr0, hd1, ← hr1, hd2]
              simp [Tree.text]
            · rw [← hp3]
              exact Parser.new_pos_congr A
                (by simp only [Tree.text, List.length_append, List.length_cons,
                  List.length_nil]; omega) hnew3
    · -- a negated number
      rw [parseTerm_minus_eq A f ht] at h
      cases hc : p.consume A .MINUS with
      | error e => rw [hc] at h; cases h
      | ok p1 =>
        rw [hc] at h
        simp only at h
        cases hc2 : p1.consume A .NUMBER with
        | error e => rw [hc2] at h; cases h
        | ok p2 =>
          rw [hc2] at h
          simp only [Res.ok.injEq, Prod.mk.injEq] at h
          obtain ⟨hv, hp2⟩ := h
          obtain ⟨ws, rest0, hd, hws, htk⟩ :=
            Parser.new_punct_inv A (c := '-') hp (by rw [ht]; rfl)
          have hnew1 := (Parser.consume_ok_inv A hc).2
          rw [htk] at hnew1
          obtain ⟨ht2, hnew2⟩ := Parser.consume_ok_inv A hc2
          obtain ⟨ws2, lit, rest, hd2, hws2, hlit, _, hval, htk2⟩ :=
            Parser.new_number_inv A hnew1 ht2
          rw [htk2] at hnew2
          have hr0 := drop_after_punct hd
          refine ⟨.neg ws ws2 lit, rest, rfl, by simp [Tree.wf, hws, hws2, hlit],
            by simp only [Tree.value]; rw [← hval, hv], ?_, ?_⟩
          · rw [hd, ← hr0, hd2]
            simp [Tree.text]
          · rw [← hp2]
            exact Parser.new_pos_congr A
              (by simp only [Tree.text, List.length_append, List.length_cons]; omega) hnew2
  · simp only [Bool.not_eq_true] at hty
    obtain ⟨h1, h2, h3⟩ := startsTerm_false hty
    rw [parseTerm_invalid A f h1 h2 h3] at h
    cases h

/-- A successful `parseExpression` has read the text of an expression of the
grammar. -/
theorem parseExpression_ok_inv {α : Type} (A : Arith α) (f : Nat) {input : List Char}
    {k : Nat} {p : Parser α}
    (ihT : ∀ v p', parseTerm A f p = .ok (v, p') →
      ∃ (t : Tree) (rest : List Char), t.isTerm = true ∧ t.wf = true ∧ t.value A = v ∧
        input.drop k = t.text ++ rest ∧ Parser.new A ⟨input, k + t.text.length⟩ = .ok p')
    (ihE : ∀ (k1 : Nat) (p1 : Parser α), Parser.new A ⟨input, k1⟩ = .ok p1 →
      ∀ v p', parseExpression A f p1 = .ok (v, p') →
        ∃ (e : Tree) (rest : List Char), e.wf = true ∧ e.value A = v ∧
          input.drop k1 = e.text ++ rest ∧
          Parser.new A ⟨input, k1 + e.text.length⟩ = .ok p')
    {v : α} {p' : Parser α} (h : parseExpression A (f + 1) p = .ok (v, p')) :
    ∃ (e : Tree) (rest : List Char), e.wf = true ∧ e.value A = v ∧
      input.drop k = e.text ++ rest ∧ Parser.new A ⟨input, k + e.text.length⟩ = .ok p' := by
  cases ht : parseTerm A f p with
  | error e => rw [parseExpression_term_error A f ht] at h; cases h
  | outOfFuel => simp [parseExpression, ht] at h
  | ok r =>
    obtain ⟨v1, p1⟩ := r
    obtain ⟨t, rest_t, htt, hwft, hvalt, hdt, hnewt⟩ := ihT v1 p1 ht
    by_cases hop : isBinaryOp p1.currentToken.type = true
    · obtain ⟨op, hopt⟩ := isBinaryOp_true_iff.mp hop
      rw [parseExpression_op_eq A f op ht hopt] at h
      unfold binaryRest at h
      cases hc : p1.consume A op.tokenType with
      | error e => rw [hc] at h; cases h
      | ok p2 =>
        rw [hc] at h
        simp only at h
        cases he : parseExpression A f p2 with
        | error e => rw [he] at h; cases h
        | outOfFuel => rw [he] at h; cases h
        | ok r2 =>
          obtain ⟨w, p3⟩ := r2
          rw [he] at h
          simp only [Res.ok.injEq, Prod.mk.injEq] at h
          obtain ⟨hv, hp3⟩ := h
          obtain ⟨ws, rest0, hd0, hws, htk⟩ :=
            Parser.new_punct_inv A (c := op.char) hnewt (by rw [hopt]; exact punctKind_op op)
          have hnew2 := (Parser.consume_ok_inv A hc).2
          rw [htk] at hnew2
          obtain ⟨e, rest_e, hwfe, hvale, hde, hnewe⟩ := ihE _ p2 hnew2 w p3 he
          have hr0 := drop_add_of_drop_eq _ _ hdt
          have hr1 := drop_after_punct hd0
          refine ⟨.bin t ws op e, rest_e, by simp [Tree.wf, htt, hwft, hws, hwfe],
            by simp only [Tree.value]; rw [hvalt, hvale, hv], ?_, ?_⟩
          · rw [hdt, ← hr0, hd0, ← hr1, hde]
            simp [Tree.text]
          · rw [← hp3]
            exact Parser.new_pos_congr A
              (by simp only [Tree.text, List.length_append, List.length_cons]; omega) hnewe
    · simp only [Bool.not_eq_true] at hop
      rw [parseExpression_single A f ht hop] at h
      simp only [Res.ok.injEq, Prod.mk.injEq] at h
      obtain ⟨hv, hp1⟩ := h
      exact ⟨t, rest_t, hwft, by rw [hvalt, hv], hdt, by rw [← hp1]; exact hnewt⟩

/-- An `InvalidSyntax` error of `parseTerm` comes from a place where a term is
expected and the token there cannot start a term. -/
theorem parseTerm_err_inv {α : Type} (A : Arith α) (f : Nat) {input : List Char} {k : Nat}
    {p : Parser α} (hp : Parser.new A ⟨input, k⟩ = .ok p)
    (ihE : ∀ (k1 : Nat) (p1 : Parser α), Parser.new A ⟨input, k1⟩ = .ok p1 →
      parseExpression A f p1 = .error .InvalidSyntax →
        ∃ (P : List Item) (rest : List Char) (p0 : Parser α), contextWf P = true ∧
          input.drop k1 = contextText P ++ rest ∧
          Parser.new A ⟨input, k1 + (contextText P).length⟩ = .ok p0 ∧
          startsTerm p0.currentToken.type = false)
    (h : parseTerm A (f + 1) p = .error .InvalidSyntax) :
    ∃ (P : List Item) (rest : List Char) (p0 : Parser α), contextWf P = true ∧
      input.drop k = contextText P ++ rest ∧
      Parser.new A ⟨input, k + (contextText P).length⟩ = .ok p0 ∧
      startsTerm p0.currentToken.type = false := by
  by_cases hty : startsTerm p.currentToken.type = true
  · rcases startsTerm_cases hty with ht | ht | ht
    · rw [parseTerm_number_eq A f ht] at h
      cases hc : p.consume A .NUMBER with
      | error e =>
        rw [hc] at h
        simp only [Res.error.injEq] at h
        rw [h] at hc
        exact (Parser.consume_error_ne A hc).elim
      | ok p1 => rw [hc] at h; cases h
    · rw [parseTerm_paren_eq A f ht] at h
      cases hc : p.consume A .LPAREN with
      | error e =>
        rw [hc] at h
        simp only [Res.error.injEq] at h
        rw [h] at hc
        exact (Parser.consume_error_ne A hc).elim
      | ok p1 =>
        rw [hc] at h
        simp only at h
        cases he : parseExpression A f p1 with
        | outOfFuel => rw [he] at h; cases h
        | error e =>
          rw [he] at h
          simp only [Res.error.injEq] at h
          rw [h] at he
          obtain ⟨ws, rest0, hd, hws, htk⟩ :=
            Parser.new_punct_inv A (c := '(') hp (by rw [ht]; rfl)
          have hnew1 := (Parser.consume_ok_inv A hc).2
          rw [htk] at hnew1
          obtain ⟨P, rest, p0, hwfP, hdP, hnewP, hbad⟩ := ihE _ p1 hnew1 he
          have hr0 := drop_after_punct hd
          refine ⟨.lparen ws :: P, rest, p0, by simpa [contextWf, Item.wf, hws] using hwfP,
            ?_, ?_, hbad⟩
          · rw [hd, ← hr0, hdP]
            simp [contextText, Item.text]
          · exact Parser.new_pos_congr A
              (by simp only [contextText, Item.text, List.length_append, List.length_cons,
                List.length_nil]; omega) hnewP
        | ok r =>
          obtain ⟨w, p2⟩ := r
          rw [he] at h
          simp only at h
          cases hc2 : p2.consume A .RPAREN with
          | error e =>
            rw [hc2] at h
            simp only [Res.error.injEq] at h
            rw [h] at hc2
            exact (Parser.consume_error_ne A hc2).elim
          | ok p3 => rw [hc2] at h; cases h
    · rw [parseTerm_minus_eq A f ht] at h
      cases hc : p.consume A .MINUS with
      | error e =>
        rw [hc] at h
        simp only [Res.error.injEq] at h
        rw [h] at hc
        exact (Parser.consume_error_ne A hc).elim
      | ok p1 =>
        rw [hc] at h
        simp only at h
        cases hc2 : p1.consume A .NUMBER with
        | error e =>
          rw [hc2] at h
          simp only [Res.error.injEq] at h
          rw [h] at hc2
          exact (Parser.consume_error_ne A hc2).elim
        | ok p2 => rw [hc2] at h; cases h
  · simp only [Bool.not_eq_true] at hty
    exact ⟨[], input.drop k, p, rfl, by simp [contextText], by simpa [contextText] using hp, hty⟩

/-- An `InvalidSyntax` error of `parseExpression` comes from a place where a
term is expected and the token there cannot start a term. -/
theorem parseExpression_err_inv {α : Type} (A : Arith α) (f : Nat) {input : List Char}
    {k : Nat} {p : Parser α}
    (ihT : ∀ v p', parseTerm A f p = .ok (v, p') →
      ∃ (t : Tree) (rest : List Char), t.isTerm = true ∧ t.wf = true ∧ t.value A = v ∧
        input.drop k = t.text ++ rest ∧ Parser.new A ⟨input, k + t.text.length⟩ = .ok p')
    (ihTe : parseTerm A f p = .error .InvalidSyntax →
      ∃ (P : List Item) (rest : List Char) (p0 : Parser α), contextWf P = true ∧
        input.drop k = contextText P ++ rest ∧
        Parser.new A ⟨input, k + (contextText P).length⟩ = .ok p0 ∧
        startsTerm p0.currentToken.type = false)
    (ihE : ∀ (k1 : Nat) (p1 : Parser α), Parser.new A ⟨input, k1⟩ = .ok p1 →
      parseExpression A f p1 = .error .InvalidSyntax →
        ∃ (P : List Item) (rest : List Char) (p0 : Parser α), contextWf P = true ∧
          input.drop k1 = contextText P ++ rest ∧
          Parser.new A ⟨input, k1 + (contextText P).length⟩ = .ok p0 ∧
          startsTerm p0.currentToken.type = false)
    (h : parseExpression A (f + 1) p = .error .InvalidSyntax) :
    ∃ (P : List Item) (rest : List Char) (p0 : Parser α), contextWf P = true ∧
      input.drop k = contextText P ++ rest ∧
      Parser.new A ⟨input, k + (contextText P).length⟩ = .ok p0 ∧
      startsTerm p0.currentToken.type = false := by
  cases ht : parseTerm A f p with
  | error e =>
    rw [parseExpression_term_error A f ht] at h
    simp only [Res.error.injEq] at h
    rw [h] at ht
    exact ihTe ht
  | outOfFuel => simp [parseExpression, ht] at h
  | ok r =>
    obtain ⟨v1, p1⟩ := r
    obtain ⟨t, rest_t, htt, hwft, _, hdt, hnewt⟩ := ihT v1 p1 ht
    by_cases hop : isBinaryOp p1.currentToken.type = true
    · obtain ⟨op, hopt⟩ := isBinaryOp_true_iff.mp hop
      rw [parseExpression_op_eq A f op ht hopt] at h
      unfold binaryRest at h
      cases hc : p1.consume A op.tokenType with
      | error e =>
        rw [hc] at h
        simp only [Res.error.injEq] at h
        rw [h] at hc
        exact (Parser.consume_error_ne A hc).elim
      | ok p2 =>
        rw [hc] at h
        simp only at h
        cases he : parseExpression A f p2 with
        | outOfFuel => rw [he] at h; cases h
        | ok r2 => rw [he] at h; cases h
        | error e =>
          rw [he] at h
          simp only [Res.error.injEq] at h
          rw [h] at he
          obtain ⟨ws, rest0, hd0, hws, htk⟩ :=
            Parser.new_punct_inv A (c := op.char) hnewt (by rw [hopt]; exact punctKind_op op)
          have hnew2 := (Parser.consume_ok_inv A hc).2
          rw [htk] at hnew2
          obtain ⟨P, rest, p0, hwfP, hdP, hnewP, hbad⟩ := ihE _ p2 hnew2 he
          have hr0 := drop_add_of_drop_eq _ _ hdt
          have hr1 := drop_after_punct hd0
          refine ⟨.operand t ws op :: P, rest, p0,
            by simpa [contextWf, Item.wf, htt, hwft, hws] using hwfP, ?_, ?_, hbad⟩
          · rw [hdt, ← hr0, hd0, ← hr1, hdP]
            simp [contextText, Item.text]
          · exact Parser.new_pos_congr A
              (by simp only [contextText, Item.text, List.length_append, List.length_cons,
                List.length_nil]; omega) hnewP
    · simp only [Bool.not_eq_true] at hop
      rw [parseExpression_single A f ht hop] at h
      cases h

/-- The parser and the grammar: what `parseTerm` and `parseExpression` accept
is the text of a tree, and an `InvalidSyntax` error arises where a term is
expected and the token there cannot start a term. -/
theorem parse_inv {α : Type} (A : Arith α) (input : List Char) :
    ∀ (fuel : Nat) (k : Nat) (p : Parser α), Parser.new A ⟨input, k⟩ = .ok p →
    (∀ v p', parseTerm A fuel p = .ok (v, p') →
      ∃ (t : Tree) (rest : List Char), t.isTerm = true ∧ t.wf = true ∧ t.value A = v ∧
        input.drop k = t.text ++ rest ∧ Parser.new A ⟨input, k + t.text.length⟩ = .ok p') ∧
    (∀ v p', parseExpression A fuel p = .ok (v, p') →
      ∃ (e : Tree) (rest : List Char), e.wf = true ∧ e.value A = v ∧
        input.drop k = e.text ++ rest ∧ Parser.new A ⟨input, k + e.text.length⟩ = .ok p') ∧
    (parseTerm A fuel p = .error .InvalidSyntax →
      ∃ (P : List Item) (rest : List Char) (p0 : Parser α), contextWf P = true ∧
        input.drop k = contextText P ++ rest ∧
        Parser.new A ⟨input, k + (contextText P).length⟩ = .ok p0 ∧
        startsTerm p0.currentToken.type = false) ∧
    (parseExpression A fuel p = .error .InvalidSyntax →
      ∃ (P : List Item) (rest : List Char) (p0 : Parser α), contextWf P = true ∧
        input.drop k = contextText P ++ rest ∧
        Parser.new A ⟨input, k + (contextText P).length⟩ = .ok p0 ∧
        startsTerm p0.currentToken.type = false) := by
  intro fuel
  induction fuel with
  | zero =>
    intro k p _
    refine ⟨?_, ?_, ?_, ?_⟩
    · intro v p' h; simp [parseTerm] at h
    · intro v p' h; simp [parseExpression] at h
    · intro h; simp [parseTerm] at h
    · intro h; simp [parseExpression] at h
  | succ f ih =>
    intro k p hp
    have ihEok := fun k1 p1 h1 => (ih k1 p1 h1).2.1
    have ihEerr := fun k1 p1 h1 => (ih k1 p1 h1).2.2.2
    refine ⟨?_, ?_, ?_, ?_⟩
    · intro v p' h
      exact parseTerm_ok_inv A f hp ihEok h
    · intro v p' h
      exact parseExpression_ok_inv A f (ih k p hp).1 ihEok h
    · intro h
      exact parseTerm_err_inv A f hp ihEerr h
    · intro h
      exact parseExpression_err_inv A f (ih k p hp).1 (ih k p hp).2.2.1 ihEerr h

/-! ## The call depth supplied by `evaluate` is enough -/

theorem lexRest_ok_count {α : Type} (A : Arith α) {suf : List Char} {tok : Token α} {n : Nat}
    (h : lexRest A suf = (.ok tok, n)) :
    n ≤ suf.length ∧ (tok.type ≠ .END → 1 ≤ n) := by
  rcases lexRest_ok_inv A h with h1 | h1 | h1
  · exact ⟨by omega, (fun hne => absurd h1.1 hne)⟩
  · obtain ⟨_, ws, lit, rest, h2, _, h4, _, _, h7⟩ := h1
    have := isNumber_length_pos h4
    rw [h2, h7]
    simp only [List.length_append]
    exact ⟨by omega, (fun _ => by omega)⟩
  · obtain ⟨ws, c, rest, h2, _, _, h5⟩ := h1
    rw [h2, h5]
    simp only [List.length_append, List.length_cons]
    exact ⟨by omega, (fun _ => by omega)⟩

/-- Consuming a token that is not End makes the measure smaller. -/
theorem Parser.consume_measure {α : Type} (A : Arith α) {p p1 : Parser α} {type : TokenType}
    (h : p.consume A type = .ok p1) (hne : type ≠ .END) :
    p1.measure + 1 ≤ p.measure := by
  obtain ⟨ht, hnew⟩ := Parser.consume_ok_inv A h
  obtain ⟨⟨input, pos⟩, tok⟩ := p
  simp only at ht hnew
  obtain ⟨n, hlex, htk⟩ := Parser.new_ok_inv A hnew
  obtain ⟨hn1, hn2⟩ := lexRest_ok_count A hlex
  rw [List.length_drop] at hn1
  have hp : (⟨⟨input, pos⟩, tok⟩ : Parser α).measure = (input.length - pos) + 1 := by
    simp only [Parser.measure]
    rw [if_neg (by rw [ht]; exact hne)]
  rw [hp]
  simp only [Parser.measure, htk]
  by_cases hend : p1.currentToken.type = .END
  · rw [if_pos hend]; omega
  · rw [if_neg hend]
    have := hn2 hend
    omega

/-- With call depth `2 * measure + 1` (`parseTerm`) and `2 * measure + 2`
(`parseExpression`) the parser does not run out of depth, and a successful
call makes the measure smaller. -/
theorem parse_fuel {α : Type} (A : Arith α) : ∀ (fuel : Nat) (p : Parser α),
    (2 * p.measure + 1 ≤ fuel → parseTerm A fuel p ≠ .outOfFuel) ∧
    (∀ v p1, parseTerm A fuel p = .ok (v, p1) → p1.measure + 1 ≤ p.measure) ∧
    (2 * p.measure + 2 ≤ fuel → parseExpression A fuel p ≠ .outOfFuel) ∧
    (∀ v p1, parseExpression A fuel p = .ok (v, p1) → p1.measure + 1 ≤ p.measure) := by
  intro fuel
  induction fuel with
  | zero =>
    intro p
    refine ⟨(fun h => by omega), ?_, (fun h => by omega), ?_⟩
    · intro v p1 h; simp [parseTerm] at h
    · intro v p1 h; simp [parseExpression] at h
  | succ f ih =>
    intro p
    have hT : (2 * p.measure + 1 ≤ f + 1 → parseTerm A (f + 1) p ≠ .outOfFuel) ∧
        (∀ v p1, parseTerm A (f + 1) p = .ok (v, p1) → p1.measure + 1 ≤ p.measure) := by
      by_cases hty : startsTerm p.currentToken.type = true
      · rcases startsTerm_cases hty with ht | ht | ht
        · rw [parseTerm_number_eq A f ht]
          cases hc : p.consume A .NUMBER with
          | error e => exact ⟨(fun _ h => by cases h), (fun v p1 h => by cases h)⟩
          | ok p1 =>
            refine ⟨(fun _ h => by cases h), fun v p2 h => ?_⟩
            simp only [Res.ok.injEq, Prod.mk.injEq] at h
            rw [← h.2]
            exact Parser.consume_measure A hc (by decide)
        · rw [parseTerm_paren_eq A f ht]
          cases hc : p.consume A .LPAREN with
          | error e => exact ⟨(fun _ h => by cases h), (fun v p1 h => by cases h)⟩
          | ok p1 =>
            have hm1 := Parser.consume_measure A hc (by decide)
            simp only
            cases he : parseExpression A f p1 with
            | error e => exact ⟨(fun _ h => by cases h), (fun v p1 h => by cases h)⟩
            | outOfFuel =>
              refine ⟨fun hf _ => ?_, (fun v p1 h => by cases h)⟩
              exact (ih p1).2.2.1 (by omega) he
            | ok r =>
              obtain ⟨w, p2⟩ := r
              have hm2 := (ih p1).2.2.2 w p2 he
              simp only
              cases hc2 : p2.consume A .RPAREN with
              | error e => exact ⟨(fun _ h => by cases h), (fun v p1 h => by cases h)⟩
              | ok p3 =>
                have hm3 := Parser.consume_measure A hc2 (by decide)
                refine ⟨(fun _ h => by cases h), fun v p4 h => ?_⟩
                simp only [Res.ok.injEq, Prod.mk.injEq] at h
                rw [← h.2]
                omega
        · rw [parseTerm_minus_eq A f ht]
          cases hc : p.consume A .MINUS with
          | error e => exact ⟨(fun _ h => by cases h), (fun v p1 h => by cases h)⟩
          | ok p1 =>
            have hm1 := Parser.consume_measure A hc (by decide)
            simp only
            cases hc2 : p1.consume A .NUMBER with
            | error e => exact ⟨(fun _ h => by cases h), (fun v p1 h => by cases h)⟩
            | ok p2 =>
              have hm2 := Parser.consume_measure A hc2 (by decide)
              refine ⟨(fun _ h => by cases h), fun v p4 h => ?_⟩
              simp only [Res.ok.injEq, Prod.mk.injEq] at h
              rw [← h.2]
              omega
      · simp only [Bool.not_eq_true] at hty
        obtain ⟨h1, h2, h3⟩ := startsTerm_false hty
        rw [parseTerm_invalid A f h1 h2 h3]
        exact ⟨(fun _ h => by cases h), (fun v p1 h => by cases h)⟩
    refine ⟨hT.1, hT.2, ?_, ?_⟩
    · intro hf
      cases ht : parseTerm A f p with
      | error e => rw [parseExpression_term_error A f ht]; intro h; cases h
      | outOfFuel => exact absurd ht ((ih p).1 (by omega))
      | ok r =>
        obtain ⟨v1, p1⟩ := r
        have hm1 := (ih p).2.1 v1 p1 ht
        by_cases hop : isBinaryOp p1.currentToken.type = true
        · obtain ⟨op, hopt⟩ := isBinaryOp_true_iff.mp hop
          rw [parseExpression_op_eq A f op ht hopt]
          unfold binaryRest
          cases hc : p1.consume A op.tokenType with
          | error e => intro h; cases h
          | ok p2 =>
            have hm2 := Parser.consume_measure A hc (by cases op <;> decide)
            simp only
            cases he : parseExpression A f p2 with
            | error e => intro h; cases h
            | ok r2 => intro h; cases h
            | outOfFuel => exact absurd he ((ih p2).2.2.1 (by omega))
        · simp only [Bool.not_eq_true] at hop
          rw [parseExpression_single A f ht hop]
          intro h; cases h
    · intro v p' h
      cases ht : parseTerm A f p with
      | error e => rw [parseExpression_term_error A f ht] at h; cases h
      | outOfFuel => simp [parseExpression, ht] at h
      | ok r =>
        obtain ⟨v1, p1⟩ := r
        have hm1 := (ih p).2.1 v1 p1 ht
        by_cases hop : isBinaryOp p1.currentToken.type = true
        · obtain ⟨op, hopt⟩ := isBinaryOp_true_iff.mp hop
          rw [parseExpression_op_eq A f op ht hopt] at h
          unfold binaryRest at h
          cases hc : p1.consume A op.tokenType with
          | error e => rw [hc] at h; cases h
          | ok p2 =>
            have hm2 := Parser.consume_measure A hc (by cases op <;> decide)
            rw [hc] at h
            simp only at h
            cases he : parseExpression A f p2 with
            | error e => rw [he] at h; cases h
            | outOfFuel => rw [he] at h; cases h
            | ok r2 =>
              obtain ⟨w, p3⟩ := r2
              have hm3 := (ih p2).2.2.2 w p3 he
              rw [he] at h
              simp only [Res.ok.injEq, Prod.mk.injEq] at h
              rw [← h.2]
              omega
        · simp only [Bool.not_eq_true] at hop
          rw [parseExpression_single A f ht hop] at h
          simp only [Res.ok.injEq, Prod.mk.injEq] at h
          rw [← h.2]
          omega

/-- The call depth that `evaluate` supplies is enough on every input:
`evaluate` returns a number or fails with one of the four errors. -/
theorem evaluate_ne_outOfFuel {α : Type} (A : Arith α) (s : List Char) :
    evaluate A s ≠ .outOfFuel := by
  unfold evaluate
  cases hp : Parser.new A ⟨s, 0⟩ with
  | error e => intro h; cases h
  | ok p =>
    simp only
    have hm : p.measure ≤ s.length := by
      obtain ⟨n, hlex, htk⟩ := Parser.new_ok_inv A hp
      obtain ⟨hn1, hn2⟩ := lexRest_ok_count A hlex
      simp only [List.drop_zero] at hn1
      simp only [Parser.measure, htk]
      by_cases hend : p.currentToken.type = .END
      · rw [if_pos hend]; omega
      · rw [if_neg hend]
        have := hn2 hend
        omega
    cases he : parseExpression A (2 * s.length + 2) p with
    | error e => intro h; cases h
    | ok r => intro h; cases h
    | outOfFuel => exact absurd he ((parse_fuel A _ p).2.2.1 (by omega))

/-! ## Invalid syntax -/

/-- The parser at a token that cannot start a term. -/
theorem parse_no_term {α : Type} (A : Arith α) {input rest : List Char} {k n : Nat}
    {tok : Token α} (hdrop : input.drop k = rest) (hlex : lexRest A rest = (.ok tok, n))
    (hbad : startsTerm tok.type = false) (fuel : Nat) (hfuel : 2 ≤ fuel) :
    ∃ p0, Parser.new A ⟨input, k⟩ = .ok p0 ∧
      parseExpression A fuel p0 = .error .InvalidSyntax := by
  obtain ⟨f, rfl⟩ : ∃ f, fuel = f + 2 := ⟨fuel - 2, by omega⟩
  rw [← hdrop] at hlex
  obtain ⟨h1, h2, h3⟩ := startsTerm_false hbad
  exact ⟨_, Parser.new_of_lexRest A hlex,
    parseExpression_term_error A (f + 1) (parseTerm_invalid A f h1 h2 h3)⟩

theorem parseTerm_minus_ne_invalid {α : Type} (A : Arith α) (fuel : Nat) {p : Parser α}
    (ht : p.currentToken.type = .MINUS) : parseTerm A fuel p ≠ .error .InvalidSyntax := by
  cases fuel with
  | zero => simp [parseTerm]
  | succ f =>
    rw [parseTerm_minus_eq A f ht]
    intro h
    cases hc : p.consume A .MINUS with
    | error e =>
      rw [hc] at h
      simp only [Res.error.injEq] at h
      rw [h] at hc
      exact Parser.consume_error_ne A hc
    | ok p1 =>
      rw [hc] at h
      simp only at h
      cases hc2 : p1.consume A .NUMBER with
      | error e =>
        rw [hc2] at h
        simp only [Res.error.injEq] at h
        rw [h] at hc2
        exact Parser.consume_error_ne A hc2
      | ok p2 => rw [hc2] at h; cases h

/-- C5, as amended: `evaluate` fails with `InvalidSyntax` exactly when the
token at the start of a term is none of a Number, a LeftParen or a Minus.  The
start of a term is the start of the input or the place after a binary operator
or an opening parenthesis, with complete terms in front of the operators.  This
covers the end of the input where a term is expected (`""`, `"2 +"`) and any of
`+ * / )` where a term is expected.  A Minus always starts a term: `parseTerm`
never fails with `InvalidSyntax` at a Minus, whatever follows it. -/
theorem evaluate_invalidSyntax_iff {α : Type} (A : Arith α) :
    (∀ s : List Char, evaluate A s = .error .InvalidSyntax ↔
      ∃ (P : List Item) (rest : List Char) (tok : Token α), contextWf P = true ∧
        s = contextText P ++ rest ∧
        (Tokenizer.getNextToken A ⟨rest, 0⟩).1 = .ok tok ∧ startsTerm tok.type = false) ∧
    (∀ (fuel : Nat) (p : Parser α), startsTerm p.currentToken.type = false →
      parseTerm A (fuel + 1) p = .error .InvalidSyntax) ∧
    (∀ (fuel : Nat) (p : Parser α), p.currentToken.type = .MINUS →
      parseTerm A fuel p ≠ .error .InvalidSyntax) ∧
    evaluate A "".toList = .error .InvalidSyntax ∧
    evaluate A "2 +".toList = .error .InvalidSyntax ∧
    evaluate A "+ 2".toList = .error .InvalidSyntax ∧
    evaluate A "2 * * 3".toList = .error .InvalidSyntax ∧
    evaluate A "(/ 2)".toList = .error .InvalidSyntax ∧
    evaluate A "2 - ()".toList = .error .InvalidSyntax := by
  refine ⟨?_, ?_, ?_, ?_, ?_, ?_, ?_, ?_, ?_⟩
  rotate_left 3
  · rfl
  · rfl
  · rfl
  · rfl
  · rfl
  · rfl
  · intro s
    constructor
    · intro h
      unfold evaluate at h
      cases hp : Parser.new A ⟨s, 0⟩ with
      | error e =>
        rw [hp] at h
        simp only [Res.error.injEq] at h
        rw [h] at hp
        rcases Parser.new_error_cases A hp with h1 | h1 | h1 <;> cases h1
      | ok p =>
        rw [hp] at h
        simp only at h
        cases he : parseExpression A (2 * s.length + 2) p with
        | ok r => rw [he] at h; cases h
        | outOfFuel => rw [he] at h; cases h
        | error e =>
          rw [he] at h
          simp only [Res.error.injEq] at h
          rw [h] at he
          obtain ⟨P, rest, p0, hwf, hd, hnew, hbad⟩ := (parse_inv A s _ 0 p hp).2.2.2 he
          have hr := drop_add_of_drop_eq _ _ hd
          obtain ⟨n, hlex, _⟩ := Parser.new_ok_inv A hnew
          rw [hr] at hlex
          refine ⟨P, rest, p0.currentToken, hwf, by simpa using hd, ?_, hbad⟩
          rw [getNextToken_eq]
          simp only [List.drop_zero, hlex]
    · rintro ⟨P, rest, tok, hwf, rfl, hlex, hbad⟩
      apply evaluate_context_error A _ P _ hwf
      intro fuel hfuel
      exact parse_no_term A (List.drop_left _ _) (lexRest_of_getNextToken A hlex) hbad fuel hfuel
  · intro fuel p hbad
    obtain ⟨h1, h2, h3⟩ := startsTerm_false hbad
    exact parseTerm_invalid A fuel h1 h2 h3
  · intro fuel p ht
    exact parseTerm_minus_ne_invalid A fuel ht

/-- Witness of C5 as amended: in `2 * ()` a term is expected after `(` and the
token there is `)`, so `evaluate` fails with `InvalidSyntax`. -/
theorem evaluate_invalidSyntax_iff_witness :
    contextWf sampleContext = true ∧
    "2 * ()".toList = contextText sampleContext ++ ")".toList ∧
    evaluate exact "2 * ()".toList = .error .InvalidSyntax :=
  ⟨by decide, by decide,
    ((evaluate_invalidSyntax_iff exact).1 "2 * ()".toList).mpr
      ⟨sampleContext, ")".toList, ⟨.RPAREN, exact.zero⟩, by decide, by decide, rfl, rfl⟩⟩

/-- Counterexample to C5 as stated: in `-` and in `3 - -(4)` a term starts with
a Minus that is not followed by a Number, and `evaluate` fails with
`UnexpectedToken`, not with `InvalidSyntax`. -/
theorem evaluate_minus_not_invalidSyntax :
    evaluate exact "-".toList = .error .UnexpectedToken ∧
    evaluate exact "-".toList ≠ .error .InvalidSyntax ∧
    evaluate exact "3 - -(4)".toList = .error .UnexpectedToken ∧
    evaluate exact "3 - -(4)".toList ≠ .error .InvalidSyntax := by
  have h1 : evaluate exact "-".toList = .error .UnexpectedToken := rfl
  have h2 : evaluate exact "3 - -(4)".toList = .error .UnexpectedToken := rfl
  rw [h1, h2]
  exact ⟨rfl, (fun h => by cases h), rfl, (fun h => by cases h)⟩

/-! ## The cursor of the tokenizer -/

theorem lexRest_count {α : Type} (A : Arith α) (suf : List Char) :
    (lexRest A suf).2 ≤ suf.length := by
  have hsplit := List.takeWhile_append_dropWhile isspace suf
  have hlen : (suf.takeWhile isspace).length + (suf.dropWhile isspace).length = suf.length := by
    rw [← List.length_append, hsplit]
  unfold lexRest
  simp only
  cases hrest : suf.dropWhile isspace with
  | nil => simp only; omega
  | cons c r =>
    rw [hrest] at hlen
    simp only [List.length_cons] at hlen
    simp only
    split
    · have hrun : ((c :: r).takeWhile isNumChar).length ≤ r.length + 1 := by
        have h1 := List.takeWhile_append_dropWhile isNumChar (c :: r)
        have h2 : ((c :: r).takeWhile isNumChar).length +
            ((c :: r).dropWhile isNumChar).length = r.length + 1 := by
          rw [← List.length_append, h1, List.length_cons]
        omega
      split <;> (simp only; omega)
    · repeat' split
      all_goals (simp only; omega)

theorem getNextToken_input {α : Type} (A : Arith α) (t : Tokenizer) :
    (t.getNextToken A).2.input = t.input := by
  rw [getNextToken_eq]

theorem getNextToken_pos_ge {α : Type} (A : Arith α) (t : Tokenizer) :
    t.pos ≤ (t.getNextToken A).2.pos := by
  rw [getNextToken_eq]
  simp only
  omega

theorem getNextToken_pos_le {α : Type} (A : Arith α) (t : Tokenizer)
    (h : t.pos ≤ t.input.length) : (t.getNextToken A).2.pos ≤ t.input.length := by
  rw [getNextToken_eq]
  simp only
  have := lexRest_count A (t.input.drop t.pos)
  rw [List.length_drop] at this
  omega

theorem Tokenizer.Reachable.inv {α : Type} (A : Arith α) {text : List Char} {t : Tokenizer}
    (h : Tokenizer.Reachable A text t) : t.input = text ∧ t.pos ≤ text.length := by
  induction h with
  | fresh => exact ⟨rfl, Nat.zero_le _⟩
  | @next u _ ih =>
    obtain ⟨h1, h2⟩ := ih
    refine ⟨by rw [getNextToken_input, h1], ?_⟩
    have := getNextToken_pos_le A u (by rw [h1]; exact h2)
    rwa [h1] at this

/-- C12: the cursor invariant of the tokenizer.  In every state reachable from
a fresh tokenizer by any sequence of `getNextToken` calls, calls that throw
included, the text is unchanged and the cursor is at most the length of the
text; and no `getNextToken` call, from any state, decreases the cursor. -/
theorem tokenizer_cursor_invariant {α : Type} (A : Arith α) :
    (∀ (text : List Char) (t : Tokenizer), Tokenizer.Reachable A text t →
      t.input = text ∧ t.pos ≤ text.length) ∧
    (∀ t : Tokenizer, t.pos ≤ (t.getNextToken A).2.pos) :=
  ⟨fun _ _ h => h.inv A, fun t => getNextToken_pos_ge A t⟩

/-- Witness of C12: on the text `2 &` the second call throws `InvalidCharacter`
and leaves the cursor at 3, the length of the text. -/
theorem tokenizer_cursor_invariant_witness :
    Tokenizer.Reachable exact "2 &".toList
      ((Tokenizer.getNextToken exact
        (Tokenizer.getNextToken exact ⟨"2 &".toList, 0⟩).2).2) ∧
    (Tokenizer.getNextToken exact (Tokenizer.getNextToken exact ⟨"2 &".toList, 0⟩).2).1 =
      .error .InvalidCharacter ∧
    (Tokenizer.getNextToken exact (Tokenizer.getNextToken exact ⟨"2 &".toList, 0⟩).2).2.pos = 3 ∧
    (Tokenizer.getNextToken exact
      (Tokenizer.getNextToken exact ⟨"2 &".toList, 0⟩).2).2.pos ≤ "2 &".toList.length :=
  ⟨.next (.next .fresh), rfl, rfl,
    ((tokenizer_cursor_invariant exact).1 "2 &".toList _ (.next (.next .fresh))).2⟩

theorem getNextToken_end_fix {α : Type} (A : Arith α) {t t' : Tokenizer} {tok : Token α}
    (hpos : t.pos ≤ t.input.length) (h : t.getNextToken A = (.ok tok, t'))
    (hend : tok.type = .END) :
    t' = ⟨t.input, t.input.length⟩ ∧ t'.getNextToken A = (.ok ⟨.END, A.zero⟩, t') := by
  rw [getNextToken_eq] at h
  simp only [Prod.mk.injEq] at h
  obtain ⟨h1, h2⟩ := h
  have hl : lexRest A (t.input.drop t.pos) = (.ok tok, (lexRest A (t.input.drop t.pos)).2) := by
    rw [← h1]
  have hn : (lexRest A (t.input.drop t.pos)).2 = (t.input.drop t.pos).length := by
    rcases lexRest_ok_inv A hl with h3 | h3 | h3
    · exact h3.2.2
    · rw [hend] at h3; cases h3.1
    · obtain ⟨ws, c, rest, _, _, h4, _⟩ := h3
      rw [hend] at h4
      exact (punctKind_ne_end h4).elim
  rw [hn, List.length_drop] at h2
  have ht' : t' = ⟨t.input, t.input.length⟩ := by
    rw [← h2]
    congr 1
    omega
  refine ⟨ht', ?_⟩
  rw [ht', getNextToken_eq]
  simp only [List.drop_length]
  rfl

theorem iterate_fixed {β : Type} (f : β → β) (x : β) (h : f x = x) :
    ∀ n : Nat, Nat.iterate f n x = x := by
  intro n
  induction n with
  | zero => rfl
  | succ n ih => rw [Function.iterate_succ_apply, h, ih]

/-- C13: End is idempotent.  Once `getNextToken` has returned an End token, in
a state reachable from a fresh tokenizer, the cursor equals the length of the
text, and every later call returns End again and leaves the cursor (the whole
state) unchanged. -/
theorem end_idempotent {α : Type} (A : Arith α) (text : List Char) (t t' : Tokenizer)
    (tok : Token α) (hreach : Tokenizer.Reachable A text t)
    (h : t.getNextToken A = (.ok tok, t')) (hend : tok.type = .END) :
    t'.pos = text.length ∧
    ∀ n : Nat,
      Tokenizer.getNextToken A (Nat.iterate (fun u => (Tokenizer.getNextToken A u).2) n t') =
        (.ok ⟨.END, A.zero⟩, t') := by
  obtain ⟨hin, hpos⟩ := hreach.inv A
  obtain ⟨h1, h2⟩ := getNextToken_end_fix A (by rw [hin]; exact hpos) h hend
  refine ⟨by rw [h1, hin], fun n => ?_⟩
  rw [iterate_fixed _ t' (by simp only [h2]) n]
  exact h2

/-- Witness of C13: on the text `2 ` the second call returns End with the
cursor at 2, the length of the text, and so does every later call. -/
theorem end_idempotent_witness :
    Tokenizer.Reachable exact "2 ".toList ⟨"2 ".toList, 1⟩ ∧
    Tokenizer.getNextToken exact ⟨"2 ".toList, 1⟩ = (.ok ⟨.END, exact.zero⟩, ⟨"2 ".toList, 2⟩) ∧
    (2 = "2 ".toList.length ∧
    ∀ n : Nat,
      Tokenizer.getNextToken exact
        (Nat.iterate (fun u => (Tokenizer.getNextToken exact u).2) n ⟨"2 ".toList, 2⟩) =
        (.ok ⟨.END, exact.zero⟩, ⟨"2 ".toList, 2⟩)) :=
  ⟨Tokenizer.Reachable.next (t := ⟨"2 ".toList, 0⟩) .fresh, rfl,
    end_idempotent exact "2 ".toList ⟨"2 ".toList, 1⟩ ⟨"2 ".toList, 2⟩ ⟨.END, exact.zero⟩
      (Tokenizer.Reachable.next (t := ⟨"2 ".toList, 0⟩) .fresh) rfl rfl⟩

/-! ## Greedy scanning of numbers -/

/-- C17: numeric scanning is greedy.  When `getNextToken` meets a digit or `.`
after skipping whitespace, it scans the maximal run of digits and decimal
points that starts there: the cursor afterwards is at the end of that run,
where the text ends or continues with a character that is neither a digit nor
`.`, and the call returns a Number token whose value is `std::stod` of exactly
that run, or throws the error of `std::stod` on that run. -/
theorem getNextToken_number_greedy {α : Type} (A : Arith α) (t : Tokenizer) (c : Char)
    (r : List Char) (hrest : (t.input.drop t.pos).dropWhile isspace = c :: r)
    (hc : (isdigit c || c == '.') = true) :
    (t.getNextToken A).2 =
      ⟨t.input, t.pos + (((t.input.drop t.pos).takeWhile isspace).length +
        ((c :: r).takeWhile isNumChar).length)⟩ ∧
    (t.getNextToken A).1 =
      (match stod A ((c :: r).takeWhile isNumChar) with
        | .ok number => .ok ⟨.NUMBER, number⟩
        | .error e => .error e) ∧
    t.input.drop t.pos =
      (t.input.drop t.pos).takeWhile isspace ++
        ((c :: r).takeWhile isNumChar ++ (c :: r).dropWhile isNumChar) ∧
    t.input.drop (t.pos + (((t.input.drop t.pos).takeWhile isspace).length +
        ((c :: r).takeWhile isNumChar).length)) = (c :: r).dropWhile isNumChar ∧
    (∀ a ∈ (c :: r).takeWhile isNumChar, isNumChar a = true) ∧
    startsWith isNumChar ((c :: r).dropWhile isNumChar) = false := by
  have hsplit := List.takeWhile_append_dropWhile isspace (t.input.drop t.pos)
  rw [hrest] at hsplit
  have hrun := List.takeWhile_append_dropWhile isNumChar (c :: r)
  have hdrop : t.input.drop t.pos =
      (t.input.drop t.pos).takeWhile isspace ++
        ((c :: r).takeWhile isNumChar ++ (c :: r).dropWhile isNumChar) := by
    rw [hrun, hsplit]
  have hlex : lexRest A (t.input.drop t.pos) =
      (match stod A ((c :: r).takeWhile isNumChar) with
        | .ok number => .ok ⟨.NUMBER, number⟩
        | .error e => .error e,
       ((t.input.drop t.pos).takeWhile isspace).length +
        ((c :: r).takeWhile isNumChar).length) := by
    unfold lexRest
    simp only [hrest, if_pos hc]
    cases stod A ((c :: r).takeWhile isNumChar) <;> rfl
  refine ⟨?_, ?_, hdrop, ?_, fun a ha => List.mem_takeWhile_imp ha, startsWith_dropWhile _ _⟩
  · rw [getNextToken_eq, hlex]
  · rw [getNextToken_eq, hlex]
  · have h := drop_add_of_drop_eq
      ((t.input.drop t.pos).takeWhile isspace ++ (c :: r).takeWhile isNumChar)
      ((c :: r).dropWhile isNumChar) (by rw [List.append_assoc]; exact hdrop)
    rwa [List.length_append] at h

/-- Witness of C17: in `7 12.5.3+4` the token read from cursor 1 is the Number
`12.5`, the value of the run `12.5.3`, and the cursor is then at 8, in front
of `+`. -/
theorem getNextToken_number_greedy_witness :
    (("7 12.5.3+4".toList.drop 1).dropWhile isspace = '1' :: "2.5.3+4".toList) ∧
    (Tokenizer.getNextToken exact ⟨"7 12.5.3+4".toList, 1⟩).2 = ⟨"7 12.5.3+4".toList, 8⟩ ∧
    (Tokenizer.getNextToken exact ⟨"7 12.5.3+4".toList, 1⟩).1 =
      .ok ⟨.NUMBER, exact.ofDecimal 125 1⟩ ∧
    "7 12.5.3+4".toList.drop 8 = "+4".toList :=
  ⟨by decide, (getNextToken_number_greedy exact ⟨"7 12.5.3+4".toList, 1⟩ '1' "2.5.3+4".toList
      (by decide) (by decide)).1,
    rfl, by decide⟩

/-! ## The contract of `consume` -/

theorem parseTerm_paren_close_error {α : Type} (A : Arith α) (fuel : Nat)
    {p p1 p2 : Parser α} {v : α} {e : Err} (ht : p.currentToken.type = .LPAREN)
    (hc : p.consume A .LPAREN = .ok p1) (he : parseExpression A fuel p1 = .ok (v, p2))
    (hr : p2.consume A .RPAREN = .error e) :
    parseTerm A (fuel + 1) p = .error e := by
  simp [parseTerm, ht, hc, he, hr]

/-- C11: consuming a token whose kind differs from the expected kind fails with
`UnexpectedToken`; `consume` succeeds exactly when the kind is the expected one
and the tokenizer returns a next token, which becomes the lookahead, the
tokenizer being advanced by that call; and for every expression tree `e`,
`evaluate` of `(` followed by the text of `e`, with no closing parenthesis
before the end of the input, fails with `UnexpectedToken`. -/
theorem consume_contract {α : Type} (A : Arith α) :
    (∀ (p : Parser α) (type : TokenType), p.currentToken.type ≠ type →
      p.consume A type = .error .UnexpectedToken) ∧
    (∀ (p p1 : Parser α) (type : TokenType), p.consume A type = .ok p1 ↔
      (p.currentToken.type = type ∧
        p.tokenizer.getNextToken A = (.ok p1.currentToken, p1.tokenizer))) ∧
    (∀ (e : Tree) (trail : List Char), e.wf = true → isBlank trail = true →
      evaluate A ('(' :: (e.text ++ trail)) = .error .UnexpectedToken) := by
  refine ⟨?_, ?_, ?_⟩
  · intro p type h
    rw [Parser.consume_eq, if_neg h]
  · intro p p1 type
    rw [Parser.consume_eq]
    by_cases h : p.currentToken.type = type
    · rw [if_pos h, Parser.new_ok_iff]
      simp [h]
    · rw [if_neg h]
      simp [h]
  · intro e trail hwf htrail
    have hlex0 : lexRest A (('(' :: (e.text ++ trail)).drop 0) =
        (.ok ⟨.LPAREN, A.zero⟩, 1) := lexRest_punct A (c := '(') rfl (e.text ++ trail)
    have hnew0 := Parser.new_of_lexRest A hlex0
    have hdrop1 : ('(' :: (e.text ++ trail)).drop (0 + 1) = e.text ++ trail := rfl
    have hdrop2 := drop_add_of_drop_eq _ _ hdrop1
    have hlex2 := lexRest_ws_end A htrail
    rw [← hdrop2] at hlex2
    have hcost := e.cost_le_text hwf
    obtain ⟨p1, hp1, he⟩ := (parse_tree A e hwf ('(' :: (e.text ++ trail)) _ trail _
      (2 * ('(' :: (e.text ++ trail)).length) hdrop1 (startsWith_isNumChar_blank htrail)
      (Parser.new_of_lexRest A hlex2)).2 rfl
      (by simp only [List.length_cons, List.length_append]; omega)
    apply evaluate_of_parse_error A hnew0
    have h1 : Parser.consume A (⟨⟨'(' :: (e.text ++ trail), 0 + 1⟩,
        ⟨.LPAREN, A.zero⟩⟩ : Parser α) .LPAREN = .ok p1 := by
      rw [Parser.consume_eq, if_pos rfl]; exact hp1
    have h2 : Parser.consume A (⟨⟨'(' :: (e.text ++ trail),
        0 + 1 + e.text.length + trail.length⟩, ⟨.END, A.zero⟩⟩ : Parser α)
        .RPAREN = .error .UnexpectedToken := by
      rw [Parser.consume_eq, if_neg (by simp)]
    exact parseExpression_term_error A _ (parseTerm_paren_close_error A _ rfl h1 he h2)

/-- Witness of C11: `evaluate("(2+3 ")` fails with `UnexpectedToken`. -/
theorem consume_contract_witness :
    twoPlusThree.wf = true ∧ isBlank [' '] = true ∧
    '(' :: (twoPlusThree.text ++ [' ']) = "(2+3 ".toList ∧
    evaluate exact ('(' :: (twoPlusThree.text ++ [' '])) = .error .UnexpectedToken :=
  ⟨by decide, by decide, by decide,
    (consume_contract exact).2.2 twoPlusThree [' '] (by decide) (by decide)⟩

/-! ## The lookahead behind a parsed expression -/

theorem parseExpression_ok_not_op {α : Type} (A : Arith α) :
    ∀ (fuel : Nat) (p : Parser α) (v : α) (p' : Parser α),
      parseExpression A fuel p = .ok (v, p') → isBinaryOp p'.currentToken.type = false := by
  intro fuel
  induction fuel with
  | zero => intro p v p' h; simp [parseExpression] at h
  | succ f ih =>
    intro p v p' h
    cases ht : parseTerm A f p with
    | error e => rw [parseExpression_term_error A f ht] at h; cases h
    | outOfFuel => simp [parseExpression, ht] at h
    | ok r =>
      obtain ⟨v1, p1⟩ := r
      by_cases hop : isBinaryOp p1.currentToken.type = true
      · obtain ⟨op, hopt⟩ := isBinaryOp_true_iff.mp hop
        rw [parseExpression_op_eq A f op ht hopt] at h
        unfold binaryRest at h
        cases hc : p1.consume A op.tokenType with
        | error e => rw [hc] at h; cases h
        | ok p2 =>
          rw [hc] at h
          simp only at h
          cases he : parseExpression A f p2 with
          | error e => rw [he] at h; cases h
          | outOfFuel => rw [he] at h; cases h
          | ok r2 =>
            obtain ⟨w, p3⟩ := r2
            rw [he] at h
            simp only [Res.ok.injEq, Prod.mk.injEq] at h
            rw [← h.2]
            exact ih p2 w p3 he
      · simp only [Bool.not_eq_true] at hop
        rw [parseExpression_single A f ht hop] at h
        simp only [Res.ok.injEq, Prod.mk.injEq] at h
        rw [← h.2]
        exact hop

theorem not_isBinaryOp_cases {type : TokenType} (h : isBinaryOp type = false) :
    type = .NUMBER ∨ type = .LPAREN ∨ type = .RPAREN ∨ type = .END := by
  cases type <;> simp [isBinaryOp] at h <;> simp

theorem evaluate_ok_inv {α : Type} (A : Arith α) {s : List Char} {v : α}
    (h : evaluate A s = .ok v) :
    ∃ p p', Parser.new A ⟨s, 0⟩ = .ok p ∧
      parseExpression A (2 * s.length + 2) p = .ok (v, p') := by
  unfold evaluate at h
  cases hp : Parser.new A ⟨s, 0⟩ with
  | error e => rw [hp] at h; cases h
  | ok p =>
    rw [hp] at h
    simp only at h
    cases he : parseExpression A (2 * s.length + 2) p with
    | error e => rw [he] at h; cases h
    | outOfFuel => rw [he] at h; cases h
    | ok r =>
      obtain ⟨w, p'⟩ := r
      rw [he] at h
      simp only [Res.ok.injEq] at h
      exact ⟨p, p', rfl, by rw [← h]; exact he⟩

theorem twoPlusThree_value : twoPlusThree.value exact = 5 := by
  simp [twoPlusThree, Tree.value, BinOp.apply, litValue, decimalPrefix, exact, digitsToNat,
    digitVal, isdigit]
  norm_num

/-- C18: whenever `parseExpression` returns successfully, the lookahead token
is not a binary operator: its kind is one of Number, LeftParen, RightParen,
End.  Hence an input on which `evaluate` succeeds is the text of an expression
tree with the returned value, followed by a text whose first token is read and
is not `+`, `-`, `*` or `/`. -/
theorem lookahead_not_operator {α : Type} (A : Arith α) :
    (∀ (fuel : Nat) (p : Parser α) (v : α) (p' : Parser α),
      parseExpression A fuel p = .ok (v, p') →
      isBinaryOp p'.currentToken.type = false ∧
      (p'.currentToken.type = .NUMBER ∨ p'.currentToken.type = .LPAREN ∨
        p'.currentToken.type = .RPAREN ∨ p'.currentToken.type = .END)) ∧
    (∀ (s : List Char) (v : α), evaluate A s = .ok v →
      ∃ (e : Tree) (rest : List Char) (tok : Token α), e.wf = true ∧ e.value A = v ∧
        s = e.text ++ rest ∧ (Tokenizer.getNextToken A ⟨rest, 0⟩).1 = .ok tok ∧
        isBinaryOp tok.type = false) := by
  refine ⟨?_, ?_⟩
  · intro fuel p v p' h
    have h1 := parseExpression_ok_not_op A fuel p v p' h
    exact ⟨h1, not_isBinaryOp_cases h1⟩
  · intro s v h
    obtain ⟨p, p', hp, he⟩ := evaluate_ok_inv A h
    obtain ⟨e, rest, hwf, hval, hd, hnew⟩ := (parse_inv A s _ 0 p hp).2.1 v p' he
    have hr := drop_add_of_drop_eq _ _ hd
    obtain ⟨n, hlex, _⟩ := Parser.new_ok_inv A hnew
    rw [hr] at hlex
    refine ⟨e, rest, p'.currentToken, hwf, hval, by simpa using hd, ?_,
      parseExpression_ok_not_op A _ p v p' he⟩
    rw [getNextToken_eq]
    simp only [List.drop_zero, hlex]

/-- Witness of C18: `evaluate("2+3)")` returns 5, so `2+3)` is an expression
followed by a text whose first token is not a binary operator. -/
theorem lookahead_not_operator_witness :
    evaluate exact "2+3)".toList = .ok 5 ∧
    ∃ (e : Tree) (rest : List Char) (tok : Token ℚ), e.wf = true ∧ e.value exact = 5 ∧
      "2+3)".toList = e.text ++ rest ∧
      (Tokenizer.getNextToken exact ⟨rest, 0⟩).1 = .ok tok ∧ isBinaryOp tok.type = false :=
  have h : evaluate exact "2+3)".toList = .ok 5 := by
    have h1 := evaluate_tree_lookahead exact twoPlusThree [')'] ⟨.RPAREN, exact.zero⟩ 1
      (by decide) (by decide) rfl rfl
    rw [twoPlusThree_value] at h1
    exact h1
  ⟨h, (lookahead_not_operator exact).2 "2+3)".toList 5 h⟩

/-! ## Leading whitespace -/

/-- Whitespace in front of a text is skipped by the tokenizer. -/
theorem lexRest_blank_append_any {α : Type} (A : Arith α) {ws : List Char} (x : List Char)
    (hws : isBlank ws = true) :
    lexRest A (ws ++ x) = ((lexRest A x).1, ws.length + (lexRest A x).2) := by
  have hw := isBlank_iff.mp hws
  unfold lexRest
  simp only [List.takeWhile_append_of_pos hw, List.dropWhile_append_of_pos hw,
    List.length_append]
  cases x.dropWhile isspace with
  | nil => rfl
  | cons c r =>
    simp only
    split
    · split <;> simp only [Nat.add_assoc]
    · repeat' split
      all_goals simp only [Nat.add_assoc]

/-! ## One token of lookahead -/

/-- C20: `evaluate` reads exactly one token past the parsed expression and
nothing after it.  For every expression tree `e` and every text `t` whose first
token the tokenizer reads successfully as a Number, LeftParen or RightParen,
`evaluate` of the text of `e`, a space and `t` returns the value of `e`,
whatever follows that first token in `t`; the same holds when `t` starts with a
parenthesis and follows `e` directly.  With exact arithmetic,
`evaluate("2+3 4 &")` and `evaluate("2+3)")` are 5. -/
theorem evaluate_one_token_lookahead {α : Type} (A : Arith α) :
    (∀ (e : Tree) (t : List Char) (tok : Token α), e.wf = true →
      (Tokenizer.getNextToken A ⟨t, 0⟩).1 = .ok tok →
      (tok.type = .NUMBER ∨ tok.type = .LPAREN ∨ tok.type = .RPAREN) →
      evaluate A (e.text ++ ' ' :: t) = .ok (e.value A)) ∧
    (∀ (e : Tree) (t : List Char), e.wf = true →
      evaluate A (e.text ++ ')' :: t) = .ok (e.value A) ∧
      evaluate A (e.text ++ '(' :: t) = .ok (e.value A)) ∧
    evaluate exact "2+3 4 &".toList = .ok 5 ∧
    evaluate exact "2+3)".toList = .ok 5 := by
  refine ⟨?_, ?_, ?_, ?_⟩
  rotate_left 2
  · have h := evaluate_tree_lookahead exact twoPlusThree " 4 &".toList
      ⟨.NUMBER, exact.ofDecimal 4 0⟩ 2 (by decide) (by decide) rfl rfl
    rw [twoPlusThree_value] at h
    exact h
  · have h := evaluate_tree_lookahead exact twoPlusThree [')'] ⟨.RPAREN, exact.zero⟩ 1
      (by decide) (by decide) rfl rfl
    rw [twoPlusThree_value] at h
    exact h
  · intro e t tok hwf hlex hkind
    have hl := lexRest_of_getNextToken A hlex
    have hl2 := @lexRest_blank_append_any _ A [' '] t (by decide)
    rw [hl] at hl2
    exact evaluate_tree_lookahead A e (' ' :: t) tok _ hwf rfl hl2
      (by rcases hkind with h | h | h <;> (rw [h]; rfl))
  · intro e t hwf
    exact ⟨evaluate_tree_lookahead A e (')' :: t) ⟨.RPAREN, A.zero⟩ 1 hwf rfl
        (lexRest_punct A (c := ')') rfl t) rfl,
      evaluate_tree_lookahead A e ('(' :: t) ⟨.LPAREN, A.zero⟩ 1 hwf rfl
        (lexRest_punct A (c := '(') rfl t) rfl⟩

/-- Witness of C20: `evaluate("2+3 4 &")` is 5, although `&` is a character that
the tokenizer rejects, and `evaluate("2+3)")` is 5. -/
theorem evaluate_one_token_lookahead_witness :
    twoPlusThree.wf = true ∧
    (Tokenizer.getNextToken exact ⟨"4 &".toList, 0⟩).1 = .ok ⟨.NUMBER, exact.ofDecimal 4 0⟩ ∧
    (Tokenizer.getNextToken exact ⟨"&".toList, 0⟩).1 = .error .InvalidCharacter ∧
    twoPlusThree.text ++ ' ' :: "4 &".toList = "2+3 4 &".toList ∧
    twoPlusThree.text ++ ')' :: [] = "2+3)".toList ∧
    twoPlusThree.value exact = 5 ∧
    evaluate exact (twoPlusThree.text ++ ' ' :: "4 &".toList) = .ok (twoPlusThree.value exact) ∧
    evaluate exact (twoPlusThree.text ++ ')' :: []) = .ok (twoPlusThree.value exact) :=
  ⟨by decide, rfl, rfl, by decide, by decide, twoPlusThree_value,
    (evaluate_one_token_lookahead exact).1 twoPlusThree "4 &".toList
      ⟨.NUMBER, exact.ofDecimal 4 0⟩ (by decide) rfl (Or.inl rfl),
    ((evaluate_one_token_lookahead exact).2.1 twoPlusThree [] (by decide)).1⟩

/-! ## The call depth does not matter once it is enough -/

theorem parse_fuel_succ {α : Type} (A : Arith α) : ∀ (fuel : Nat) (p : Parser α),
    (parseTerm A fuel p ≠ .outOfFuel → parseTerm A (fuel + 1) p = parseTerm A fuel p) ∧
    (parseExpression A fuel p ≠ .outOfFuel →
      parseExpression A (fuel + 1) p = parseExpression A fuel p) := by
  intro fuel
  induction fuel with
  | zero =>
    intro p
    exact ⟨fun h => absurd (by simp [parseTerm]) h, fun h => absurd (by simp [parseExpression]) h⟩
  | succ f ih =>
    intro p
    have hT : parseTerm A (f + 1) p ≠ .outOfFuel →
        parseTerm A (f + 1 + 1) p = parseTerm A (f + 1) p := by
      intro hne
      by_cases hty : startsTerm p.currentToken.type = true
      · rcases startsTerm_cases hty with ht | ht | ht
        · rw [parseTerm_number_eq A (f + 1) ht, parseTerm_number_eq A f ht]
        · rw [parseTerm_paren_eq A f ht] at hne
          rw [parseTerm_paren_eq A (f + 1) ht, parseTerm_paren_eq A f ht]
          cases hc : p.consume A .LPAREN with
          | error e => rfl
          | ok p1 =>
            rw [hc] at hne
            simp only at hne ⊢
            have hne1 : parseExpression A f p1 ≠ .outOfFuel := by
              intro h1
              rw [h1] at hne
              exact hne rfl
            rw [(ih p1).2 hne1]
        · rw [parseTerm_minus_eq A (f + 1) ht, parseTerm_minus_eq A f ht]
      · simp only [Bool.not_eq_true] at hty
        obtain ⟨h1, h2, h3⟩ := startsTerm_false hty
        rw [parseTerm_invalid A (f + 1) h1 h2 h3, parseTerm_invalid A f h1 h2 h3]
    refine ⟨hT, ?_⟩
    intro hne
    cases ht : parseTerm A f p with
    | outOfFuel => exact absurd (by simp [parseExpression, ht]) hne
    | error e =>
      have ht1 : parseTerm A (f + 1) p = .error e := by
        rw [(ih p).1 (by rw [ht]; intro h; cases h), ht]
      rw [parseExpression_term_error A (f + 1) ht1, parseExpression_term_error A f ht]
    | ok r =>
      obtain ⟨v1, p1⟩ := r
      have ht1 : parseTerm A (f + 1) p = .ok (v1, p1) := by
        rw [(ih p).1 (by rw [ht]; intro h; cases h), ht]
      by_cases hop : isBinaryOp p1.currentToken.type = true
      · obtain ⟨op, hopt⟩ := isBinaryOp_true_iff.mp hop
        rw [parseExpression_op_eq A f op ht hopt] at hne
        rw [parseExpression_op_eq A (f + 1) op ht1 hopt, parseExpression_op_eq A f op ht hopt]
        unfold binaryRest at hne ⊢
        cases hc : p1.consume A op.tokenType with
        | error e => rfl
        | ok p2 =>
          rw [hc] at hne
          simp only at hne ⊢
          have hne2 : parseExpression A f p2 ≠ .outOfFuel := by
            intro h1
            rw [h1] at hne
            exact hne rfl
          rw [(ih p2).2 hne2]
      · simp only [Bool.not_eq_true] at hop
        rw [parseExpression_single A (f + 1) ht1 hop, parseExpression_single A f ht hop]

theorem parseExpression_fuel_le {α : Type} (A : Arith α) (p : Parser α) (f : Nat)
    (hne : parseExpression A f p ≠ .outOfFuel) :
    ∀ f', f ≤ f' → parseExpression A f' p = parseExpression A f p := by
  intro f' hle
  induction f' with
  | zero =>
    have : f = 0 := by omega
    rw [this]
  | succ n ih =>
    by_cases h : f = n + 1
    · rw [h]
    · have h1 := ih (by omega)
      rw [(parse_fuel_succ A n p).2 (by rw [h1]; exact hne), h1]

theorem parseExpression_evaluate_fuel {α : Type} (A : Arith α) {s : List Char} {p : Parser α}
    (hp : Parser.new A ⟨s, 0⟩ = .ok p) :
    parseExpression A (2 * s.length + 2) p ≠ .outOfFuel := by
  intro h
  apply evaluate_ne_outOfFuel A s
  simp [evaluate, hp, h]

/-! ## Whitespace at the end of the text and the position of the text -/

theorem takeWhile_isNumChar_append_blank (l : List Char) {w : List Char}
    (hw : isBlank w = true) : (l ++ w).takeWhile isNumChar = l.takeWhile isNumChar := by
  induction l with
  | nil => exact startsWith_false_takeWhile (startsWith_isNumChar_blank hw)
  | cons a l ih => simp only [List.cons_append, List.takeWhile_cons, ih]

theorem lexRest_cons_append_blank {α : Type} (A : Arith α) {c : Char} (r : List Char)
    {w : List Char} (hc : isspace c = false) (hw : isBlank w = true) :
    lexRest A (c :: (r ++ w)) = lexRest A (c :: r) := by
  have hrun : (c :: (r ++ w)).takeWhile isNumChar = (c :: r).takeWhile isNumChar :=
    takeWhile_isNumChar_append_blank (c :: r) hw
  unfold lexRest
  simp only [List.takeWhile_cons, List.dropWhile_cons, hc, Bool.false_eq_true, if_false]
  simp only [List.takeWhile_cons] at hrun
  rw [hrun]

/-- Whitespace appended to a text changes neither the token that is read nor,
up to whitespace, the text that is left. -/
theorem lexRest_append_blank {α : Type} (A : Arith α) (y : List Char) {w : List Char}
    (hw : isBlank w = true) :
    (lexRest A (y ++ w)).1 = (lexRest A y).1 ∧
    ∃ w1 : List Char, isBlank w1 = true ∧
      (y ++ w).drop (lexRest A (y ++ w)).2 = y.drop (lexRest A y).2 ++ w1 := by
  by_cases hy : isBlank y = true
  · have hyw : isBlank (y ++ w) = true := by
      rw [isBlank_iff] at hy hw ⊢
      intro a ha
      rcases List.mem_append.mp ha with h | h
      · exact hy a h
      · exact hw a h
    rw [lexRest_ws_end A hy, lexRest_ws_end A hyw]
    exact ⟨rfl, [], rfl, by simp⟩
  · have hsplit := List.takeWhile_append_dropWhile isspace y
    cases hrest : y.dropWhile isspace with
    | nil =>
      exfalso
      apply hy
      rw [isBlank_iff]
      exact List.dropWhile_eq_nil_iff.mp hrest
    | cons c r =>
      have hc : isspace c = false := by
        have h := startsWith_dropWhile isspace y
        rw [hrest] at h
        exact h
      rw [hrest] at hsplit
      have htw := isBlank_takeWhile y
      obtain ⟨tw, htwdef⟩ : ∃ tw, tw = y.takeWhile isspace := ⟨_, rfl⟩
      rw [← htwdef] at hsplit htw
      subst hsplit
      have e1 := lexRest_blank_append_any A (c :: r) htw
      have e2 : lexRest A (tw ++ c :: r ++ w) =
          ((lexRest A (c :: r)).1, tw.length + (lexRest A (c :: r)).2) := by
        have h := lexRest_blank_append_any A (c :: (r ++ w)) htw
        rw [lexRest_cons_append_blank A r hc hw] at h
        rw [← h]
        simp
      have hn := lexRest_count A (c :: r)
      rw [e1, e2]
      refine ⟨rfl, w, hw, ?_⟩
      simp only
      rw [List.append_assoc, List.drop_append, List.drop_append]
      exact List.drop_append_of_le_length hn

theorem Parser.new_sim {α : Type} (A : Arith α) {i1 i2 w1 w2 : List Char} {k1 k2 : Nat}
    (h : i1.drop k1 = w1 ++ (i2.drop k2 ++ w2)) (hw1 : isBlank w1 = true)
    (hw2 : isBlank w2 = true) :
    (∃ e, Parser.new A ⟨i1, k1⟩ = .error e ∧ Parser.new A ⟨i2, k2⟩ = .error e) ∨
    (∃ p q, Parser.new A ⟨i1, k1⟩ = .ok p ∧ Parser.new A ⟨i2, k2⟩ = .ok q ∧
      Parser.Sim p q) := by
  obtain ⟨h1, w3, hw3, h3⟩ := lexRest_append_blank A (i2.drop k2) hw2
  have h4 := lexRest_blank_append_any A (i2.drop k2 ++ w2) hw1
  rw [← h] at h4
  rw [Parser.new_eq, Parser.new_eq, h4, h1]
  cases hl : lexRest A (i2.drop k2) with
  | mk res n =>
    rw [hl] at h3
    simp only at h3 ⊢
    cases res with
    | error e => exact Or.inl ⟨e, rfl, rfl⟩
    | ok tok =>
      refine Or.inr ⟨_, _, rfl, rfl, rfl, w3, hw3, ?_⟩
      simp only
      rw [← List.drop_drop, h, List.drop_append, h3, List.drop_drop]

theorem Parser.consume_sim {α : Type} (A : Arith α) {p q : Parser α} (h : Parser.Sim p q)
    (type : TokenType) :
    (∃ e, p.consume A type = .error e ∧ q.consume A type = .error e) ∨
    (∃ p1 q1, p.consume A type = .ok p1 ∧ q.consume A type = .ok q1 ∧ Parser.Sim p1 q1) := by
  obtain ⟨htok, w, hw, hd⟩ := h
  rw [Parser.consume_eq, Parser.consume_eq, htok]
  by_cases ht : q.currentToken.type = type
  · rw [if_pos ht, if_pos ht]
    obtain ⟨⟨i1, k1⟩, _⟩ := p
    obtain ⟨⟨i2, k2⟩, _⟩ := q
    exact @Parser.new_sim _ A i1 i2 [] w k1 k2 (by simpa using hd) rfl hw
  · rw [if_neg ht, if_neg ht]
    exact Or.inl ⟨_, rfl, rfl⟩

/-- The parser does not depend on the position of the text in the input nor on
whitespace at the end of the text: from two states that agree on the lookahead
and, up to whitespace at the end, on the text from the cursor on, `parseTerm`
and `parseExpression` give the same result, with states that agree again. -/
theorem parse_sim {α : Type} (A : Arith α) : ∀ (fuel : Nat) (p q : Parser α),
    Parser.Sim p q →
    ResSim (parseTerm A fuel p) (parseTerm A fuel q) ∧
    ResSim (parseExpression A fuel p) (parseExpression A fuel q) := by
  intro fuel
  induction fuel with
  | zero =>
    intro p q _
    exact ⟨Or.inl ⟨by simp [parseTerm], by simp [parseTerm]⟩,
      Or.inl ⟨by simp [parseExpression], by simp [parseExpression]⟩⟩
  | succ f ih =>
    intro p q hsim
    have htok := hsim.1
    have hT : ResSim (parseTerm A (f + 1) p) (parseTerm A (f + 1) q) := by
      by_cases hty : startsTerm q.currentToken.type = true
      · rcases startsTerm_cases hty with ht | ht | ht
        · rw [parseTerm_number_eq A f (by rw [htok]; exact ht), parseTerm_number_eq A f ht]
          rcases Parser.consume_sim A hsim .NUMBER with ⟨e, h1, h2⟩ | ⟨p1, q1, h1, h2, h3⟩
          · rw [h1, h2]; exact Or.inr (Or.inl ⟨e, rfl, rfl⟩)
          · rw [h1, h2, htok]; exact Or.inr (Or.inr ⟨_, p1, q1, rfl, rfl, h3⟩)
        · rw [parseTerm_paren_eq A f (by rw [htok]; exact ht), parseTerm_paren_eq A f ht]
          rcases Parser.consume_sim A hsim .LPAREN with ⟨e, h1, h2⟩ | ⟨p1, q1, h1, h2, h3⟩
          · rw [h1, h2]; exact Or.inr (Or.inl ⟨e, rfl, rfl⟩)
          · rw [h1, h2]
            simp only
            rcases (ih p1 q1 h3).2 with ⟨g1, g2⟩ | ⟨e, g1, g2⟩ | ⟨v, p2, q2, g1, g2, g3⟩
            · rw [g1, g2]; exact Or.inl ⟨rfl, rfl⟩
            · rw [g1, g2]; exact Or.inr (Or.inl ⟨e, rfl, rfl⟩)
            · rw [g1, g2]
              simp only
              rcases Parser.consume_sim A g3 .RPAREN with ⟨e, k1, k2⟩ | ⟨p3, q3, k1, k2, k3⟩
              · rw [k1, k2]; exact Or.inr (Or.inl ⟨e, rfl, rfl⟩)
              · rw [k1, k2]; exact Or.inr (Or.inr ⟨_, p3, q3, rfl, rfl, k3⟩)
        · rw [parseTerm_minus_eq A f (by rw [htok]; exact ht), parseTerm_minus_eq A f ht]
          rcases Parser.consume_sim A hsim .MINUS with ⟨e, h1, h2⟩ | ⟨p1, q1, h1, h2, h3⟩
          · rw [h1, h2]; exact Or.inr (Or.inl ⟨e, rfl, rfl⟩)
          · rw [h1, h2]
            simp only
            rcases Parser.consume_sim A h3 .NUMBER with ⟨e, k1, k2⟩ | ⟨p2, q2, k1, k2, k3⟩
            · rw [k1, k2]; exact Or.inr (Or.inl ⟨e, rfl, rfl⟩)
            · rw [k1, k2, h3.1]; exact Or.inr (Or.inr ⟨_, p2, q2, rfl, rfl, k3⟩)
      · simp only [Bool.not_eq_true] at hty
        obtain ⟨h1, h2, h3⟩ := startsTerm_false hty
        rw [parseTerm_invalid A f (by rw [htok]; exact h1) (by rw [htok]; exact h2)
          (by rw [htok]; exact h3), parseTerm_invalid A f h1 h2 h3]
        exact Or.inr (Or.inl ⟨_, rfl, rfl⟩)
    refine ⟨hT, ?_⟩
    rcases (ih p q hsim).1 with ⟨g1, g2⟩ | ⟨e, g1, g2⟩ | ⟨v, p1, q1, g1, g2, g3⟩
    · exact Or.inl ⟨by simp [parseExpression, g1], by simp [parseExpression, g2]⟩
    · rw [parseExpression_term_error A f g1, parseExpression_term_error A f g2]
      exact Or.inr (Or.inl ⟨e, rfl, rfl⟩)
    · by_cases hop : isBinaryOp q1.currentToken.type = true
      · obtain ⟨op, hopt⟩ := isBinaryOp_true_iff.mp hop
        rw [parseExpression_op_eq A f op g1 (by rw [g3.1]; exact hopt),
          parseExpression_op_eq A f op g2 hopt]
        unfold binaryRest
        rcases Parser.consume_sim A g3 op.tokenType with ⟨e, k1, k2⟩ | ⟨p2, q2, k1, k2, k3⟩
        · rw [k1, k2]; exact Or.inr (Or.inl ⟨e, rfl, rfl⟩)
        · rw [k1, k2]
          simp only
          rcases (ih p2 q2 k3).2 with ⟨m1, m2⟩ | ⟨e, m1, m2⟩ | ⟨w, p3, q3, m1, m2, m3⟩
          · rw [m1, m2]; exact Or.inl ⟨rfl, rfl⟩
          · rw [m1, m2]; exact Or.inr (Or.inl ⟨e, rfl, rfl⟩)
          · rw [m1, m2]; exact Or.inr (Or.inr ⟨_, p3, q3, rfl, rfl, m3⟩)
      · simp only [Bool.not_eq_true] at hop
        rw [parseExpression_single A f g1 (by rw [g3.1]; exact hop),
          parseExpression_single A f g2 hop]
        exact Or.inr (Or.inr ⟨v, p1, q1, rfl, rfl, g3⟩)

/-- The function `evaluate` on a text with whitespace around it. -/
theorem evaluate_sim {α : Type} (A : Arith α) (s w1 w2 : List Char)
    (hw1 : isBlank w1 = true) (hw2 : isBlank w2 = true) :
    evaluate A (w1 ++ (s ++ w2)) = evaluate A s := by
  rcases @Parser.new_sim _ A (w1 ++ (s ++ w2)) s w1 w2 0 0 rfl hw1 hw2 with
    ⟨e, h1, h2⟩ | ⟨p, q, h1, h2, h3⟩
  · rw [evaluate_of_new_error A h1, evaluate_of_new_error A h2]
  · have hq := parseExpression_evaluate_fuel A h2
    have hle : 2 * s.length + 2 ≤ 2 * (w1 ++ (s ++ w2)).length + 2 := by
      simp only [List.length_append]; omega
    have hq2 := parseExpression_fuel_le A q _ hq _ hle
    have hsim := (parse_sim A (2 * (w1 ++ (s ++ w2)).length + 2) p q h3).2
    rw [hq2] at hsim
    unfold evaluate
    rw [h1, h2]
    simp only
    rcases hsim with ⟨g1, g2⟩ | ⟨e, g1, g2⟩ | ⟨v, p1, q1, g1, g2, _⟩
    · exact absurd g2 hq
    · rw [g1, g2]
    · rw [g1, g2]

/-- C19: `evaluate` is insensitive to leading and trailing whitespace: for
every text `s` and all texts `w1`, `w2` made only of whitespace characters,
`evaluate(w1 ++ s ++ w2)` has the same outcome as `evaluate(s)`, the same value
or the same error. -/
theorem evaluate_whitespace {α : Type} (A : Arith α) (s w1 w2 : List Char)
    (hw1 : isBlank w1 = true) (hw2 : isBlank w2 = true) :
    evaluate A (w1 ++ s ++ w2) = evaluate A s := by
  rw [List.append_assoc]
  exact evaluate_sim A s w1 w2 hw1 hw2

/-- Witness of C19: `evaluate(" \t2 & 3\n")` fails as `evaluate("2 & 3")`
does. -/
theorem evaluate_whitespace_witness :
    isBlank " \t".toList = true ∧ isBlank "\n".toList = true ∧
    " \t".toList ++ "2 & 3".toList ++ "\n".toList = " \t2 & 3\n".toList ∧
    evaluate exact "2 & 3".toList = .error .InvalidCharacter ∧
    evaluate exact (" \t".toList ++ "2 & 3".toList ++ "\n".toList) =
      evaluate exact "2 & 3".toList :=
  ⟨by decide, by decide, by decide, rfl,
    evaluate_whitespace exact "2 & 3".toList " \t".toList "\n".toList (by decide) (by decide)⟩

/-! ## The recursion equation of `evaluate` -/

/-- The function `evaluate` on a number text, an operator and any text. -/
theorem evaluate_number_op {α : Type} (A : Arith α) (a : List Char) (op : BinOp)
    (s : List Char) (ha : isNumber a = true) :
    evaluate A (a ++ op.char :: s) =
      match evaluate A s with
      | .ok v => .ok (op.apply A (litValue A a) v)
      | .error e => .error e
      | .outOfFuel => .outOfFuel := by
  have hrest : startsWith isNumChar (op.char :: s) = false :=
    (punctKind_not_space (punctKind_op op)).2
  have hlex0 : lexRest A ((a ++ op.char :: s).drop 0) =
      (.ok ⟨.NUMBER, litValue A a⟩, a.length) := lexRest_number A ha hrest
  have hnew0 := Parser.new_of_lexRest A hlex0
  have hdrop1 : (a ++ op.char :: s).drop (0 + a.length) = op.char :: s :=
    drop_add_of_drop_eq a (op.char :: s) rfl
  have hlex1 := lexRest_punct A (punctKind_op op) s
  rw [← hdrop1] at hlex1
  have hnew1 := Parser.new_of_lexRest A hlex1
  have hdrop2 : (a ++ op.char :: s).drop (0 + a.length + 1) = s := by
    rw [← List.drop_drop, hdrop1]
    rfl
  have hc0 : Parser.consume A (⟨⟨a ++ op.char :: s, 0 + a.length⟩,
      ⟨.NUMBER, litValue A a⟩⟩ : Parser α) .NUMBER =
      .ok ⟨⟨a ++ op.char :: s, 0 + a.length + 1⟩, ⟨op.tokenType, A.zero⟩⟩ := by
    rw [Parser.consume_eq, if_pos rfl]; exact hnew1
  have hterm := parseTerm_number A (2 * (a ++ op.char :: s).length) rfl hc0
  have hexp := parseExpression_op_eq A (2 * (a ++ op.char :: s).length + 1) op hterm rfl
  have hc1 : Parser.consume A (⟨⟨a ++ op.char :: s, 0 + a.length + 1⟩,
      ⟨op.tokenType, A.zero⟩⟩ : Parser α) op.tokenType =
      Parser.new A ⟨a ++ op.char :: s, 0 + a.length + 1⟩ := by
    rw [Parser.consume_eq, if_pos rfl]
  unfold evaluate
  rw [hnew0]
  simp only
  rw [hexp]
  unfold binaryRest
  rw [hc1]
  rcases @Parser.new_sim _ A (a ++ op.char :: s) s [] [] (0 + a.length + 1) 0
    (by rw [hdrop2]; simp) rfl rfl with ⟨e, h1, h2⟩ | ⟨p, q, h1, h2, h3⟩
  · rw [h1, h2]
  · have hq := parseExpression_evaluate_fuel A h2
    have hle : 2 * s.length + 2 ≤ 2 * (a ++ op.char :: s).length + 1 := by
      have := isNumber_length_pos ha
      simp only [List.length_append, List.length_cons]; omega
    have hq2 := parseExpression_fuel_le A q _ hq _ hle
    have hsim := (parse_sim A (2 * (a ++ op.char :: s).length + 1) p q h3).2
    rw [hq2] at hsim
    rw [h1, h2]
    simp only
    rcases hsim with ⟨g1, g2⟩ | ⟨e, g1, g2⟩ | ⟨v, p1, q1, g1, g2, _⟩
    · exact absurd g2 hq
    · rw [g1, g2]
    · rw [g1, g2]

/-- C16, as amended: the recursion equation with error propagation.  For every
well-formed numeral `a` in the range of `double`, every binary operator `op`
and every text `s`, `evaluate(a ++ op ++ s)` is `a op evaluate(s)` when
`evaluate(s)` succeeds, and fails with the same error as `evaluate(s)` when
`evaluate(s)` fails.  For a well-formed numeral `a` outside the range of
`double`, `evaluate(a ++ op ++ s)` fails with the `std::out_of_range` of
`std::stod`, whatever `s` is. -/
theorem evaluate_recursion {α : Type} (A : Arith α) (a : List Char) (op : BinOp)
    (s : List Char) (ha : isNumeral a = true) :
    (numeralInRange a = true →
      (∀ v, evaluate A s = .ok v →
        evaluate A (a ++ op.char :: s) = .ok (op.apply A (numeralValue A a) v)) ∧
      (∀ e, evaluate A s = .error e → evaluate A (a ++ op.char :: s) = .error e)) ∧
    (numeralInRange a = false → evaluate A (a ++ op.char :: s) = .error .OutOfRange) := by
  constructor
  · intro hr
    have h := evaluate_number_op A a op s (isNumber_of_isNumeral ha hr)
    rw [litValue_of_isNumeral A ha] at h
    constructor
    · intro v hv
      rw [h, hv]
    · intro e he
      rw [h, he]
  · intro hr
    have hst := stod_of_isNumeral A ha
    rw [hr] at hst
    exact evaluate_run_error A (isNumeral_run ha).1 (isNumeral_run ha).2
      (punctKind_not_space (punctKind_op op)).2 hst

/-- Witness of C16 as amended: `evaluate("1.5*2+3")` is `1.5 * evaluate("2+3")`,
and `evaluate("1.5*2+")` fails with `InvalidSyntax` as `evaluate("2+")` does. -/
theorem evaluate_recursion_witness :
    isNumeral "1.5".toList = true ∧ numeralInRange "1.5".toList = true ∧
    evaluate exact "2+3".toList = .ok 5 ∧
    evaluate exact "2+".toList = .error .InvalidSyntax ∧
    "1.5".toList ++ BinOp.times.char :: "2+3".toList = "1.5*2+3".toList ∧
    "1.5".toList ++ BinOp.times.char :: "2+".toList = "1.5*2+".toList ∧
    evaluate exact ("1.5".toList ++ BinOp.times.char :: "2+3".toList) =
      .ok (exact.mul (numeralValue exact "1.5".toList) 5) ∧
    evaluate exact ("1.5".toList ++ BinOp.times.char :: "2+".toList) = .error .InvalidSyntax :=
  have h5 : evaluate exact "2+3".toList = .ok 5 := by
    have h := evaluate_tree_text exact twoPlusThree (by decide)
    rw [twoPlusThree_value] at h
    exact h
  ⟨by decide, by decide, h5, rfl, by decide, by decide,
    ((evaluate_recursion exact "1.5".toList .times "2+3".toList (by decide)).1
      (by decide)).1 5 h5,
    ((evaluate_recursion exact "1.5".toList .times "2+".toList (by decide)).1
      (by decide)).2 .InvalidSyntax rfl⟩

/-- Counterexample to C16 as stated: with `a` the digit `1` followed by 400
zeros, a well-formed numeral, and `op` the operator `+`, `evaluate(a ++ op ++ s)`
fails with the `std::out_of_range` of `std::stod` both for `s = "2"`, where
`evaluate(s)` succeeds, and for `s = ""`, where `evaluate(s)` fails with another
error, `InvalidSyntax`. -/
theorem evaluate_recursion_huge_fails :
    isNumeral hugeNumeral = true ∧
    evaluate exact "2".toList = .ok 2 ∧
    evaluate exact (hugeNumeral ++ BinOp.plus.char :: "2".toList) = .error .OutOfRange ∧
    evaluate exact [] = .error .InvalidSyntax ∧
    evaluate exact (hugeNumeral ++ BinOp.plus.char :: []) = .error .OutOfRange := by
  have hst := stod_of_isNumeral exact hugeNumeral_isNumeral
  rw [hugeNumeral_outOfRange] at hst
  have key : ∀ s : List Char,
      evaluate exact (hugeNumeral ++ BinOp.plus.char :: s) = .error .OutOfRange := fun s =>
    evaluate_run_error exact (isNumeral_run hugeNumeral_isNumeral).1
      (isNumeral_run hugeNumeral_isNumeral).2 (rfl : startsWith isNumChar ('+' :: s) = false) hst
  have h2 : evaluate exact "2".toList = .ok 2 := by
    have h := evaluate_of_isNumeral exact (by decide : isNumeral "2".toList = true)
    rw [h]
    simp [numeralValue, exact, digitsToNat, digitVal, List.takeWhile, List.dropWhile]
    decide
  exact ⟨hugeNumeral_isNumeral, h2, key _, rfl, key _⟩

/-! ## Division by zero -/

/-- C15: division by zero is never an error.  For all number texts `a` and `b`
(the texts of NUMBER tokens: runs of digits and decimal points that `std::stod`
converts), the text `0` included, `evaluate("a / b")` succeeds with the
quotient that the arithmetic gives for `a` and `b`; so `evaluate("1 / 0")` and
`evaluate("0 / 0")` are the platform quotients of 1 and 0 and of 0 and 0, which
with the special values of IEEE 754 are positive infinity and NaN. -/
theorem division_by_zero :
    (∀ {α : Type} (A : Arith α) (a b : List Char), isNumber a = true → isNumber b = true →
      evaluate A (a ++ ' ' :: '/' :: ' ' :: b) = .ok (A.div (litValue A a) (litValue A b))) ∧
    (∀ {α : Type} (A : Arith α),
      evaluate A "1 / 0".toList = .ok (A.div (A.ofDecimal 1 0) (A.ofDecimal 0 0)) ∧
      evaluate A "0 / 0".toList = .ok (A.div (A.ofDecimal 0 0) (A.ofDecimal 0 0))) ∧
    evaluate ieee "1 / 0".toList = .ok .posInf ∧
    evaluate ieee "0 / 0".toList = .ok .nan := by
  have gen : ∀ {α : Type} (A : Arith α) (a b : List Char), isNumber a = true →
      isNumber b = true →
      evaluate A (a ++ ' ' :: '/' :: ' ' :: b) =
        .ok (A.div (litValue A a) (litValue A b)) := by
    intro α A a b ha hb
    have h := evaluate_tree_text A (.bin (.num [] a) [' '] .divide (.num [' '] b))
      (by simp only [Tree.wf, Tree.isTerm, ha, hb]; decide)
    simpa [Tree.text, Tree.value, BinOp.apply, BinOp.char] using h
  have l1 : ∀ {α : Type} (A : Arith α), litValue A ['1'] = A.ofDecimal 1 0 := fun A => rfl
  have l0 : ∀ {α : Type} (A : Arith α), litValue A ['0'] = A.ofDecimal 0 0 := fun A => rfl
  have key : ∀ {α : Type} (A : Arith α),
      evaluate A "1 / 0".toList = .ok (A.div (A.ofDecimal 1 0) (A.ofDecimal 0 0)) ∧
      evaluate A "0 / 0".toList = .ok (A.div (A.ofDecimal 0 0) (A.ofDecimal 0 0)) := by
    intro α A
    have h1 := gen A ['1'] ['0'] (by decide) (by decide)
    have h0 := gen A ['0'] ['0'] (by decide) (by decide)
    rw [l1, l0] at h1
    rw [l0] at h0
    exact ⟨h1, h0⟩
  refine ⟨gen, key, ?_, ?_⟩
  · rw [(key ieee).1]
    simp [ieee, Dbl.div, Dbl.finite?, Dbl.isNeg, Dbl.signedInf]
  · rw [(key ieee).2]
    simp [ieee, Dbl.div, Dbl.finite?]

/-- Witness of C15: `evaluate("7.5 / 0")` succeeds with the quotient of 7.5 and
0, which with the special values of IEEE 754 is positive infinity. -/
theorem division_by_zero_witness :
    isNumber "7.5".toList = true ∧ isNumber "0".toList = true ∧
    "7.5".toList ++ ' ' :: '/' :: ' ' :: "0".toList = "7.5 / 0".toList ∧
    Dbl.div (litValue ieee "7.5".toList) (litValue ieee "0".toList) = .posInf ∧
    evaluate ieee ("7.5".toList ++ ' ' :: '/' :: ' ' :: "0".toList) =
      .ok (ieee.div (litValue ieee "7.5".toList) (litValue ieee "0".toList)) :=
  ⟨by decide, by decide, by decide,
    by simp [litValue, decimalPrefix, ieee, digitsToNat, digitVal, isdigit, Dbl.div,
      Dbl.finite?, Dbl.isNeg, Dbl.signedInf]
       norm_num,
    division_by_zero.1 ieee "7.5".toList "0".toList (by decide) (by decide)⟩

/-! ## The depth of the recursion -/

theorem parseTerm_succ_eq_with {α : Type} (A : Arith α) (f : Nat) (p : Parser α) :
    parseTerm A (f + 1) p = parseTermWith A (parseExpression A f) p := by
  rw [parseTerm]
  rfl

theorem parseTermWith_congr {α : Type} (A : Arith α) {f g : Parser α → Res (α × Parser α)}
    {p : Parser α} (h : ∀ p1, g p1 ≠ .outOfFuel → f p1 = g p1)
    (hne : parseTermWith A g p ≠ .outOfFuel) :
    parseTermWith A f p = parseTermWith A g p := by
  unfold parseTermWith at hne ⊢
  split
  · rfl
  · split
    · rename_i h1 h2
      rw [if_neg h1, if_pos h2] at hne
      cases hc : p.consume A .LPAREN with
      | error e => rfl
      | ok p1 =>
        rw [hc] at hne
        simp only at hne ⊢
        have hg : g p1 ≠ .outOfFuel := by
          intro h3
          rw [h3] at hne
          exact hne rfl
        rw [h p1 hg]
    · rfl

theorem parseExpressionDepth_term_error {α : Type} (A : Arith α) (d : Nat) {p : Parser α}
    {e : Err} (ht : parseTermWith A (parseExpressionDepth A d) p = .error e) :
    parseExpressionDepth A (d + 1) p = .error e := by
  simp only [parseExpressionDepth, ht]

theorem parseExpressionDepth_term_outOfFuel {α : Type} (A : Arith α) (d : Nat) {p : Parser α}
    (ht : parseTermWith A (parseExpressionDepth A d) p = .outOfFuel) :
    parseExpressionDepth A (d + 1) p = .outOfFuel := by
  simp only [parseExpressionDepth, ht]

theorem parseExpressionDepth_single {α : Type} (A : Arith α) (d : Nat) {p p1 : Parser α}
    {v : α} (ht : parseTermWith A (parseExpressionDepth A d) p = .ok (v, p1))
    (hop : isBinaryOp p1.currentToken.type = false) :
    parseExpressionDepth A (d + 1) p = .ok (v, p1) := by
  simp only [parseExpressionDepth, ht]
  cases hty : p1.currentToken.type <;> simp_all [isBinaryOp]

theorem parseExpressionDepth_op_eq {α : Type} (A : Arith α) (d : Nat) (op : BinOp)
    {p p1 : Parser α} {v : α}
    (ht : parseTermWith A (parseExpressionDepth A d) p = .ok (v, p1))
    (hop : p1.currentToken.type = op.tokenType) :
    parseExpressionDepth A (d + 1) p =
      binaryRest A (parseExpressionDepth A d) (op.apply A) v p1 op.tokenType := by
  simp only [parseExpressionDepth, ht]
  cases op <;> simp_all [BinOp.tokenType, BinOp.apply]

/-- Where the depth-bounded `parseExpression` returns, it returns what
`parseExpression` returns. -/
theorem parseExpressionDepth_agree {α : Type} (A : Arith α) : ∀ (d : Nat) (p : Parser α),
    parseExpressionDepth A d p ≠ .outOfFuel →
    parseExpression A (2 * d) p = parseExpressionDepth A d p := by
  intro d
  induction d with
  | zero => intro p h; exact absurd (by simp [parseExpressionDepth]) h
  | succ d ih =>
    intro p hne
    have hT : parseTermWith A (parseExpressionDepth A d) p ≠ .outOfFuel →
        parseTerm A (2 * d + 1) p = parseTermWith A (parseExpressionDepth A d) p := by
      intro h
      rw [parseTerm_succ_eq_with]
      exact parseTermWith_congr A (fun p1 h1 => ih p1 h1) h
    have h2 : 2 * (d + 1) = 2 * d + 1 + 1 := by omega
    rw [h2]
    cases ht : parseTermWith A (parseExpressionDepth A d) p with
    | outOfFuel => exact absurd (parseExpressionDepth_term_outOfFuel A d ht) hne
    | error e =>
      have ht1 := hT (by rw [ht]; intro h; cases h)
      rw [ht] at ht1
      rw [parseExpression_term_error A _ ht1, parseExpressionDepth_term_error A d ht]
    | ok r =>
      obtain ⟨v1, p1⟩ := r
      have ht1 := hT (by rw [ht]; intro h; cases h)
      rw [ht] at ht1
      by_cases hop : isBinaryOp p1.currentToken.type = true
      · obtain ⟨op, hopt⟩ := isBinaryOp_true_iff.mp hop
        rw [parseExpressionDepth_op_eq A d op ht hopt] at hne
        rw [parseExpression_op_eq A _ op ht1 hopt, parseExpressionDepth_op_eq A d op ht hopt]
        unfold binaryRest at hne ⊢
        cases hc : p1.consume A op.tokenType with
        | error e => rfl
        | ok p2 =>
          rw [hc] at hne
          simp only at hne ⊢
          have hne2 : parseExpressionDepth A d p2 ≠ .outOfFuel := by
            intro h1
            rw [h1] at hne
            exact hne rfl
          have h3 := ih p2 hne2
          have h4 := (parse_fuel_succ A (2 * d) p2).2 (by rw [h3]; exact hne2)
          rw [h4, h3]
      · simp only [Bool.not_eq_true] at hop
        rw [parseExpression_single A _ ht1 hop, parseExpressionDepth_single A d ht hop]

theorem operatorCount_drop_le (l : List Char) (n : Nat) :
    operatorCount (l.drop n) ≤ operatorCount l :=
  (List.drop_sublist n l).countP_le isOperatorChar

theorem isOperatorChar_of_punctKind {c : Char} {type : TokenType}
    (h : punctKind c = some type) (ht : isOperatorToken type = true) :
    isOperatorChar c = true := by
  rcases punctKind_some h with h | h | h | h | h | h <;> obtain ⟨rfl, rfl⟩ := h
  · rfl
  · rfl
  · rfl
  · rfl
  · rfl
  · exact absurd ht (by decide)

/-- A token that has just been read is counted among the operators and left
parentheses of the text it was read from. -/
theorem Parser.new_pending {α : Type} (A : Arith α) {input : List Char} {k : Nat}
    {p : Parser α} (h : Parser.new A ⟨input, k⟩ = .ok p) :
    p.pending ≤ operatorCount (input.drop k) := by
  obtain ⟨n, hlex, htk⟩ := Parser.new_ok_inv A h
  have hdd : input.drop (k + n) = (input.drop k).drop n := by rw [List.drop_drop]
  simp only [Parser.pending, htk, hdd]
  by_cases hflag : isOperatorToken p.currentToken.type = true
  · rw [if_pos hflag]
    rcases lexRest_ok_inv A hlex with h1 | h1 | h1
    · rw [h1.1] at hflag; exact absurd hflag (by decide)
    · rw [h1.1] at hflag; exact absurd hflag (by decide)
    · obtain ⟨ws, c, rest, h2, _, h4, h5⟩ := h1
      have hc := isOperatorChar_of_punctKind h4 hflag
      have hd : (input.drop k).drop n = rest := by
        rw [h2, h5]
        simp
      rw [hd, h2]
      simp only [operatorCount, List.countP_append, List.countP_cons, hc, if_true]
      omega
  · rw [if_neg hflag]
    exact operatorCount_drop_le _ _

/-- Consuming a token does not add to the pending operators and left
parentheses, and consuming one of them removes it. -/
theorem Parser.consume_pending {α : Type} (A : Arith α) {p p1 : Parser α} {type : TokenType}
    (h : p.consume A type = .ok p1) :
    p1.pending + (if isOperatorToken type then 1 else 0) ≤ p.pending := by
  obtain ⟨ht, hnew⟩ := Parser.consume_ok_inv A h
  obtain ⟨⟨input, pos⟩, tok⟩ := p
  simp only at ht hnew
  have h1 := Parser.new_pending A hnew
  simp only [Parser.pending, ht] at h1 ⊢
  omega

/-- With a recursion that is deep enough for every state with fewer pending
operators, `parseTerm` is deep enough, and it does not add pending operators. -/
theorem parseTermWith_pending {α : Type} (A : Arith α) (d : Nat)
    (parseExpr : Parser α → Res (α × Parser α))
    (h1 : ∀ p1 : Parser α, p1.pending + 1 ≤ d → parseExpr p1 ≠ .outOfFuel)
    (h2 : ∀ (p1 : Parser α) (v : α) (p2 : Parser α),
      parseExpr p1 = .ok (v, p2) → p2.pending ≤ p1.pending)
    (p : Parser α) :
    (p.pending ≤ d → parseTermWith A parseExpr p ≠ .outOfFuel) ∧
    (∀ (v : α) (p3 : Parser α), parseTermWith A parseExpr p = .ok (v, p3) →
      p3.pending ≤ p.pending) := by
  unfold parseTermWith
  split
  · cases hc : p.consume A .NUMBER with
    | error e => exact ⟨(fun _ h => by cases h), (fun v p3 h => by cases h)⟩
    | ok p1 =>
      have hm := Parser.consume_pending A hc
      refine ⟨(fun _ h => by cases h), fun v p3 h => ?_⟩
      simp only [Res.ok.injEq, Prod.mk.injEq] at h
      rw [← h.2]
      omega
  · split
    · cases hc : p.consume A .LPAREN with
      | error e => exact ⟨(fun _ h => by cases h), (fun v p3 h => by cases h)⟩
      | ok p1 =>
        have hm := Parser.consume_pending A hc
        rw [if_pos (by decide)] at hm
        simp only
        cases he : parseExpr p1 with
        | error e => exact ⟨(fun _ h => by cases h), (fun v p3 h => by cases h)⟩
        | outOfFuel =>
          exact ⟨(fun hd _ => h1 p1 (by omega) he), (fun v p3 h => by cases h)⟩
        | ok r =>
          obtain ⟨w, p2⟩ := r
          have hm2 := h2 p1 w p2 he
          simp only
          cases hc2 : p2.consume A .RPAREN with
          | error e => exact ⟨(fun _ h => by cases h), (fun v p3 h => by cases h)⟩
          | ok p3 =>
            have hm3 := Parser.consume_pending A hc2
            refine ⟨(fun _ h => by cases h), fun v p4 h => ?_⟩
            simp only [Res.ok.injEq, Prod.mk.injEq] at h
            rw [← h.2]
            omega
    · split
      · cases hc : p.consume A .MINUS with
        | error e => exact ⟨(fun _ h => by cases h), (fun v p3 h => by cases h)⟩
        | ok p1 =>
          have hm := Parser.consume_pending A hc
          simp only
          cases hc2 : p1.consume A .NUMBER with
          | error e => exact ⟨(fun _ h => by cases h), (fun v p3 h => by cases h)⟩
          | ok p2 =>
            have hm2 := Parser.consume_pending A hc2
            refine ⟨(fun _ h => by cases h), fun v p4 h => ?_⟩
            simp only [Res.ok.injEq, Prod.mk.injEq] at h
            rw [← h.2]
            omega
      · exact ⟨(fun _ h => by cases h), (fun v p3 h => by cases h)⟩

/-- The depth-bounded `parseExpression` returns when its depth is more than the
number of pending operators and left parentheses, and it does not add pending
operators. -/
theorem parseExpressionDepth_enough {α : Type} (A : Arith α) : ∀ (d : Nat) (p : Parser α),
    (p.pending + 1 ≤ d → parseExpressionDepth A d p ≠ .outOfFuel) ∧
    (∀ (v : α) (p1 : Parser α), parseExpressionDepth A d p = .ok (v, p1) →
      p1.pending ≤ p.pending) := by
  intro d
  induction d with
  | zero =>
    intro p
    exact ⟨(fun h => by omega), (fun v p1 h => by simp [parseExpressionDepth] at h)⟩
  | succ d ih =>
    intro p
    obtain ⟨hT1, hT2⟩ := parseTermWith_pending A d (parseExpressionDepth A d)
      (fun p1 h => (ih p1).1 h) (fun p1 v p2 h => (ih p1).2 v p2 h) p
    cases ht : parseTermWith A (parseExpressionDepth A d) p with
    | outOfFuel =>
      rw [parseExpressionDepth_term_outOfFuel A d ht]
      exact ⟨(fun hd _ => hT1 (by omega) ht), (fun v p1 h => by cases h)⟩
    | error e =>
      rw [parseExpressionDepth_term_error A d ht]
      exact ⟨(fun _ h => by cases h), (fun v p1 h => by cases h)⟩
    | ok r =>
      obtain ⟨v1, p1⟩ := r
      have hm1 := hT2 v1 p1 ht
      by_cases hop : isBinaryOp p1.currentToken.type = true
      · obtain ⟨op, hopt⟩ := isBinaryOp_true_iff.mp hop
        rw [parseExpressionDepth_op_eq A d op ht hopt]
        unfold binaryRest
        cases hc : p1.consume A op.tokenType with
        | error e => exact ⟨(fun _ h => by cases h), (fun v p3 h => by cases h)⟩
        | ok p2 =>
          have hm2 := Parser.consume_pending A hc
          rw [if_pos (by cases op <;> decide)] at hm2
          simp only
          cases he : parseExpressionDepth A d p2 with
          | error e => exact ⟨(fun _ h => by cases h), (fun v p3 h => by cases h)⟩
          | outOfFuel =>
            exact ⟨(fun hd _ => (ih p2).1 (by omega) he), (fun v p3 h => by cases h)⟩
          | ok r2 =>
            obtain ⟨w, p3⟩ := r2
            have hm3 := (ih p2).2 w p3 he
            refine ⟨(fun _ h => by cases h), fun v p4 h => ?_⟩
            simp only [Res.ok.injEq, Prod.mk.injEq] at h
            rw [← h.2]
            omega
      · simp only [Bool.not_eq_true] at hop
        rw [parseExpressionDepth_single A d ht hop]
        refine ⟨(fun _ h => by cases h), fun v p4 h => ?_⟩
        simp only [Res.ok.injEq, Prod.mk.injEq] at h
        rw [← h.2]
        exact hm1

/-- The parse that `evaluate` performs needs a recursion that is at most as
deep as the number of binary operators and left parentheses in the text. -/
theorem parseExpressionDepth_evaluate {α : Type} (A : Arith α) {s : List Char}
    {p : Parser α} (hp : Parser.new A ⟨s, 0⟩ = .ok p) :
    parseExpressionDepth A (operatorCount s + 1) p ≠ .outOfFuel ∧
    parseExpressionDepth A (operatorCount s + 1) p =
      parseExpression A (2 * s.length + 2) p := by
  have hpend := Parser.new_pending A hp
  simp only [List.drop_zero] at hpend
  have hne := (parseExpressionDepth_enough A (operatorCount s + 1) p).1 (by omega)
  have hag := parseExpressionDepth_agree A _ p hne
  have hne2 : parseExpression A (2 * (operatorCount s + 1)) p ≠ .outOfFuel := by
    rw [hag]; exact hne
  have hcount : operatorCount s ≤ s.length := List.countP_le_length isOperatorChar
  have hle := parseExpression_fuel_le A p _ hne2 (2 * s.length + 2) (by omega)
  exact ⟨hne, by rw [hle, hag]⟩

theorem getNextToken_pos_lt {α : Type} (A : Arith α) {t t' : Tokenizer} {tok : Token α}
    (h : t.getNextToken A = (.ok tok, t')) (hne : tok.type ≠ .END) : t.pos < t'.pos := by
  rw [getNextToken_eq] at h
  simp only [Prod.mk.injEq] at h
  obtain ⟨h1, h2⟩ := h
  have hl : lexRest A (t.input.drop t.pos) = (.ok tok, (lexRest A (t.input.drop t.pos)).2) := by
    rw [← h1]
  have hn := (lexRest_ok_count A hl).2 hne
  rw [← h2]
  simp only
  omega

theorem Parser.consume_pos_le {α : Type} (A : Arith α) {p p1 : Parser α} {type : TokenType}
    (h : p.consume A type = .ok p1) : p.tokenizer.pos ≤ p1.tokenizer.pos := by
  obtain ⟨_, hnew⟩ := Parser.consume_ok_inv A h
  have h1 := (Parser.new_ok_iff A p.tokenizer p1).mp hnew
  have h2 := getNextToken_pos_ge A p.tokenizer
  rw [h1] at h2
  exact h2

/-- C14, as amended: `evaluate` terminates on every input: it returns a number
or fails with an error.  The recursion of `parseExpression` and `parseTerm` is
well-founded because every recursive call is made on a state returned by
consuming a token that is not End, and consuming such a token strictly
decreases the number of characters from the cursor to the end of the text plus
one for a lookahead that is not End; the cursor itself never moves back, and
it advances strictly whenever the token that is read is not End.  The
recursion depth is bounded by the number of binary operators plus left
parentheses in the input: with at most that many nested recursive calls of
`parseExpression` the parse returns, with the result that `evaluate` uses. -/
theorem evaluate_terminates {α : Type} (A : Arith α) :
    (∀ s : List Char, evaluate A s ≠ .outOfFuel) ∧
    (∀ s : List Char, (∃ v, evaluate A s = .ok v) ∨ (∃ e, evaluate A s = .error e)) ∧
    (∀ (p p1 : Parser α) (type : TokenType), p.consume A type = .ok p1 → type ≠ .END →
      p1.measure < p.measure ∧ p.tokenizer.pos ≤ p1.tokenizer.pos) ∧
    (∀ (t t' : Tokenizer) (tok : Token α), t.getNextToken A = (.ok tok, t') →
      tok.type ≠ .END → t.pos < t'.pos) ∧
    (∀ (s : List Char) (p : Parser α), Parser.new A ⟨s, 0⟩ = .ok p →
      parseExpressionDepth A (operatorCount s + 1) p ≠ .outOfFuel ∧
      parseExpressionDepth A (operatorCount s + 1) p =
        parseExpression A (2 * s.length + 2) p) := by
  refine ⟨evaluate_ne_outOfFuel A, ?_, ?_, ?_, ?_⟩
  · intro s
    have h := evaluate_ne_outOfFuel A s
    cases he : evaluate A s with
    | ok v => exact Or.inl ⟨v, rfl⟩
    | error e => exact Or.inr ⟨e, rfl⟩
    | outOfFuel => exact absurd he h
  · intro p p1 type h hne
    exact ⟨Parser.consume_measure A h hne, Parser.consume_pos_le A h⟩
  · intro t t' tok h hne
    exact getNextToken_pos_lt A h hne
  · intro s p hp
    exact parseExpressionDepth_evaluate A hp

/-- Witness of C14 as amended: `(1+2)*3` has three binary operators and left
parentheses, and its parse returns with at most three nested recursive calls
of `parseExpression`. -/
theorem evaluate_terminates_witness :
    operatorCount "(1+2)*3".toList = 3 ∧
    Parser.new exact ⟨"(1+2)*3".toList, 0⟩ =
      .ok ⟨⟨"(1+2)*3".toList, 1⟩, ⟨.LPAREN, exact.zero⟩⟩ ∧
    parseExpressionDepth exact (operatorCount "(1+2)*3".toList + 1)
      ⟨⟨"(1+2)*3".toList, 1⟩, ⟨.LPAREN, exact.zero⟩⟩ ≠ .outOfFuel :=
  ⟨by decide, rfl,
    ((evaluate_terminates exact).2.2.2.2 "(1+2)*3".toList
      ⟨⟨"(1+2)*3".toList, 1⟩, ⟨.LPAREN, exact.zero⟩⟩ rfl).1⟩

/-- Counterexample to C14 as stated: on the input `(` the parser consumes the
token `(`, which is not End, and then calls `parseExpression` recursively
(the inner `parseTerm` throws `InvalidSyntax` at End); the cursor of the
tokenizer is 1 before and after that `consume`: consuming a token does not
advance the cursor when the token that follows is End. -/
theorem consume_keeps_cursor :
    Parser.new exact ⟨"(".toList, 0⟩ = .ok ⟨⟨"(".toList, 1⟩, ⟨.LPAREN, exact.zero⟩⟩ ∧
    Parser.consume exact ⟨⟨"(".toList, 1⟩, ⟨.LPAREN, exact.zero⟩⟩ .LPAREN =
      .ok ⟨⟨"(".toList, 1⟩, ⟨.END, exact.zero⟩⟩ ∧
    ¬ ((⟨⟨"(".toList, 1⟩, ⟨.LPAREN, exact.zero⟩⟩ : Parser ℚ).tokenizer.pos <
      (⟨⟨"(".toList, 1⟩, ⟨.END, exact.zero⟩⟩ : Parser ℚ).tokenizer.pos) ∧
    evaluate exact "(".toList = .error .InvalidSyntax :=
  ⟨rfl, rfl, Nat.lt_irrefl 1, rfl⟩

/-! ## Errors of the tokenizer at every place where a token is read -/

theorem Parser.new_error_iff_lexRest {α : Type} (A : Arith α) (input : List Char) (k : Nat)
    (e : Err) :
    Parser.new A ⟨input, k⟩ = .error e ↔ (lexRest A (input.drop k)).1 = .error e := by
  rw [Parser.new_eq]
  cases h : lexRest A (input.drop k) with
  | mk r n => cases r <;> simp

theorem lexRest_eq_of_fst {α : Type} (A : Arith α) {rest : List Char}
    {r : Except Err (Token α)} (h : (lexRest A rest).1 = r) :
    lexRest A rest = (r, (lexRest A rest).2) := by
  rw [← h]

theorem parseTerm_number_error {α : Type} (A : Arith α) (fuel : Nat) {p : Parser α} {e : Err}
    (ht : p.currentToken.type = .NUMBER) (hc : p.consume A .NUMBER = .error e) :
    parseTerm A (fuel + 1) p = .error e := by
  simp [parseTerm, ht, hc]

theorem parseTerm_paren_open_error {α : Type} (A : Arith α) (fuel : Nat) {p : Parser α}
    {e : Err} (ht : p.currentToken.type = .LPAREN) (hc : p.consume A .LPAREN = .error e) :
    parseTerm A (fuel + 1) p = .error e := by
  simp [parseTerm, ht, hc]

theorem parseTerm_neg_number_error {α : Type} (A : Arith α) (fuel : Nat) {p p1 : Parser α}
    {e : Err} (ht : p.currentToken.type = .MINUS) (hc : p.consume A .MINUS = .ok p1)
    (hn : p1.consume A .NUMBER = .error e) :
    parseTerm A (fuel + 1) p = .error e := by
  simp [parseTerm, ht, hc, hn]

theorem parseExpression_op_error {α : Type} (A : Arith α) (fuel : Nat) (op : BinOp)
    {p p1 : Parser α} {v : α} {e : Err} (ht : parseTerm A fuel p = .ok (v, p1))
    (hop : p1.currentToken.type = op.tokenType) (hc : p1.consume A op.tokenType = .error e) :
    parseExpression A (fuel + 1) p = .error e := by
  rw [parseExpression_op_eq A fuel op ht hop]
  simp [binaryRest, hc]

/-- The parser at a term behind which the tokenizer fails. -/
theorem parse_term_lex_error {α : Type} (A : Arith α) {input rest : List Char} {k : Nat}
    {e : Err} (t : Tree) (hwf : (Seen.term t).wf rest = true)
    (hdrop : input.drop k = t.text ++ rest) (hlex : (lexRest A rest).1 = .error e)
    (fuel : Nat) (hfuel : t.cost ≤ fuel) :
    ∃ p0, Parser.new A ⟨input, k⟩ = .ok p0 ∧ parseExpression A fuel p0 = .error e := by
  have hnext : Parser.new A ⟨input, k + t.text.length⟩ = .error e := by
    rw [Parser.new_error_iff_lexRest, drop_add_of_drop_eq _ _ hdrop]; exact hlex
  cases t with
  | num ws lit =>
    simp only [Seen.wf, Tree.wf, Bool.and_eq_true, Bool.not_eq_true'] at hwf
    obtain ⟨⟨hws, hlit⟩, hrest⟩ := hwf
    simp only [Tree.text, List.append_assoc, List.length_append] at hdrop hnext
    obtain ⟨f, rfl⟩ : ∃ f, fuel = f + 2 := ⟨fuel - 2, by simp only [Tree.cost] at hfuel; omega⟩
    have hl := lexRest_ws_number A hws hlit hrest
    rw [← hdrop] at hl
    refine ⟨_, Parser.new_of_lexRest A hl, ?_⟩
    apply parseExpression_term_error
    apply parseTerm_number_error A f rfl
    rw [Parser.consume_eq, if_pos rfl]; exact hnext
  | neg ws1 ws2 lit =>
    simp only [Seen.wf, Tree.wf, Bool.and_eq_true, Bool.not_eq_true'] at hwf
    obtain ⟨⟨⟨hws1, hws2⟩, hlit⟩, hrest⟩ := hwf
    simp only [Tree.text, List.append_assoc, List.length_append, List.cons_append,
      List.length_cons] at hdrop hnext
    obtain ⟨f, rfl⟩ : ∃ f, fuel = f + 2 := ⟨fuel - 2, by simp only [Tree.cost] at hfuel; omega⟩
    have hl := lexRest_ws_punct A (c := '-') hws1 rfl (ws2 ++ (lit ++ rest))
    rw [← hdrop] at hl
    have hdrop2 : input.drop (k + (ws1.length + 1)) = ws2 ++ (lit ++ rest) :=
      drop_after_punct hdrop
    have hl2 := lexRest_ws_number A hws2 hlit hrest
    rw [← hdrop2] at hl2
    refine ⟨_, Parser.new_of_lexRest A hl, ?_⟩
    have h1 : Parser.consume A (⟨⟨input, k + (ws1.length + 1)⟩, ⟨.MINUS, A.zero⟩⟩ : Parser α)
        .MINUS = .ok ⟨⟨input, k + (ws1.length + 1) + (ws2.length + lit.length)⟩,
          ⟨.NUMBER, litValue A lit⟩⟩ := by
      rw [Parser.consume_eq, if_pos rfl]; exact Parser.new_of_lexRest A hl2
    have h2 : Parser.consume A (⟨⟨input, k + (ws1.length + 1) + (ws2.length + lit.length)⟩,
        ⟨.NUMBER, litValue A lit⟩⟩ : Parser α) .NUMBER = .error e := by
      rw [Parser.consume_eq, if_pos rfl]
      exact Parser.new_pos_congr A (by omega) hnext
    exact parseExpression_term_error A (f + 1) (parseTerm_neg_number_error A f rfl h1 h2)
  | paren ws1 e1 ws2 =>
    simp only [Seen.wf, Tree.wf, Bool.and_eq_true] at hwf
    obtain ⟨⟨hws1, hwfe⟩, hws2⟩ := hwf
    simp only [Tree.text, List.append_assoc, List.length_append, List.cons_append,
      List.length_cons, List.nil_append, List.length_nil] at hdrop hnext
    obtain ⟨f, rfl⟩ : ∃ f, fuel = f + 2 := ⟨fuel - 2, by simp only [Tree.cost] at hfuel; omega⟩
    have hl := lexRest_ws_punct A (c := '(') hws1 rfl (e1.text ++ (ws2 ++ ')' :: rest))
    rw [← hdrop] at hl
    have hdrop1 : input.drop (k + (ws1.length + 1)) = e1.text ++ (ws2 ++ ')' :: rest) :=
      drop_after_punct hdrop
    have hdrop2 := drop_add_of_drop_eq _ _ hdrop1
    have hl2 := lexRest_ws_punct A (c := ')') hws2 rfl rest
    rw [← hdrop2] at hl2
    have hrest1 : startsWith isNumChar (ws2 ++ ')' :: rest) = false :=
      startsWith_append_cons (isBlank_iff.mp hws2) isspace_not_isNumChar
        (punctKind_not_space (c := ')') rfl).2
    obtain ⟨p1, hp1, he⟩ := (parse_tree A e1 hwfe input _ _ _ f hdrop1 hrest1
      (Parser.new_of_lexRest A hl2)).2 rfl (by simp only [Tree.cost] at hfuel; omega)
    refine ⟨_, Parser.new_of_lexRest A hl, ?_⟩
    have h1 : Parser.consume A (⟨⟨input, k + (ws1.length + 1)⟩, ⟨.LPAREN, A.zero⟩⟩ : Parser α)
        .LPAREN = .ok p1 := by
      rw [Parser.consume_eq, if_pos rfl]; exact hp1
    have h2 : Parser.consume A (⟨⟨input, k + (ws1.length + 1) + e1.text.length +
        (ws2.length + 1)⟩, ⟨.RPAREN, A.zero⟩⟩ : Parser α) .RPAREN = .error e := by
      rw [Parser.consume_eq, if_pos rfl]
      exact Parser.new_pos_congr A (by omega) hnext
    exact parseExpression_term_error A (f + 1) (parseTerm_paren_close_error A f rfl h1 he h2)
  | bin t ws op e1 => simp [Seen.wf] at hwf

/-- The parser at an item behind which the tokenizer fails. -/
theorem parse_item_lex_error {α : Type} (A : Arith α) {input rest : List Char} {k : Nat}
    {e : Err} (i : Item) (hwf : i.wf = true) (hdrop : input.drop k = i.text ++ rest)
    (hlex : (lexRest A rest).1 = .error e) (fuel : Nat) (hfuel : i.cost + 1 ≤ fuel) :
    ∃ p0, Parser.new A ⟨input, k⟩ = .ok p0 ∧ parseExpression A fuel p0 = .error e := by
  have hnext : Parser.new A ⟨input, k + i.text.length⟩ = .error e := by
    rw [Parser.new_error_iff_lexRest, drop_add_of_drop_eq _ _ hdrop]; exact hlex
  cases i with
  | lparen ws =>
    simp only [Item.wf] at hwf
    simp only [Item.text, List.append_assoc, List.length_append, List.cons_append,
      List.length_cons, List.nil_append, List.length_nil] at hdrop hnext
    obtain ⟨f, rfl⟩ : ∃ f, fuel = f + 2 := ⟨fuel - 2, by simp only [Item.cost] at hfuel; omega⟩
    have hl := lexRest_ws_punct A (c := '(') hwf rfl rest
    rw [← hdrop] at hl
    refine ⟨_, Parser.new_of_lexRest A hl, ?_⟩
    apply parseExpression_term_error
    apply parseTerm_paren_open_error A f rfl
    rw [Parser.consume_eq, if_pos rfl]; exact hnext
  | operand t ws op =>
    simp only [Item.wf, Bool.and_eq_true] at hwf
    obtain ⟨⟨htt, hwft⟩, hws⟩ := hwf
    simp only [Item.text, List.append_assoc, List.length_append, List.cons_append,
      List.length_cons, List.nil_append, List.length_nil] at hdrop hnext
    simp only [Item.cost] at hfuel
    obtain ⟨f, rfl⟩ : ∃ f, fuel = f + 1 := ⟨fuel - 1, by omega⟩
    have hdrop1 := drop_add_of_drop_eq _ _ hdrop
    have hl := lexRest_ws_punct A hws (punctKind_op op) rest
    rw [← hdrop1] at hl
    have hrest1 : startsWith isNumChar (ws ++ op.char :: rest) = false :=
      startsWith_append_cons (isBlank_iff.mp hws) isspace_not_isNumChar
        (punctKind_not_space (punctKind_op op)).2
    obtain ⟨p, hp, ht⟩ := (parse_tree A t hwft input k _ _ f hdrop hrest1
      (Parser.new_of_lexRest A hl)).1 htt (by omega)
    refine ⟨p, hp, ?_⟩
    have h1 : Parser.consume A (⟨⟨input, k + t.text.length + (ws.length + 1)⟩,
        ⟨op.tokenType, A.zero⟩⟩ : Parser α) op.tokenType = .error e := by
      rw [Parser.consume_eq, if_pos rfl]
      exact Parser.new_pos_congr A (by omega) hnext
    exact parseExpression_op_error A f op ht rfl h1

theorem evaluate_context_error_fuel {α : Type} (A : Arith α) (e : Err) (P : List Item)
    (rest : List Char) (fuel0 : Nat) (hwf : contextWf P = true)
    (hf : fuel0 ≤ 2 * rest.length + 2)
    (h : ∀ fuel, fuel0 ≤ fuel → ∃ p0,
      Parser.new A ⟨contextText P ++ rest, (contextText P).length⟩ = .ok p0 ∧
      parseExpression A fuel p0 = .error e) :
    evaluate A (contextText P ++ rest) = .error e := by
  have hc := contextCost_le_text P hwf
  obtain ⟨p, hp, he⟩ := parse_context_error A e fuel0 P hwf (contextText P ++ rest) 0 rest rfl
    (by simpa using h) (2 * (contextText P ++ rest).length + 2)
    (by rw [List.length_append]; omega)
  exact evaluate_of_parse_error A hp he

theorem contextText_append (L M : List Item) :
    contextText (L ++ M) = contextText L ++ contextText M := by
  induction L with
  | nil => rfl
  | cons i L ih =>
    rw [List.cons_append]
    simp only [contextText, List.append_assoc]
    rw [ih]

theorem item_cost_le_text (i : Item) (hwf : i.wf = true) : i.cost ≤ 2 * i.text.length := by
  have h := contextCost_le_text [i] (by simpa [contextWf] using hwf)
  simpa [contextCost, contextText] using h

/-- The function `evaluate` fails with the error of the tokenizer when the
tokenizer fails at a place where the parser reads a token. -/
theorem evaluate_lex_error {α : Type} (A : Arith α) (e : Err) (P : List Item) (sn : Seen)
    (rest : List Char) (hP : contextWf P = true) (hsn : sn.wf rest = true)
    (hlex : (lexRest A rest).1 = .error e) :
    evaluate A (contextText P ++ (sn.text ++ rest)) = .error e := by
  cases sn with
  | nothing =>
    simp only [Seen.text, List.nil_append]
    rcases List.eq_nil_or_concat P with rfl | ⟨L, b, hLb⟩
    · apply evaluate_of_new_error
      rw [Parser.new_error_iff_lexRest]
      simpa [contextText] using hlex
    · rw [List.concat_eq_append] at hLb
      subst hLb
      have hwf2 : contextWf L = true ∧ b.wf = true := by
        simpa [contextWf, List.all_append] using hP
      rw [contextText_append]
      simp only [contextText, List.append_nil, List.append_assoc]
      have hb := item_cost_le_text b hwf2.2
      apply evaluate_context_error_fuel A e L _ (b.cost + 1) hwf2.1
        (by rw [List.length_append]; omega)
      intro fuel hfuel
      exact parse_item_lex_error A b hwf2.2 (List.drop_left _ _) hlex fuel hfuel
  | minus ws =>
    simp only [Seen.wf] at hsn
    simp only [Seen.text, List.append_assoc, List.cons_append, List.nil_append]
    apply evaluate_context_error A _ P _ hP
    intro fuel hfuel
    exact parse_minus_lex_error A hsn (List.drop_left _ _) (lexRest_eq_of_fst A hlex) fuel hfuel
  | term t =>
    simp only [Seen.text]
    have hwft : t.wf = true := by
      cases t <;> simp only [Seen.wf, Bool.and_eq_true] at hsn
      · exact hsn.1
      · exact hsn.1
      · exact hsn
      · cases hsn
    have hc := t.cost_le_text hwft
    apply evaluate_context_error_fuel A e P _ t.cost hP
      (by rw [List.length_append]; omega)
    intro fuel hfuel
    exact parse_term_lex_error A t hsn (List.drop_left _ _) hlex fuel hfuel

theorem Parser.consume_error_inv {α : Type} (A : Arith α) {p : Parser α} {type : TokenType}
    {e : Err} (he1 : e ≠ .UnexpectedToken) (h : p.consume A type = .error e) :
    p.currentToken.type = type ∧ Parser.new A p.tokenizer = .error e := by
  rw [Parser.consume_eq] at h
  split at h
  · rename_i ht; exact ⟨ht, h⟩
  · injection h with h; exact absurd h.symm he1

/-- An error of the tokenizer that leaves `parseTerm` comes from a place where
the parser reads a token. -/
theorem parseTerm_lex_err_inv {α : Type} (A : Arith α) (f : Nat) {input : List Char} {k : Nat}
    {p : Parser α} {e : Err} (he1 : e ≠ .UnexpectedToken) (he2 : e ≠ .InvalidSyntax)
    (hp : Parser.new A ⟨input, k⟩ = .ok p)
    (ihEok : ∀ (k1 : Nat) (p1 : Parser α), Parser.new A ⟨input, k1⟩ = .ok p1 →
      ∀ v p', parseExpression A f p1 = .ok (v, p') →
        ∃ (e : Tree) (rest : List Char), e.wf = true ∧ e.value A = v ∧
          input.drop k1 = e.text ++ rest ∧
          Parser.new A ⟨input, k1 + e.text.length⟩ = .ok p')
    (ihE : ∀ (k1 : Nat) (p1 : Parser α), Parser.new A ⟨input, k1⟩ = .ok p1 →
      parseExpression A f p1 = .error e →
        ∃ (P : List Item) (sn : Seen) (rest : List Char), contextWf P = true ∧
          sn.wf rest = true ∧ input.drop k1 = contextText P ++ (sn.text ++ rest) ∧
          (lexRest A rest).1 = .error e)
    (h : parseTerm A (f + 1) p = .error e) :
    ∃ (P : List Item) (sn : Seen) (rest : List Char), contextWf P = true ∧
      sn.wf rest = true ∧ input.drop k = contextText P ++ (sn.text ++ rest) ∧
      (lexRest A rest).1 = .error e := by
  by_cases hty : startsTerm p.currentToken.type = true
  · rcases startsTerm_cases hty with ht | ht | ht
    · -- a number: the lookahead behind it cannot be read
      rw [parseTerm_number_eq A f ht] at h
      cases hc : p.consume A .NUMBER with
      | ok p1 => rw [hc] at h; cases h
      | error e' =>
        rw [hc] at h
        simp only [Res.error.injEq] at h
        rw [h] at hc
        obtain ⟨_, hnew⟩ := Parser.consume_error_inv A he1 hc
        obtain ⟨ws, lit, rest, hd, hws, hlit, hrest, _, htk⟩ := Parser.new_number_inv A hp ht
        rw [htk, Parser.new_error_iff_lexRest] at hnew
        have hdr : input.drop (k + (ws.length + lit.length)) = rest := by
          have h1 := drop_add_of_drop_eq (ws ++ lit) rest (by simpa using hd)
          simpa using h1
        rw [hdr] at hnew
        exact ⟨[], .term (.num ws lit), rest, rfl,
          by simp [Seen.wf, Tree.wf, hws, hlit, hrest],
          by simpa [contextText, Seen.text, Tree.text] using hd, hnew⟩
    · -- a parenthesized expression
      rw [parseTerm_paren_eq A f ht] at h
      obtain ⟨ws, rest0, hd, hws, htk⟩ :=
        Parser.new_punct_inv A (c := '(') hp (by rw [ht]; rfl)
      have hr0 := drop_after_punct hd
      cases hc : p.consume A .LPAREN with
      | error e' =>
        rw [hc] at h
        simp only [Res.error.injEq] at h
        rw [h] at hc
        obtain ⟨_, hnew⟩ := Parser.consume_error_inv A he1 hc
        rw [htk, Parser.new_error_iff_lexRest, hr0] at hnew
        exact ⟨[.lparen ws], .nothing, rest0, by simpa [contextWf, Item.wf] using hws, rfl,
          by simpa [contextText, Item.text, Seen.text] using hd, hnew⟩
      | ok p1 =>
        rw [hc] at h
        simp only at h
        have hnew1 := (Parser.consume_ok_inv A hc).2
        rw [htk] at hnew1
        cases he : parseExpression A f p1 with
        | outOfFuel => rw [he] at h; cases h
        | error e' =>
          rw [he] at h
          simp only [Res.error.injEq] at h
          rw [h] at he
          obtain ⟨P, sn, rest, hwfP, hsn, hdP, hlex⟩ := ihE _ p1 hnew1 he
          refine ⟨.lparen ws :: P, sn, rest, by simpa [contextWf, Item.wf, hws] using hwfP,
            hsn, ?_, hlex⟩
          rw [hd, ← hr0, hdP]
          simp [contextText, Item.text]
        | ok r =>
          obtain ⟨w, p2⟩ := r
          rw [he] at h
          simp only at h
          cases hc2 : p2.consume A .RPAREN with
          | ok p3 => rw [hc2] at h; cases h
          | error e' =>
            rw [hc2] at h
            simp only [Res.error.injEq] at h
            rw [h] at hc2
            obtain ⟨ht2, hnew3⟩ := Parser.consume_error_inv A he1 hc2
            obtain ⟨e1, rest1, hwfe, _, hd1, hnew2⟩ := ihEok _ p1 hnew1 w p2 he
            obtain ⟨ws2, rest2, hd2, hws2, htk2⟩ :=
              Parser.new_punct_inv A (c := ')') hnew2 (by rw [ht2]; rfl)
            have hr1 := drop_add_of_drop_eq _ _ hd1
            have hr2 := drop_after_punct hd2
            rw [htk2, Parser.new_error_iff_lexRest, hr2] at hnew3
            refine ⟨[], .term (.paren ws e1 ws2), rest2, rfl,
              by simp [Seen.wf, Tree.wf, hws, hwfe, hws2], ?_, hnew3⟩
            rw [hd, ← hr0, hd1, ← hr1, hd2]
            simp [contextText, Seen.text, Tree.text]
    · -- a negated number
      rw [parseTerm_minus_eq A f ht] at h
      obtain ⟨ws, rest0, hd, hws, htk⟩ :=
        Parser.new_punct_inv A (c := '-') hp (by rw [ht]; rfl)
      have hr0 := drop_after_punct hd
      cases hc : p.consume A .MINUS with
      | error e' =>
        rw [hc] at h
        simp only [Res.error.injEq] at h
        rw [h] at hc
        obtain ⟨_, hnew⟩ := Parser.consume_error_inv A he1 hc
        rw [htk, Parser.new_error_iff_lexRest, hr0] at hnew
        exact ⟨[], .minus ws, rest0, rfl, by simpa [Seen.wf] using hws,
          by simpa [contextText, Seen.text] using hd, hnew⟩
      | ok p1 =>
        rw [hc] at h
        simp only at h
        have hnew1 := (Parser.consume_ok_inv A hc).2
        rw [htk] at hnew1
        cases hc2 : p1.consume A .NUMBER with
        | ok p2 => rw [hc2] at h; cases h
        | error e' =>
          rw [hc2] at h
          simp only [Res.error.injEq] at h
          rw [h] at hc2
          obtain ⟨ht2, hnew2⟩ := Parser.consume_error_inv A he1 hc2
          obtain ⟨ws2, lit, rest, hd2, hws2, hlit, hrest, _, htk2⟩ :=
            Parser.new_number_inv A hnew1 ht2
          have hdr : input.drop (k + (ws.length + 1) + (ws2.length + lit.length)) = rest := by
            have h1 := drop_add_of_drop_eq (ws2 ++ lit) rest (by simpa using hd2)
            simpa using h1
          rw [htk2, Parser.new_error_iff_lexRest, hdr] at hnew2
          refine ⟨[], .term (.neg ws ws2 lit), rest, rfl,
            by simp [Seen.wf, Tree.wf, hws, hws2, hlit, hrest], ?_, hnew2⟩
          rw [hd, ← hr0, hd2]
          simp [contextText, Seen.text, Tree.text]
  · simp only [Bool.not_eq_true] at hty
    obtain ⟨h1, h2, h3⟩ := startsTerm_false hty
    rw [parseTerm_invalid A f h1 h2 h3] at h
    simp only [Res.error.injEq] at h
    exact absurd h.symm he2

/-- An error of the tokenizer that leaves `parseExpression` comes from a place
where the parser reads a token. -/
theorem parseExpression_lex_err_inv {α : Type} (A : Arith α) (f : Nat) {input : List Char}
    {k : Nat} {p : Parser α} {e : Err} (he1 : e ≠ .UnexpectedToken)
    (ihTok : ∀ v p', parseTerm A f p = .ok (v, p') →
      ∃ (t : Tree) (rest : List Char), t.isTerm = true ∧ t.wf = true ∧ t.value A = v ∧
        input.drop k = t.text ++ rest ∧ Parser.new A ⟨input, k + t.text.length⟩ = .ok p')
    (ihT : parseTerm A f p = .error e →
      ∃ (P : List Item) (sn : Seen) (rest : List Char), contextWf P = true ∧
        sn.wf rest = true ∧ input.drop k = contextText P ++ (sn.text ++ rest) ∧
        (lexRest A rest).1 = .error e)
    (ihE : ∀ (k1 : Nat) (p1 : Parser α), Parser.new A ⟨input, k1⟩ = .ok p1 →
      parseExpression A f p1 = .error e →
        ∃ (P : List Item) (sn : Seen) (rest : List Char), contextWf P = true ∧
          sn.wf rest = true ∧ input.drop k1 = contextText P ++ (sn.text ++ rest) ∧
          (lexRest A rest).1 = .error e)
    (h : parseExpression A (f + 1) p = .error e) :
    ∃ (P : List Item) (sn : Seen) (rest : List Char), contextWf P = true ∧
      sn.wf rest = true ∧ input.drop k = contextText P ++ (sn.text ++ rest) ∧
      (lexRest A rest).1 = .error e := by
  cases ht : parseTerm A f p with
  | error e' =>
    rw [parseExpression_term_error A f ht] at h
    simp only [Res.error.injEq] at h
    rw [h] at ht
    exact ihT ht
  | outOfFuel => simp [parseExpression, ht] at h
  | ok r =>
    obtain ⟨v1, p1⟩ := r
    obtain ⟨t, rest_t, htt, hwft, _, hdt, hnewt⟩ := ihTok v1 p1 ht
    by_cases hop : isBinaryOp p1.currentToken.type = true
    · obtain ⟨op, hopt⟩ := isBinaryOp_true_iff.mp hop
      rw [parseExpression_op_eq A f op ht hopt] at h
      unfold binaryRest at h
      obtain ⟨ws, rest0, hd0, hws, htk⟩ :=
        Parser.new_punct_inv A (c := op.char) hnewt (by rw [hopt]; exact punctKind_op op)
      have hr0 := drop_add_of_drop_eq _ _ hdt
      have hr1 := drop_after_punct hd0
      cases hc : p1.consume A op.tokenType with
      | error e' =>
        rw [hc] at h
        simp only [Res.error.injEq] at h
        rw [h] at hc
        obtain ⟨_, hnew⟩ := Parser.consume_error_inv A he1 hc
        rw [htk, Parser.new_error_iff_lexRest, hr1] at hnew
        refine ⟨[.operand t ws op], .nothing, rest0,
          by simp [contextWf, Item.wf, htt, hwft, hws], rfl, ?_, hnew⟩
        rw [hdt, ← hr0, hd0]
        simp [contextText, Item.text, Seen.text]
      | ok p2 =>
        rw [hc] at h
        simp only at h
        cases he : parseExpression A f p2 with
        | outOfFuel => rw [he] at h; cases h
        | ok r2 => rw [he] at h; cases h
        | error e' =>
          rw [he] at h
          simp only [Res.error.injEq] at h
          rw [h] at he
          have hnew2 := (Parser.consume_ok_inv A hc).2
          rw [htk] at hnew2
          obtain ⟨P, sn, rest, hwfP, hsn, hdP, hlex⟩ := ihE _ p2 hnew2 he
          refine ⟨.operand t ws op :: P, sn, rest,
            by simpa [contextWf, Item.wf, htt, hwft, hws] using hwfP, hsn, ?_, hlex⟩
          rw [hdt, ← hr0, hd0, ← hr1, hdP]
          simp [contextText, Item.text]
    · simp only [Bool.not_eq_true] at hop
      rw [parseExpression_single A f ht hop] at h
      cases h

/-- An error of the tokenizer that leaves the parser comes from a place where
the parser reads a token: behind items `P` and behind what the parser has seen
of the term that follows them. -/
theorem parse_lex_err_inv {α : Type} (A : Arith α) (input : List Char) {e : Err}
    (he1 : e ≠ .UnexpectedToken) (he2 : e ≠ .InvalidSyntax) :
    ∀ (fuel : Nat) (k : Nat) (p : Parser α), Parser.new A ⟨input, k⟩ = .ok p →
    (parseTerm A fuel p = .error e →
      ∃ (P : List Item) (sn : Seen) (rest : List Char), contextWf P = true ∧
        sn.wf rest = true ∧ input.drop k = contextText P ++ (sn.text ++ rest) ∧
        (lexRest A rest).1 = .error e) ∧
    (parseExpression A fuel p = .error e →
      ∃ (P : List Item) (sn : Seen) (rest : List Char), contextWf P = true ∧
        sn.wf rest = true ∧ input.drop k = contextText P ++ (sn.text ++ rest) ∧
        (lexRest A rest).1 = .error e) := by
  intro fuel
  induction fuel with
  | zero =>
    intro k p _
    constructor
    · intro h; simp [parseTerm] at h
    · intro h; simp [parseExpression] at h
  | succ f ih =>
    intro k p hp
    have ihEok := fun k1 p1 h1 => (parse_inv A input f k1 p1 h1).2.1
    have ihE := fun k1 p1 h1 => (ih k1 p1 h1).2
    constructor
    · intro h
      exact parseTerm_lex_err_inv A f he1 he2 hp ihEok ihE h
    · intro h
      exact parseExpression_lex_err_inv A f he1 (parse_inv A input f k p hp).1
        (ih k p hp).1 ihE h

/-- The function `evaluate` fails with an error of the tokenizer exactly when
the tokenizer fails at a place where the parser reads a token. -/
theorem evaluate_lex_error_iff {α : Type} (A : Arith α) (s : List Char) {e : Err}
    (he1 : e ≠ .UnexpectedToken) (he2 : e ≠ .InvalidSyntax) :
    evaluate A s = .error e ↔
      ∃ (P : List Item) (sn : Seen) (rest : List Char), contextWf P = true ∧
        sn.wf rest = true ∧ s = contextText P ++ (sn.text ++ rest) ∧
        (lexRest A rest).1 = .error e := by
  constructor
  · intro h
    unfold evaluate at h
    cases hp : Parser.new A ⟨s, 0⟩ with
    | error e' =>
      rw [hp] at h
      simp only [Res.error.injEq] at h
      rw [h, Parser.new_error_iff_lexRest] at hp
      exact ⟨[], .nothing, s, rfl, rfl, rfl, by simpa using hp⟩
    | ok p =>
      rw [hp] at h
      simp only at h
      cases he : parseExpression A (2 * s.length + 2) p with
      | ok r => rw [he] at h; cases h
      | outOfFuel => rw [he] at h; cases h
      | error e' =>
        rw [he] at h
        simp only [Res.error.injEq] at h
        rw [h] at he
        obtain ⟨P, sn, rest, hwf, hsn, hd, hlex⟩ :=
          (parse_lex_err_inv A s he1 he2 _ 0 p hp).2 he
        exact ⟨P, sn, rest, hwf, hsn, by simpa using hd, hlex⟩
  · rintro ⟨P, sn, rest, hwf, hsn, rfl, hlex⟩
    exact evaluate_lex_error A e P sn rest hwf hsn hlex

/-! ## The two failures of `std::stod` -/

/-- The tokenizer fails with `NumberFormatError` exactly at a decimal point,
after whitespace, that is not directly followed by a digit. -/
theorem lexRest_numberFormatError_iff {α : Type} (A : Arith α) (suf : List Char) :
    (lexRest A suf).1 = .error .NumberFormatError ↔
      ∃ r, suf.dropWhile isspace = '.' :: r ∧ startsWith isdigit r = false := by
  simp only [lexRest]
  cases hrest : suf.dropWhile isspace with
  | nil => simp
  | cons c r =>
    have hex : (∃ r1, c :: r = '.' :: r1 ∧ startsWith isdigit r1 = false) ↔
        (c = '.' ∧ startsWith isdigit r = false) :=
      ⟨fun ⟨r1, h, hp⟩ => by cases h; exact ⟨rfl, hp⟩, fun ⟨h1, h2⟩ => ⟨r, by rw [h1], h2⟩⟩
    rw [hex]
    by_cases hnum : (isdigit c || c == '.') = true
    · simp only [if_pos hnum]
      rw [← decimalPrefix_run_eq_none r hnum, ← stod_numberFormatError_iff A]
      cases hst : stod A ((c :: r).takeWhile isNumChar) with
      | ok v =>
        constructor
        · intro h; cases h
        · intro h; cases h
      | error e => simp
    · simp only [if_neg hnum]
      have hr : ¬ (c = '.' ∧ startsWith isdigit r = false) := by
        rintro ⟨h1, _⟩
        simp [h1] at hnum
      constructor
      · intro h
        repeat' split at h
        all_goals cases h
      · intro h; exact absurd h hr

/-- The tokenizer fails with `OutOfRange` exactly at a run of digits and decimal
points, after whitespace, whose initial numeral is outside the range of
`double`. -/
theorem lexRest_outOfRange_iff {α : Type} (A : Arith α) (suf : List Char) :
    (lexRest A suf).1 = .error .OutOfRange ↔
      ∃ c r m k, suf.dropWhile isspace = c :: r ∧ isNumChar c = true ∧
        decimalPrefix ((c :: r).takeWhile isNumChar) = some (m, k) ∧
        inDoubleRange m k = false := by
  simp only [lexRest]
  cases hrest : suf.dropWhile isspace with
  | nil => simp
  | cons c r =>
    by_cases hnum : (isdigit c || c == '.') = true
    · simp only [if_pos hnum]
      have hst := stod_eq_error_iff A ((c :: r).takeWhile isNumChar) .OutOfRange
      constructor
      · intro h
        have h1 : stod A ((c :: r).takeWhile isNumChar) = .error .OutOfRange := by
          cases hs : stod A ((c :: r).takeWhile isNumChar) with
          | ok v => rw [hs] at h; cases h
          | error e => rw [hs] at h; simpa using h
        rcases hst.mp h1 with ⟨_, h2⟩ | ⟨m, k, h2, h3, _⟩
        · cases h2
        · exact ⟨c, r, m, k, rfl, hnum, h2, h3⟩
      · rintro ⟨c1, r1, m, k, h1, _, h2, h3⟩
        cases h1
        rw [hst.mpr (Or.inr ⟨m, k, h2, h3, rfl⟩)]
    · simp only [if_neg hnum]
      constructor
      · intro h
        repeat' split at h
        all_goals cases h
      · rintro ⟨c1, r1, m, k, h1, h2, _⟩
        cases h1
        exact absurd h2 hnum

/-- C4, as amended: the tokenizer's `getNextToken` fails with
`NumberFormatError` exactly when, after skipping whitespace, the text continues
with a decimal point that is not directly followed by a digit, so that the
scanned run of digits and decimal points has no initial part that `std::stod`
can convert.  `evaluate` fails with `NumberFormatError` exactly when the text
continues in this way at a place where the parser reads a token: behind any
sequence of `term op` and `(` items, at the start of a term, behind the minus
sign of a negated number, or behind a complete term.  The other failure of
`std::stod`, `std::out_of_range`, arises exactly when the initial numeral of
the scanned run is outside the range of `double`.  A run whose initial part is
a numeral is converted up to that part and the rest of the run is dropped, so
that `evaluate("1.2.3")` returns `1.2`. -/
theorem numberFormatError_iff {α : Type} (A : Arith α) :
    (∀ t : Tokenizer, (t.getNextToken A).1 = .error .NumberFormatError ↔
      ∃ r, (t.input.drop t.pos).dropWhile isspace = '.' :: r ∧ startsWith isdigit r = false) ∧
    (∀ s : List Char, evaluate A s = .error .NumberFormatError ↔
      ∃ (P : List Item) (sn : Seen) (ws r : List Char), contextWf P = true ∧
        isBlank ws = true ∧ sn.wf (ws ++ '.' :: r) = true ∧ startsWith isdigit r = false ∧
        s = contextText P ++ (sn.text ++ (ws ++ '.' :: r))) ∧
    (∀ t : Tokenizer, (t.getNextToken A).1 = .error .OutOfRange ↔
      ∃ c r m k, (t.input.drop t.pos).dropWhile isspace = c :: r ∧ isNumChar c = true ∧
        decimalPrefix ((c :: r).takeWhile isNumChar) = some (m, k) ∧
        inDoubleRange m k = false) ∧
    evaluate A ".".toList = .error .NumberFormatError ∧
    evaluate A "2 + .".toList = .error .NumberFormatError ∧
    evaluate A "(2) ..5".toList = .error .NumberFormatError ∧
    evaluate A "1.2.3".toList = .ok (A.ofDecimal 12 1) := by
  refine ⟨?_, ?_, ?_, ?_, ?_, ?_, ?_⟩
  · intro t
    rw [getNextToken_eq]
    exact lexRest_numberFormatError_iff A _
  · intro s
    rw [evaluate_lex_error_iff A s (by decide) (by decide)]
    constructor
    · rintro ⟨P, sn, rest, hP, hsn, rfl, hlex⟩
      obtain ⟨r, hr, hd⟩ := (lexRest_numberFormatError_iff A rest).mp hlex
      have hsplit := List.takeWhile_append_dropWhile isspace rest
      rw [hr] at hsplit
      refine ⟨P, sn, rest.takeWhile isspace, r, hP, isBlank_takeWhile rest, ?_, hd, ?_⟩
      · rw [hsplit]; exact hsn
      · rw [hsplit]
    · rintro ⟨P, sn, ws, r, hP, hws, hsn, hd, rfl⟩
      refine ⟨P, sn, ws ++ '.' :: r, hP, hsn, rfl, ?_⟩
      rw [lexRest_numberFormatError_iff]
      refine ⟨r, ?_, hd⟩
      rw [List.dropWhile_append_of_pos (isBlank_iff.mp hws)]
      simp [List.dropWhile_cons, isspace]
  · intro t
    rw [getNextToken_eq]
    exact lexRest_outOfRange_iff A _
  · rfl
  · have hlex : (lexRest A " .".toList).1 = .error .NumberFormatError :=
      (lexRest_numberFormatError_iff A _).mpr ⟨[], rfl, rfl⟩
    exact evaluate_lex_error A _ [.operand (.num [] ['2']) [' '] .plus] .nothing " .".toList
      (by decide) (by decide) hlex
  · have hlex : (lexRest A " ..5".toList).1 = .error .NumberFormatError :=
      (lexRest_numberFormatError_iff A _).mpr ⟨".5".toList, rfl, rfl⟩
    exact evaluate_lex_error A _ [] (.term (.paren [] (.num [] ['2']) [])) " ..5".toList
      (by decide) (by decide) hlex
  · rfl

/-- Witness of C4 as amended: `evaluate("2 * (3 .")` fails with
`NumberFormatError`: behind the items `2 * (` and the complete term `3`, the
text continues after a space with a decimal point that no digit follows. -/
theorem numberFormatError_iff_witness :
    contextWf sampleContext = true ∧ isBlank [' '] = true ∧
    (Seen.term (.num [] ['3'])).wf ([' '] ++ '.' :: []) = true ∧
    startsWith isdigit [] = false ∧
    contextText sampleContext ++ ((Seen.term (.num [] ['3'])).text ++ ([' '] ++ '.' :: [])) =
      "2 * (3 .".toList ∧
    evaluate exact "2 * (3 .".toList = .error .NumberFormatError :=
  ⟨by decide, by decide, by decide, by decide, by decide,
    ((numberFormatError_iff exact).2.1 "2 * (3 .".toList).mpr
      ⟨sampleContext, .term (.num [] ['3']), [' '], [], by decide, by decide, by decide,
        by decide, by decide⟩⟩

/-- Counterexample to C4 as stated: `1.2.3` has more than one decimal point, and
`evaluate("1.2.3")` does not fail; it returns `12 / 10`. -/
theorem evaluate_two_points_succeeds :
    evaluate exact "1.2.3".toList = .ok (12 / 10) ∧
    evaluate exact "1.2.3".toList ≠ .error .NumberFormatError := by
  have h : evaluate exact "1.2.3".toList = .ok (exact.ofDecimal 12 1) := rfl
  have v : exact.ofDecimal 12 1 = 12 / 10 := by
    simp [exact]
  rw [h, v]
  exact ⟨rfl, fun h => by cases h⟩

end RightAssocParser
